import Mathlib

/-!
# Ulaminator: the concurrent prime-factor counter

A shallow embedding of `src/Ulaminator.go`.

* Go `int` values are `Nat` (every integer `factCount` and `goFactor` handle is
  non-negative and stays below `2 * len(tab)`); the sizes read by `main`, which may
  be negative, are `Int`.
* `tab []uint8` is a `List Nat`; the one arithmetic write `1 + tab[i/f]` is taken
  modulo `256`.
* A run-time panic of the Go program (index out of range, division by zero, a bad
  `make`, all goroutines asleep) is an `Except` error.
* The goroutines are a transition system.  A thread is either the scheduler
  (`factCount`) or one of the goroutines running `goFactor`.  One move is one
  iteration of a worker's outer `for i` loop, or one iteration of a scheduler loop
  (a receive `<-report` inside it takes the slice of a chosen worker that is blocked at
  `report <- found`).  A schedule is a list of numbers; each number picks the next
  move among those enabled, so every list is a legal interleaving and every
  interleaving is a list.
-/

namespace Ulaminator

/-! ## Entry point -/

/-- `const MIN_SIZE int = 3`. -/
def MIN_SIZE : Int := 3

/-- `const MAX_SIZE int = 16000`. -/
def MAX_SIZE : Int := 16000

/-- `const NUM_THREAD int = 4`. -/
def NUM_THREAD : Nat := 4

/-- `isValidSize`: the bounds check (the messages it prints are left out). -/
def isValidSize (size : Int) : Bool :=
  if size < MIN_SIZE then false
  else if size > MAX_SIZE then false
  else true

/-- `getSize`: the answer to the prompt is `none` when reading or parsing it failed,
and `some count` when `Sscanf` produced `count`. -/
def getSize (line : Option Int) : Int :=
  match line with
  | none => 0
  | some count => if isValidSize count then count else 0

/-- How far `main` gets: it prints the flag defaults and returns, it prints
"Please Try Again!" and returns, or it calls `factCount` on a table made for `size`. -/
inductive Entry where
  | usage
  | tryAgain
  | compute (size : Int)
  deriving DecidableEq, Repr

/-- `main` up to the call of `factCount`: `narg` is `flag.NArg()`, `size` the value of
the `-s` flag (default `0`), `line` the outcome of the prompt should it be asked. -/
def main (narg : Nat) (size : Int) (line : Option Int) : Entry :=
  if narg > 0 then Entry.usage
  else
    let size := if size == 0 || !isValidSize size then getSize line else size
    if size == 0 then Entry.tryAgain
    else Entry.compute size

/-- `pixcount := size * size; tab := make([]uint8, pixcount+1)`: the zeroed table
`main` hands to `factCount`. -/
def makeTab (size : Nat) : List Nat := List.replicate (size * size + 1) 0

/-! ## Run-time failures -/

/-- The ways a run can fail.  `blocked` is not a Go failure: it marks a move that the
chosen thread cannot take; `unfinished` marks a schedule that ended before the
program did. -/
inductive Fault where
  | indexOutOfRange
  | divideByZero
  | makeslice
  | deadlock
  | blocked
  | unfinished
  deriving DecidableEq, Repr

/-! ## The worker `goFactor` -/

/-- `type task struct { start, end int; primes []int }`. -/
structure Task where
  start : Nat
  end_ : Nat
  primes : List Nat
  deriving DecidableEq, Repr

/-- The integer part of the square root, by the recurrence
`floorSqrt (n+1) = floorSqrt n + 1` when that still squares below `n+1`. -/
def floorSqrt : Nat → Nat
  | 0 => 0
  | n + 1 => if (floorSqrt n + 1) * (floorSqrt n + 1) ≤ n + 1 then floorSqrt n + 1 else floorSqrt n

/-- `max := int(1 + math.Sqrt(float64(i)))`, the smallest integer above `sqrt i`.
The floating-point expression is exact on the integers a table can index. -/
def maxOf (i : Nat) : Nat := 1 + floorSqrt i

/-- The inner loop `for _, f := range primes` of `goFactor` for one `i`: the new table
and the new `found`.  Falling off the end of `primes` leaves both as they were. -/
def trial (tab : List Nat) (i max : Nat) (found : List Nat) :
    List Nat → Except Fault (List Nat × List Nat)
  | [] => Except.ok (tab, found)
  | f :: fs =>
    if f ≥ max then
      if i < tab.length then Except.ok (tab.set i 1, found ++ [i])
      else Except.error Fault.indexOutOfRange
    else if f = 0 then Except.error Fault.divideByZero
    else if i % f = 0 then
      match tab[i / f]? with
      | some v =>
        if i < tab.length then Except.ok (tab.set i ((1 + v) % 256), found)
        else Except.error Fault.indexOutOfRange
      | none => Except.error Fault.indexOutOfRange
    else trial tab i max found fs

/-- A goroutine inside `goFactor` that holds a job: the job, the loop variable `i`
and the slice `found` built so far. -/
structure Worker where
  job : Task
  i : Nat
  found : List Nat
  deriving DecidableEq, Repr

/-- The loop `for i := start; i < end; i++` is over: the goroutine is at
`report <- found`. -/
def Worker.done (w : Worker) : Bool := decide (w.job.end_ ≤ w.i)

/-- What `goFactor` does with the task it receives, up to the outer loop: `none` when
the task is the sentinel (`start == 0`, the goroutine returns); `make` panics when
the capacity `2+end-start` is below the length `2`.  The upper limit `make` puts on a
capacity is left out here, as is any limit on the length of `tab`: a task `factCount`
sends covers at most a quarter of the table, so its capacity is far below the limit for
every table `main` makes (`MAX_SIZE * MAX_SIZE + 1` entries at most).  `acceptOn` below
has the limit. -/
def accept (t : Task) : Except Fault (Option Worker) :=
  if t.start = 0 then Except.ok none
  else if t.end_ + 2 < t.start + 2 then Except.error Fault.makeslice
  else Except.ok (some ⟨t, t.start, [t.start, t.end_]⟩)

/-- One iteration of the outer loop of `goFactor`. -/
def tickWorker (tab : List Nat) (w : Worker) : Except Fault (List Nat × Worker) :=
  match trial tab w.i (maxOf w.i) w.found w.job.primes with
  | Except.ok (tab1, found1) => Except.ok (tab1, { w with i := w.i + 1, found := found1 })
  | Except.error e => Except.error e

/-- The outer loop of `goFactor` run for at most `k` iterations. -/
def workLoop : Nat → List Nat → Worker → Except Fault (List Nat × Worker)
  | 0, tab, w => Except.ok (tab, w)
  | k + 1, tab, w =>
    if w.done then Except.ok (tab, w)
    else
      match tickWorker tab w with
      | Except.ok (tab1, w1) => workLoop k tab1 w1
      | Except.error e => Except.error e

/-- One task through `goFactor`, run alone: the table it leaves and the slice it
sends on `report`; `none` for the sentinel. -/
def goFactor (tab : List Nat) (t : Task) : Except Fault (Option (List Nat × List Nat)) :=
  match accept t with
  | Except.error e => Except.error e
  | Except.ok none => Except.ok none
  | Except.ok (some w) =>
    match workLoop (t.end_ - t.start) tab w with
    | Except.ok (tab1, w1) => Except.ok (some (tab1, w1.found))
    | Except.error e => Except.error e

/-- The function `accept` with the upper limit of `make` in.  `lim` is the largest
capacity the run-time grants a `[]int`, a constant of the Go run-time and not of this
repository (`2^45` on 64-bit Linux, and below `2^63` everywhere, so that a capacity
that overflows `int` is above it): `make([]int, 2, 2+end-start)` panics when the
capacity is below the length `2` or above `lim`. -/
def acceptOn (lim : Nat) (t : Task) : Except Fault (Option Worker) :=
  if t.start = 0 then Except.ok none
  else if t.end_ + 2 < t.start + 2 then Except.error Fault.makeslice
  else if lim < t.end_ + 2 - t.start then Except.error Fault.makeslice
  else Except.ok (some ⟨t, t.start, [t.start, t.end_]⟩)

/-- One task through `goFactor`, run alone on a run-time that grants capacities up to
`lim`: the table it leaves and the slice it sends on `report`; `none` for the
sentinel. -/
def goFactorOn (lim : Nat) (tab : List Nat) (t : Task) :
    Except Fault (Option (List Nat × List Nat)) :=
  match acceptOn lim t with
  | Except.error e => Except.error e
  | Except.ok none => Except.ok none
  | Except.ok (some w) =>
    match workLoop (t.end_ - t.start) tab w with
    | Except.ok (tab1, w1) => Except.ok (some (tab1, w1.found))
    | Except.error e => Except.error e

/-! ## The scheduler `factCount` -/

/-- The variables of `factCount` together with the goroutines it started.
`seed` is the variable `i` of the loop that starts the initial jobs; `idle` counts
the goroutines waiting at `<-work`, `busy` lists those holding a job. -/
structure State where
  tab : List Nat
  primes : List Nat
  seed : Nat
  idle : Nat
  busy : List Worker
  jobsOut : Nat
  queue : List (List Nat)
  expected : List Nat
  expI : Nat
  start : Nat
  end_ : Nat
  deriving DecidableEq, Repr

/-- `work <- t`: a goroutine waiting at `<-work` takes the task. -/
def send (s : State) (t : Task) : Except Fault State :=
  if s.idle = 0 then Except.error Fault.deadlock
  else
    match accept t with
    | Except.error e => Except.error e
    | Except.ok none => Except.ok { s with idle := s.idle - 1 }
    | Except.ok (some w) => Except.ok { s with idle := s.idle - 1, busy := s.busy ++ [w] }

/-- `<-report`, answered by goroutine `k`, which must be at `report <- found`; the
goroutine goes back to `<-work`. -/
def receive (s : State) (k : Nat) : Except Fault (List Nat × State) :=
  match s.busy[k]? with
  | some w =>
    if w.done then Except.ok (w.found, { s with busy := s.busy.eraseIdx k, idle := s.idle + 1 })
    else Except.error Fault.blocked
  | none => Except.error Fault.blocked

/-- The position in `queue` of the first result whose start is `expected[expI]`. -/
def findExpected (s : State) : Option Nat :=
  let i := s.queue.findIdx (fun q => q.getD 0 0 == s.expected.getD s.expI 0)
  if i < s.queue.length then some i else none

/-- The next scheduler iteration reaches a `<-report`. -/
def wantsReport (s : State) : Bool :=
  if s.seed < 8 then false
  else if s.start ≥ s.tab.length then s.queue.isEmpty
  else if s.jobsOut + s.queue.length < 4 then false
  else (findExpected s).isNone

/-- The statements from the start of `factCount` up to the first seed: the bootstrap
writes and the declarations (those after the seeding loop are given their initial
values at once; the seeding loop does not use them). -/
def initState (tab : List Nat) : Except Fault State :=
  if 3 < tab.length then
    Except.ok
      { tab := ((tab.set 1 1).set 2 1).set 3 1
        primes := [2, 3]
        seed := 4
        idle := 0
        busy := []
        jobsOut := 4
        queue := []
        expected := [4, 5, 6, 7]
        expI := 0
        start := 8
        end_ := 10 }
  else Except.error Fault.indexOutOfRange

/-- One iteration of the scheduler: of the seeding loop while `seed < 8`, afterwards of
the main loop.  `k` names the goroutine that answers a `<-report`. -/
def schedStep (s : State) (k : Nat) : Except Fault State :=
  if s.seed < 8 then
    -- go goFactor(work, tab[:], report); work <- *seed
    match send { s with idle := s.idle + 1 } ⟨s.seed, s.seed + 1, s.primes⟩ with
    | Except.ok s1 => Except.ok { s1 with seed := s1.seed + 1 }
    | Except.error e => Except.error e
  else if s.start ≥ s.tab.length then
    match s.queue with
    | q :: qs => Except.ok { s with primes := s.primes ++ q.drop 2, queue := qs }
    | [] =>
      match receive s k with
      | Except.ok (results, s1) =>
        Except.ok { s1 with jobsOut := s1.jobsOut - 1, primes := s1.primes ++ results.drop 2 }
      | Except.error e => Except.error e
  else if s.jobsOut + s.queue.length < 4 then
    match send s ⟨s.start, if s.end_ ≤ s.tab.length then s.end_ else s.tab.length, s.primes⟩ with
    | Except.ok s1 =>
      Except.ok { s1 with
        jobsOut := s1.jobsOut + 1
        expected := s1.expected.set s1.expI s1.start
        expI := (s1.expI + 1) % 4 }
    | Except.error e => Except.error e
  else
    match findExpected s with
    | some i =>
      let qresult := s.queue.getD i []
      Except.ok { s with
        primes := s.primes ++ qresult.drop 2
        start := qresult.getD 0 0 * 2
        end_ := qresult.getD 1 0 * 2
        queue := (s.queue.set i (s.queue.getD (s.queue.length - 1) [])).dropLast }
    | none =>
      match receive s k with
      | Except.ok (results, s1) =>
        if results.getD 0 0 = s1.expected.getD s1.expI 0 then
          Except.ok { s1 with
            jobsOut := s1.jobsOut - 1
            primes := s1.primes ++ results.drop 2
            start := results.getD 0 0 * 2
            end_ := results.getD 1 0 * 2 }
        else
          Except.ok { s1 with jobsOut := s1.jobsOut - 1, queue := s1.queue ++ [results] }
      | Except.error e => Except.error e

/-- A move: goroutine `k` runs one iteration of its outer loop, or the scheduler runs
one iteration (receiving from goroutine `k` if it receives). -/
inductive Action where
  | tick (k : Nat)
  | sched (k : Nat)
  deriving DecidableEq, Repr

/-- The condition of `for jobsOut+len(queue) > 0` is false (and seeding is over). -/
def loopOver (s : State) : Bool := decide (8 ≤ s.seed) && decide (s.jobsOut + s.queue.length = 0)

/-- The moves that can be taken in `s`: a tick of every goroutine that is inside its
loop and, unless the scheduler waits at `<-report` for a goroutine that has not
finished, a scheduler iteration. -/
def enabled (s : State) : List Action :=
  ((List.range s.busy.length).filter (fun k => !((s.busy.getD k ⟨⟨0, 0, []⟩, 0, []⟩).done))).map Action.tick
    ++ (if wantsReport s then
          ((List.range s.busy.length).filter
            (fun k => (s.busy.getD k ⟨⟨0, 0, []⟩, 0, []⟩).done)).map Action.sched
        else [Action.sched 0])

/-- Take a move. -/
def step (s : State) : Action → Except Fault State
  | Action.tick k =>
    match s.busy[k]? with
    | some w =>
      if w.done then Except.error Fault.blocked
      else
        match tickWorker s.tab w with
        | Except.ok (tab1, w1) => Except.ok { s with tab := tab1, busy := s.busy.set k w1 }
        | Except.error e => Except.error e
    | none => Except.error Fault.blocked
  | Action.sched k => schedStep s k

/-- Run the threads along a schedule until the main loop of `factCount` is over.  With
no move enabled all goroutines are asleep. -/
def run : List Nat → State → Except Fault State
  | cs, s =>
    if loopOver s then Except.ok s
    else
      match enabled s, cs with
      | [], _ => Except.error Fault.deadlock
      | _ :: _, [] => Except.error Fault.unfinished
      | a :: as, c :: cs1 =>
        match step s ((a :: as).getD (c % (a :: as).length) a) with
        | Except.ok s1 => run cs1 s1
        | Except.error e => Except.error e

/-- The loop `for i := 0; i < 4; i++ { work <- *new(task) }` run `k` times. -/
def kill : Nat → State → Except Fault State
  | 0, s => Except.ok s
  | k + 1, s =>
    match send s ⟨0, 0, []⟩ with
    | Except.ok s1 => kill k s1
    | Except.error e => Except.error e

/-- `factCount` on the table `tab` under a schedule: the table it leaves, the final
primes registry, and the integer it returns. -/
def factCountFull (tab : List Nat) (cs : List Nat) : Except Fault (State × Nat) :=
  match initState tab with
  | Except.error e => Except.error e
  | Except.ok s0 =>
    match run cs s0 with
    | Except.error e => Except.error e
    | Except.ok s1 =>
      match kill 4 s1 with
      | Except.ok s2 => Except.ok (s2, s2.primes.length)
      | Except.error e => Except.error e

/-- `factCount` on the table `tab` under a schedule: the table it leaves and the
integer it returns. -/
def factCount (tab : List Nat) (cs : List Nat) : Except Fault (List Nat × Nat) :=
  match factCountFull tab cs with
  | Except.ok (s, n) => Except.ok (s.tab, n)
  | Except.error e => Except.error e

/-! ## The record of a run

What the threads do that leaves no mark in the variables of `factCount`: the tasks
sent on `work`, the results retired while the pool is saturated, and the indices of
`tab` that are assigned. -/

/-- The inner loop `for _, f := range primes` of `goFactor` for one `i` leaves through
one of its two `break` statements, each of which follows an assignment to `tab[i]`;
`false` when it runs off the end of `primes`, or divides by zero first. -/
def breaks (i max : Nat) : List Nat → Bool
  | [] => false
  | f :: fs =>
    if f ≥ max then true
    else if f = 0 then false
    else if i % f = 0 then true
    else breaks i max fs

/-- The task the next scheduler iteration sends on `work`: a seed while the seeding
loop runs, a new job in the branch `jobsOut+len(queue) < 4` of the main loop. -/
def sent (s : State) : Option Task :=
  if s.seed < 8 then some ⟨s.seed, s.seed + 1, s.primes⟩
  else if s.start ≥ s.tab.length then none
  else if s.jobsOut + s.queue.length < 4 then
    some ⟨s.start, if s.end_ ≤ s.tab.length then s.end_ else s.tab.length, s.primes⟩
  else none

/-- The result the next scheduler iteration retires in the last branch of the main
loop (the pool is saturated, the table is not exhausted): the queued result whose
start is `expected[expI]`, or the result received from goroutine `k` when it comes in
order.  Retiring is what sets `start` and `end` for the next job. -/
def retired (s : State) (k : Nat) : Option (List Nat) :=
  if s.seed < 8 then none
  else if s.start ≥ s.tab.length then none
  else if s.jobsOut + s.queue.length < 4 then none
  else
    match findExpected s with
    | some i => some (s.queue.getD i [])
    | none =>
      match receive s k with
      | Except.ok (results, s1) =>
        if results.getD 0 0 = s1.expected.getD s1.expI 0 then some results else none
      | Except.error _ => none

/-- The index of `tab` that the next iteration of the outer loop of goroutine `k`
assigns. -/
def written (s : State) (k : Nat) : Option Nat :=
  match s.busy[k]? with
  | some w =>
    if w.done then none
    else if breaks w.i (maxOf w.i) w.job.primes then some w.i
    else none
  | none => none

/-- The tasks a move sends on `work`. -/
def sentBy (s : State) : Action → List Task
  | Action.tick _ => []
  | Action.sched _ => (sent s).toList

/-- The results a move retires. -/
def retiredBy (s : State) : Action → List (List Nat)
  | Action.tick _ => []
  | Action.sched k => (retired s k).toList

/-- The indices of `tab` a move assigns. -/
def writtenBy (s : State) : Action → List Nat
  | Action.tick k => (written s k).toList
  | Action.sched _ => []

/-- The record of a run so far, each list in the order of the moves. -/
structure Log where
  dispatched : List Task
  retired : List (List Nat)
  written : List Nat
  deriving DecidableEq, Repr

/-- The record when the seeding loop starts: `tab[1], tab[2], tab[3] = 1, 1, 1` has
assigned three entries. -/
def initLog : Log := ⟨[], [], [1, 2, 3]⟩

/-- The record after one more move, taken in `s`. -/
def record (g : Log) (s : State) (a : Action) : Log :=
  { dispatched := g.dispatched ++ sentBy s a
    retired := g.retired ++ retiredBy s a
    written := g.written ++ writtenBy s a }

/-- The states a run can pass through from the table `tab`, each with the record of
the moves that led to it. -/
inductive Trace (tab : List Nat) : State → Log → Prop where
  | init {s : State} : initState tab = Except.ok s → Trace tab s initLog
  | step {s s1 : State} {g : Log} {a : Action} : Trace tab s g → loopOver s = false →
      a ∈ enabled s → step s a = Except.ok s1 → Trace tab s1 (record g s a)

/-- The function `run`, keeping the record. -/
def runLog : List Nat → State → Log → Except Fault (State × Log)
  | cs, s, g =>
    if loopOver s then Except.ok (s, g)
    else
      match enabled s, cs with
      | [], _ => Except.error Fault.deadlock
      | _ :: _, [] => Except.error Fault.unfinished
      | a :: as, c :: cs1 =>
        match step s ((a :: as).getD (c % (a :: as).length) a) with
        | Except.ok s1 => runLog cs1 s1 (record g s ((a :: as).getD (c % (a :: as).length) a))
        | Except.error e => Except.error e

/-- The function `factCountFull`, keeping the record: the final state and the record of
the whole run. -/
def factCountLog (tab : List Nat) (cs : List Nat) : Except Fault (State × Log) :=
  match initState tab with
  | Except.error e => Except.error e
  | Except.ok s0 =>
    match runLog cs s0 initLog with
    | Except.error e => Except.error e
    | Except.ok (s1, g) =>
      match kill 4 s1 with
      | Except.ok s2 => Except.ok (s2, g)
      | Except.error e => Except.error e

/-! ## The renderer `renderImage` -/

/-- `color.NRGBA`: the four channels of a colour, each a `uint8`. -/
structure NRGBA where
  r : Nat
  g : Nat
  b : Nat
  a : Nat
  deriving DecidableEq, Repr

/-- `max := int(1 + math.Log2(float64(size*size)))`: one more than the integer part of
the binary logarithm of `size*size`.  The floating-point expression is exact on the
sizes `main` accepts. -/
def maxGrey (size : Nat) : Nat := 1 + Nat.log 2 (size * size)

/-- The table of `max` greys: entry `i` is `uint8((i + 1) * 255 / max)` on the three
colour channels. -/
def colorTab (max : Nat) : List NRGBA :=
  (List.range max).map
    (fun i => ⟨(i + 1) * 255 / max % 256, (i + 1) * 255 / max % 256, (i + 1) * 255 / max % 256, 255⟩)

/-- `black := color.NRGBA{0x00, 0x00, 0x00, 0xFF}`. -/
def black : NRGBA := ⟨0, 0, 0, 255⟩

/-- `white := color.NRGBA{0xFF, 0xFF, 0xFF, 0xFF}`. -/
def white : NRGBA := ⟨255, 255, 255, 255⟩

/-- The variables of the spiral walk in `renderImage`. -/
structure Pen where
  xDirRight : Bool
  yDirUp : Bool
  steps : Int
  xToGo : Int
  yToGo : Int
  xHere : Int
  yHere : Int
  deriving DecidableEq, Repr

/-- The values of the walk variables before the loop; `/` on `int` truncates. -/
def penStart (size : Nat) : Pen :=
  ⟨true, true, 1, 1, 1, Int.tdiv ((size : Int) - 1) 2, Int.tdiv (size : Int) 2⟩

/-- The first half of the loop body after the pixel is set: one step in the current
direction. -/
def Pen.advance (p : Pen) : Pen :=
  if p.xDirRight && p.yDirUp then { p with xHere := p.xHere + 1, xToGo := p.xToGo - 1 }
  else if p.yDirUp then { p with yHere := p.yHere - 1, yToGo := p.yToGo - 1 }
  else if p.xDirRight then { p with yHere := p.yHere + 1, yToGo := p.yToGo - 1 }
  else { p with xHere := p.xHere - 1, xToGo := p.xToGo - 1 }

/-- The second half: "handle direction changes". -/
def Pen.turn (p : Pen) : Pen :=
  if p.xToGo = 0 then { p with xDirRight := !p.xDirRight, xToGo := p.steps + 1 }
  else if p.yToGo = 0 then
    { p with yDirUp := !p.yDirUp, steps := p.steps + 1, yToGo := p.steps + 1 }
  else p

/-- The walk variables after one iteration of the loop. -/
def Pen.next (p : Pen) : Pen := p.advance.turn

/-- A call `raw.Set(x, y, c)`. -/
structure Dot where
  x : Int
  y : Int
  c : NRGBA
  deriving DecidableEq, Repr

/-- The colour the loop body passes to `raw.Set` for `tab[i]`: `colorTab[tab[i]]` in
greyscale, else black for a prime and white for the rest. -/
def shade (tab : List Nat) (colors : List NRGBA) (isGreyscale : Bool) (i : Nat) :
    Except Fault NRGBA :=
  match tab[i]? with
  | none => Except.error Fault.indexOutOfRange
  | some v =>
    if isGreyscale then
      match colors[v]? with
      | some c => Except.ok c
      | none => Except.error Fault.indexOutOfRange
    else if v = 1 then Except.ok black
    else Except.ok white

/-- The loop `for i := 1; i < len(tab); i++` of `renderImage` from `i` on, run for at
most `k` iterations: the calls of `raw.Set` in order. -/
def paint (tab : List Nat) (colors : List NRGBA) (isGreyscale : Bool) :
    Nat → Nat → Pen → Except Fault (List Dot)
  | 0, _, _ => Except.ok []
  | k + 1, i, p =>
    if i < tab.length then
      match shade tab colors isGreyscale i with
      | Except.error e => Except.error e
      | Except.ok c =>
        match paint tab colors isGreyscale k (i + 1) p.next with
        | Except.ok ds => Except.ok (⟨p.xHere, p.yHere, c⟩ :: ds)
        | Except.error e => Except.error e
    else Except.ok []

/-- `renderImage`: the calls of `raw.Set` it makes on the fresh `size` by `size` image, in
order (the image it returns is the one these calls paint). -/
def renderImage (tab : List Nat) (size : Nat) (isGreyscale : Bool) : Except Fault (List Dot) :=
  paint tab (colorTab (maxGrey size)) isGreyscale (tab.length - 1) 1 (penStart size)

open ArithmeticFunction

/-! ## Specification vocabulary -/

/-- The primes `p` with `lo ≤ p < hi`, in increasing order. -/
def primesIn (lo hi : Nat) : List Nat :=
  (List.range' lo (hi - lo)).filter (fun p => decide (Nat.Prime p))

/-- Start of the `j`-th range the scheduler hands out. -/
def rs : Nat → Nat
  | 0 => 4
  | 1 => 5
  | 2 => 6
  | 3 => 7
  | n + 4 => 2 * rs n

/-- The value an iteration of the outer loop of `goFactor` stores at `tab[i]` when the
snapshot serves `i`: `1` for a prime, else one more than the entry of `i` divided by
its least prime factor. -/
def tickVal (tab : List Nat) (i : Nat) : Nat :=
  if i.Prime then 1 else (1 + tab.getD (i / i.minFac) 0) % 256

/-- The task for range `j` on a table of length `L`: the range is cut at `L`, the
snapshot is the registry as it stands once range `j - 4` has been retired. -/
def jobOf (L j : Nat) : Task := ⟨rs j, min (rs (j + 1)) L, primesIn 0 (rs (j - 3))⟩

/-- The primes of range `j`. -/
def primesOf (L j : Nat) : List Nat := primesIn (rs j) (min (rs (j + 1)) L)

/-- The slice a worker reports for range `j`. -/
def resultOf (L j : Nat) : List Nat := [rs j, min (rs (j + 1)) L] ++ primesOf L j

/-- The seeding loop is running: ranges `0 .. seed - 5` have been handed out. -/
def Seeding (s : State) (n m : Nat) (bj qj : List Nat) : Prop :=
  s.seed < 8 ∧ 4 ≤ s.seed ∧ n = 0 ∧ m + 4 = s.seed ∧ bj = List.range' 0 m ∧ qj = [] ∧
    s.idle = 0 ∧ s.busy.length = m ∧ s.primes = primesIn 0 4 ∧ s.jobsOut = 4 ∧
    s.expected = [4, 5, 6, 7] ∧ s.expI = 0 ∧ s.start = 8 ∧ s.end_ = 10

/-- The main loop before the table is exhausted: ranges below `n` are retired in
order, ranges `n .. m - 1` are outstanding, and `expected` lists their starts from
`expI` on. -/
def Steady (L : Nat) (s : State) (n m : Nat) (bj qj : List Nat) : Prop :=
  s.seed = 8 ∧ s.start < L ∧ s.jobsOut = s.busy.length ∧ s.idle + s.busy.length = 4 ∧
    s.primes = primesIn 0 (rs n) ∧ (bj ++ qj).Perm (List.range' n (m - n)) ∧
    s.expI < 4 ∧ s.expected.length = 4 ∧
    ((m = n + 4 ∧ ∀ t, t < 4 → s.expected.getD ((s.expI + t) % 4) 0 = rs (n + t)) ∨
     (m = n + 3 ∧ s.start = rs (n + 3) ∧ s.end_ = rs (n + 4) ∧
        ∀ t, 1 ≤ t → t < 4 → s.expected.getD ((s.expI + t) % 4) 0 = rs (n + t - 1)))

/-- The main loop once `start` has passed the table: every index is handed out, and
the registry together with the primes of the outstanding ranges is the set of primes
of the table. -/
def Draining (L : Nat) (s : State) (m : Nat) (bj qj : List Nat) : Prop :=
  s.seed = 8 ∧ L ≤ s.start ∧ s.jobsOut = s.busy.length ∧ s.idle + s.busy.length = 4 ∧
    L ≤ rs m ∧ (s.primes ++ (bj ++ qj).flatMap (primesOf L)).Perm (primesIn 0 L)

/-- The invariant of the run on a table of length `L`.  `n` ranges are retired in
order and `m` are handed out; `bj` and `qj` name the ranges held by the busy
goroutines and by the queue. -/
structure Inv (L : Nat) (s : State) (n m : Nat) (bj qj : List Nat) : Prop where
  len : s.tab.length = L
  big : 8 ≤ L
  zero : s.tab[0]? = some 0
  one : s.tab[1]? = some 1
  jobs : s.busy.map Worker.job = bj.map (jobOf L)
  prog : ∀ w ∈ s.busy, w.job.start ≤ w.i ∧ w.i ≤ w.job.end_ ∧
    w.found = [w.job.start, w.job.end_] ++ primesIn w.job.start w.i
  que : s.queue = qj.map (resultOf L)
  win : ∀ j ∈ bj ++ qj, n ≤ j ∧ j < m
  mle : m ≤ n + 4
  disp : ∀ j, j < m → rs j < L
  tabOK : ∀ x, 2 ≤ x → x < rs m → x < L →
    (∀ w ∈ s.busy, ¬ (w.i ≤ x ∧ x < w.job.end_)) → s.tab[x]? = some (Ω x % 256)
  qlen : s.queue.length ≤ 3
  tot : s.jobsOut + s.queue.length ≤ 4
  phase : Seeding s n m bj qj ∨ Steady L s n m bj qj ∨ Draining L s m bj qj

/-- The number of moves left is at most this: four for every index not handed out,
two and its remaining indices for every busy goroutine, one for every queued
result. -/
def measure (L : Nat) (s : State) (m : Nat) : Nat :=
  4 * (L - min (rs m) L) + (s.busy.map (fun w => 2 + (w.job.end_ - w.i))).sum + s.queue.length

/-- The states a run can pass through from the table `tab`. -/
inductive Reach (tab : List Nat) : State → Prop where
  | init {s : State} : initState tab = Except.ok s → Reach tab s
  | step {s s1 : State} {a : Action} : Reach tab s → loopOver s = false → a ∈ enabled s →
      step s a = Except.ok s1 → Reach tab s1

/-- Equality of outcomes is decidable. -/
instance instDecidableEqExcept {α : Type} [DecidableEq α] : DecidableEq (Except Fault α)
  | Except.ok a, Except.ok b =>
    if h : a = b then isTrue (by rw [h]) else isFalse (by intro e; cases e; exact h rfl)
  | Except.error a, Except.error b =>
    if h : a = b then isTrue (by rw [h]) else isFalse (by intro e; cases e; exact h rfl)
  | Except.ok _, Except.error _ => isFalse (by intro e; cases e)
  | Except.error _, Except.ok _ => isFalse (by intro e; cases e)

/-- The move that `run` takes in `s` on the schedule entry `c`. -/
def move (s : State) (c : Nat) : Except Fault State :=
  match enabled s with
  | [] => Except.error Fault.deadlock
  | a :: as => step s ((a :: as).getD (c % (a :: as).length) a)


/-- The number of busy goroutines that have yet to assign `tab[x]`. -/
def pending (x : Nat) (busy : List Worker) : Nat :=
  busy.countP (fun w => decide (w.i ≤ x ∧ x < w.job.end_))

/-- The number of tasks whose range holds `x`. -/
def covered (x : Nat) (ts : List Task) : Nat :=
  ts.countP (fun t => decide (t.start ≤ x ∧ x < t.end_))

/-- What a move that takes the invariant from `n`, `m` to `n1`, `m1` leaves on the
record: it sends range `m` or nothing, it retires range `n` or nothing, and every
index a new task covers is pending.  No move both sends and retires. -/
structure Moved (L : Nat) (s : State) (a : Action) (s1 : State) (n m n1 m1 : Nat) : Prop where
  sends : sentBy s a = if m1 = m then [] else [jobOf L m]
  mstep : m1 = m ∨ (m1 = m + 1 ∧ rs m < L)
  retires : retiredBy s a = if n1 = n then [] else [resultOf L n]
  nstep : n1 = n ∨ (n1 = n + 1 ∧ n < m)
  excl : m1 = m ∨ n1 = n
  cons : ∀ x, pending x s1.busy + (writtenBy s a).count x
    = pending x s.busy + covered x (sentBy s a)

/-- The record of a run in a state where `n` ranges are retired and `m` handed out. -/
structure Logged (L : Nat) (s : State) (g : Log) (n m : Nat) : Prop where
  disp : g.dispatched = (List.range m).map (jobOf L)
  ret : g.retired = (List.range n).map (resultOf L)
  wr : ∀ x, g.written.count x + pending x s.busy
    = covered x g.dispatched + ([1, 2, 3] : List Nat).count x
  boot : ∃ ws, g.written = [1, 2, 3] ++ ws
  nle : n ≤ m

/-- The least integer whose square is at least `n`. -/
def ceilSqrt (n : Nat) : Nat :=
  if floorSqrt n * floorSqrt n = n then floorSqrt n else floorSqrt n + 1

/-- The positions of the pen over `k` iterations of the loop body of `renderImage`. -/
def walk : Nat → Pen → List (Int × Int)
  | 0, _ => []
  | k + 1, p => (p.xHere, p.yHere) :: walk k p.next

/-- The list `v` holds each point of the square with corner `(cx, cy)` and side `t`
once, and nothing else. -/
def Filled (v : List (Int × Int)) (cx cy : Int) (t : Nat) : Prop :=
  v.Nodup ∧ ∀ a b, (a, b) ∈ v ↔ cx ≤ a ∧ a < cx + t ∧ cy ≤ b ∧ b < cy + t

/-- The state `s` with its table cut to the first `k` entries: the state of the run on a
shorter zeroed table that has taken the same moves. -/
def cut (k : Nat) (s : State) : State := { s with tab := s.tab.take k }

/-! ## Arithmetic -/

theorem floorSqrt_sq_le (n : Nat) : floorSqrt n * floorSqrt n ≤ n := by
  induction n with
  | zero => simp [floorSqrt]
  | succ n ih =>
    unfold floorSqrt
    split
    · assumption
    · omega

theorem lt_floorSqrt_succ_sq (n : Nat) : n < (floorSqrt n + 1) * (floorSqrt n + 1) := by
  induction n with
  | zero => simp [floorSqrt]
  | succ n ih =>
    unfold floorSqrt
    split
    · rename_i h
      nlinarith
    · omega

theorem lt_maxOf_iff (f i : Nat) : f < maxOf i ↔ f * f ≤ i := by
  unfold maxOf
  have h1 := floorSqrt_sq_le i
  have h2 := lt_floorSqrt_succ_sq i
  constructor
  · intro h
    have : f ≤ floorSqrt i := by omega
    calc f * f ≤ floorSqrt i * floorSqrt i := Nat.mul_le_mul this this
      _ ≤ i := h1
  · intro h
    by_contra hc
    have : floorSqrt i + 1 ≤ f := by omega
    have := Nat.mul_le_mul this this
    omega

theorem mem_primesIn {lo hi p : Nat} : p ∈ primesIn lo hi ↔ lo ≤ p ∧ p < hi ∧ p.Prime := by
  unfold primesIn
  simp only [List.mem_filter, List.mem_range'_1, decide_eq_true_eq]
  constructor
  · rintro ⟨⟨h1, h2⟩, h3⟩; exact ⟨h1, by omega, h3⟩
  · rintro ⟨h1, h2, h3⟩; exact ⟨⟨h1, by omega⟩, h3⟩

theorem primesIn_sorted (lo hi : Nat) : (primesIn lo hi).Sorted (· < ·) := by
  unfold primesIn
  exact List.Pairwise.sublist (List.filter_sublist _) (List.pairwise_lt_range' lo (hi - lo))

theorem primesIn_append {a b c : Nat} (h1 : a ≤ b) (h2 : b ≤ c) :
    primesIn a b ++ primesIn b c = primesIn a c := by
  unfold primesIn
  rw [← List.filter_append]
  congr 1
  have e1 : c - a = (c - b) + (b - a) := by omega
  have e2 : b = a + (b - a) := by omega
  rw [e1, ← List.range'_append_1, ← e2]

theorem primesIn_empty {a b : Nat} (h : b ≤ a) : primesIn a b = [] := by
  unfold primesIn
  have : b - a = 0 := by omega
  simp [this]

theorem primesIn_succ (a b : Nat) (h : a ≤ b) :
    primesIn a (b + 1) = primesIn a b ++ (if b.Prime then [b] else []) := by
  rw [← primesIn_append h (Nat.le_succ b)]
  congr 1
  unfold primesIn
  have : b + 1 - b = 1 := by omega
  rw [this]
  simp [List.range', List.filter_cons]

theorem primesIn_zero_four : primesIn 0 4 = [2, 3] := by
  unfold primesIn
  simp [List.range', List.filter_cons]
  norm_num

theorem rs_add_four (n : Nat) : rs (n + 4) = 2 * rs n := by
  rw [rs]

theorem rs_facts (n : Nat) : 4 ≤ rs n ∧ rs n < rs (n + 1) ∧ rs (n + 1) ≤ 2 * rs n := by
  induction n using Nat.strong_induction_on with
  | _ n ih =>
    match n with
    | 0 => simp [rs]
    | 1 => simp [rs]
    | 2 => simp [rs]
    | 3 => simp [rs]
    | k + 4 =>
      have h := ih k (by omega)
      have e1 : rs (k + 4) = 2 * rs k := rs_add_four k
      have e2 : rs (k + 4 + 1) = 2 * rs (k + 1) := rs_add_four (k + 1)
      rw [e1, e2]
      omega

theorem rs_ge (n : Nat) : 4 ≤ rs n := (rs_facts n).1

theorem rs_lt_succ (n : Nat) : rs n < rs (n + 1) := (rs_facts n).2.1

theorem rs_strictMono : StrictMono rs := strictMono_nat_of_lt_succ rs_lt_succ

theorem rs_lt_iff {a b : Nat} : rs a < rs b ↔ a < b := rs_strictMono.lt_iff_lt

theorem rs_le_iff {a b : Nat} : rs a ≤ rs b ↔ a ≤ b := rs_strictMono.le_iff_le

theorem rs_inj {a b : Nat} : rs a = rs b ↔ a = b := rs_strictMono.injective.eq_iff

/-- The end of range `j` is at most twice the bound of its snapshot. -/
theorem rs_succ_le (j : Nat) : rs (j + 1) ≤ 2 * rs (j - 3) := by
  match j with
  | 0 => simp [rs]
  | 1 => simp [rs]
  | 2 => simp [rs]
  | k + 3 =>
    have : k + 3 - 3 = k := by omega
    rw [this, show k + 3 + 1 = k + 4 by omega, rs_add_four]

theorem rs_small (m : Nat) (h : m ≤ 4) : rs m = m + 4 := by
  interval_cases m <;> simp [rs]

/-- Bertrand: below every bound `R ≥ 6` (and below `4`) there is a prime whose square
reaches `2 R`. -/
theorem exists_prime_sq_ge (R : Nat) (h : 6 ≤ R ∨ R = 4) :
    ∃ p, p.Prime ∧ p < R ∧ 2 * R ≤ p * p := by
  rcases h with h | h
  · by_cases h8 : 8 ≤ R
    · obtain ⟨p, hp, h1, h2⟩ := Nat.exists_prime_lt_and_le_two_mul ((R - 1) / 2) (by omega)
      refine ⟨p, hp, by omega, ?_⟩
      have h3 : R ≤ 2 * p := by omega
      nlinarith
    · refine ⟨5, by norm_num, by omega, by omega⟩
  · subst h
    exact ⟨3, by norm_num, by omega, by omega⟩

theorem two_pow_cardFactors_le (i : Nat) (h : i ≠ 0) : 2 ^ Ω i ≤ i := by
  rw [cardFactors_apply]
  have hp := Nat.prod_primeFactorsList h
  have key : ∀ l : List Nat, (∀ p ∈ l, 2 ≤ p) → 2 ^ l.length ≤ l.prod := by
    intro l
    induction l with
    | nil => simp
    | cons a t ih =>
      intro hl
      simp only [List.length_cons, List.prod_cons, pow_succ]
      have h1 := hl a (List.mem_cons_self _ _)
      have h2 := ih (fun p hp => hl p (List.mem_cons_of_mem _ hp))
      calc 2 ^ t.length * 2 = 2 * 2 ^ t.length := by ring
        _ ≤ a * t.prod := Nat.mul_le_mul h1 h2
  calc 2 ^ i.primeFactorsList.length ≤ i.primeFactorsList.prod :=
        key _ (fun p hp => (Nat.prime_of_mem_primeFactorsList hp).two_le)
    _ = i := hp

theorem cardFactors_lt_of_lt_two_pow {i k : Nat} (h0 : i ≠ 0) (h : i < 2 ^ k) : Ω i < k := by
  by_contra hc
  have h1 := two_pow_cardFactors_le i h0
  have h2 : 2 ^ k ≤ 2 ^ Ω i := Nat.pow_le_pow_right (by norm_num) (by omega)
  omega

theorem cardFactors_div_prime {i q : Nat} (h : 2 ≤ i) (hq : q.Prime) (hd : q ∣ i) :
    Ω i = 1 + Ω (i / q) := by
  obtain ⟨c, rfl⟩ := hd
  have hc0 : c ≠ 0 := by rintro rfl; omega
  rw [Nat.mul_div_cancel_left c hq.pos, cardFactors_mul hq.ne_zero hc0,
    cardFactors_apply_prime hq]


/-! ## The worker -/

theorem trial_prime (tab : List Nat) (i max : Nat) (found snap : List Nat)
    (h1 : ∀ f ∈ snap, f < max → f ≠ 0 ∧ i % f ≠ 0) (h2 : ∃ p ∈ snap, max ≤ p)
    (h3 : i < tab.length) :
    trial tab i max found snap = Except.ok (tab.set i 1, found ++ [i]) := by
  induction snap with
  | nil => simp at h2
  | cons f fs ih =>
    unfold trial
    by_cases hf : f ≥ max
    · simp [hf, h3]
    · have hf1 := h1 f (List.mem_cons_self _ _) (by omega)
      simp only [hf, if_false, hf1.1, hf1.2]
      apply ih
      · intro g hg; exact h1 g (List.mem_cons_of_mem _ hg)
      · obtain ⟨p, hp, hpm⟩ := h2
        rcases List.mem_cons.1 hp with rfl | hp
        · exact absurd hpm hf
        · exact ⟨p, hp, hpm⟩

theorem trial_composite (tab : List Nat) (i max q v : Nat) (found snap : List Nat)
    (hs : snap.Sorted (· < ·)) (hq : q ∈ snap) (hqm : q < max) (hq0 : q ≠ 0)
    (hd : i % q = 0) (h1 : ∀ f ∈ snap, f < q → f ≠ 0 ∧ i % f ≠ 0)
    (hv : tab[i / q]? = some v) (h3 : i < tab.length) :
    trial tab i max found snap = Except.ok (tab.set i ((1 + v) % 256), found) := by
  induction snap with
  | nil => simp at hq
  | cons f fs ih =>
    unfold trial
    rcases List.mem_cons.1 hq with rfl | hq
    · have : ¬ q ≥ max := by omega
      simp [this, hq0, hd, hv, h3]
    · have hfq : f < q := List.rel_of_sorted_cons hs q hq
      have hf1 := h1 f (List.mem_cons_self _ _) hfq
      have : ¬ f ≥ max := by omega
      simp only [this, if_false, hf1.1, hf1.2]
      exact ih (List.Sorted.of_cons hs) hq (fun g hg => h1 g (List.mem_cons_of_mem _ hg))

/-- One iteration of the outer loop when the snapshot serves `w.i`. -/
theorem tickWorker_spec (tab : List Nat) (w : Worker)
    (hs : w.job.primes.Sorted (· < ·)) (hp : ∀ f ∈ w.job.primes, f.Prime)
    (h2 : 2 ≤ w.i) (hlen : w.i < tab.length)
    (hprime : w.i.Prime → ∃ p ∈ w.job.primes, w.i < p * p)
    (hcomp : ¬ w.i.Prime → w.i.minFac ∈ w.job.primes) :
    tickWorker tab w = Except.ok (tab.set w.i (tickVal tab w.i),
      { w with i := w.i + 1, found := w.found ++ (if w.i.Prime then [w.i] else []) }) := by
  unfold tickWorker tickVal
  by_cases hi : w.i.Prime
  · rw [trial_prime tab w.i (maxOf w.i) w.found w.job.primes ?_ ?_ hlen]
    · simp [hi]
    · intro f hf hfm
      have hfp := hp f hf
      refine ⟨hfp.ne_zero, ?_⟩
      intro hmod
      have hdvd : f ∣ w.i := Nat.dvd_of_mod_eq_zero hmod
      rcases (Nat.dvd_prime hi).1 hdvd with h | h
      · exact hfp.one_lt.ne' h
      · have := (lt_maxOf_iff f w.i).1 hfm
        subst h
        nlinarith
    · obtain ⟨p, hpm, hpp⟩ := hprime hi
      refine ⟨p, hpm, ?_⟩
      by_contra hc
      have := (lt_maxOf_iff p w.i).1 (by omega)
      omega
  · have hq := hcomp hi
    have hqp : w.i.minFac.Prime := Nat.minFac_prime (by omega)
    have hqd : w.i.minFac ∣ w.i := Nat.minFac_dvd _
    have hlt : w.i / w.i.minFac < tab.length := by
      have : w.i / w.i.minFac ≤ w.i := Nat.div_le_self _ _
      omega
    rw [trial_composite tab w.i (maxOf w.i) w.i.minFac (tab.getD (w.i / w.i.minFac) 0)
      w.found w.job.primes hs hq ?_ hqp.ne_zero (Nat.mod_eq_zero_of_dvd hqd) ?_ ?_ hlen]
    · simp [hi]
    · have hsq := Nat.minFac_sq_le_self (show 0 < w.i by omega) hi
      rw [pow_two] at hsq
      exact (lt_maxOf_iff _ _).2 hsq
    · intro f hf hfq
      have hfp := hp f hf
      refine ⟨hfp.ne_zero, ?_⟩
      intro hmod
      have := Nat.minFac_le_of_dvd hfp.two_le (Nat.dvd_of_mod_eq_zero hmod)
      omega
    · rw [List.getD_eq_getElem?_getD, List.getElem?_eq_getElem hlt]
      simp

/-- The outer loop of `goFactor` from `w.i` to the end of the job, when the snapshot
serves every index on the way: it ends at `job.end_` having appended the primes it
passed to `found`. -/
theorem workLoop_spec (k : Nat) : ∀ (tab : List Nat) (w : Worker),
    w.job.primes.Sorted (· < ·) → (∀ f ∈ w.job.primes, f.Prime) →
    2 ≤ w.i → w.i ≤ w.job.end_ → w.job.end_ ≤ tab.length → w.job.end_ - w.i ≤ k →
    (∀ i, w.i ≤ i → i < w.job.end_ → i.Prime → ∃ p ∈ w.job.primes, i < p * p) →
    (∀ i, w.i ≤ i → i < w.job.end_ → ¬ i.Prime → i.minFac ∈ w.job.primes) →
    ∃ tab1 w1, workLoop k tab w = Except.ok (tab1, w1) ∧ tab1.length = tab.length ∧
      w1.job = w.job ∧ w1.i = w.job.end_ ∧ w1.found = w.found ++ primesIn w.i w.job.end_ := by
  induction k with
  | zero =>
    intro tab w _ _ _ h4 _ h6 _ _
    have : w.i = w.job.end_ := by omega
    exact ⟨tab, w, rfl, rfl, rfl, this, by rw [this, primesIn_empty (le_refl _)]; simp⟩
  | succ k ih =>
    intro tab w hs hp h2 h4 h5 h6 hpr hco
    unfold workLoop
    by_cases hd : w.done = true
    · have : w.job.end_ ≤ w.i := by simpa [Worker.done] using hd
      have e : w.i = w.job.end_ := by omega
      refine ⟨tab, w, by simp [hd], rfl, rfl, e, ?_⟩
      rw [e, primesIn_empty (le_refl _)]; simp
    · have hlt : w.i < w.job.end_ := by
        simp [Worker.done] at hd; omega
      simp only [hd]
      rw [tickWorker_spec tab w hs hp h2 (by omega) (hpr w.i (le_refl _) hlt)
        (hco w.i (le_refl _) hlt)]
      simp only [Bool.false_eq_true, if_false]
      obtain ⟨tab1, w1, e1, e2, e3, e4, e5⟩ := ih (tab.set w.i (tickVal tab w.i))
        { w with i := w.i + 1, found := w.found ++ (if w.i.Prime then [w.i] else []) }
        hs hp (by simp; omega) (by simp; omega) (by simpa using h5) (by simp; omega)
        (fun i hi1 hi2 => hpr i (by simp at hi1; omega) hi2)
        (fun i hi1 hi2 => hco i (by simp at hi1; omega) hi2)
      refine ⟨tab1, w1, e1, by simpa using e2, e3, e4, ?_⟩
      rw [e5]
      simp only [List.append_assoc]
      congr 1
      have := primesIn_succ w.i w.i (le_refl _)
      rw [primesIn_empty (le_refl _)] at this
      simp only [List.nil_append] at this
      rw [← this]
      exact primesIn_append (Nat.le_succ _) hlt


theorem breaks_of_mem (i max : Nat) (snap : List Nat) (h0 : ∀ f ∈ snap, f ≠ 0)
    (h : ∃ f ∈ snap, max ≤ f ∨ i % f = 0) : breaks i max snap = true := by
  induction snap with
  | nil => simp at h
  | cons f fs ih =>
    unfold breaks
    by_cases hf : f ≥ max
    · simp [hf]
    · have hf0 : f ≠ 0 := h0 f (List.mem_cons_self _ _)
      by_cases hd : i % f = 0
      · simp [hf, hf0, hd]
      · simp only [hf, if_false, hf0, hd]
        apply ih (fun g hg => h0 g (List.mem_cons_of_mem _ hg))
        obtain ⟨p, hp, hpm⟩ := h
        rcases List.mem_cons.1 hp with rfl | hp
        · rcases hpm with hpm | hpm
          · exact absurd hpm hf
          · exact absurd hpm hd
        · exact ⟨p, hp, hpm⟩

/-- The inner loop leaves through a `break` when the snapshot serves `i`. -/
theorem breaks_spec (i : Nat) (snap : List Nat) (hp : ∀ f ∈ snap, f.Prime)
    (hprime : i.Prime → ∃ p ∈ snap, i < p * p) (hcomp : ¬ i.Prime → i.minFac ∈ snap) :
    breaks i (maxOf i) snap = true := by
  apply breaks_of_mem _ _ _ (fun f hf => (hp f hf).ne_zero)
  by_cases hi : i.Prime
  · obtain ⟨p, hpm, hpp⟩ := hprime hi
    refine ⟨p, hpm, Or.inl ?_⟩
    by_contra hc
    have := (lt_maxOf_iff p i).1 (by omega)
    omega
  · exact ⟨i.minFac, hcomp hi, Or.inr (Nat.mod_eq_zero_of_dvd (Nat.minFac_dvd _))⟩

/-- Past the end of the table a `break` of the inner loop is never reached: the
assignment before it, or the read `tab[i/f]`, is out of range. -/
theorem trial_out_of_range (tab : List Nat) (i max : Nat) (found snap : List Nat)
    (hb : breaks i max snap = true) (hi : tab.length ≤ i) :
    trial tab i max found snap = Except.error Fault.indexOutOfRange := by
  induction snap with
  | nil => simp [breaks] at hb
  | cons f fs ih =>
    unfold breaks at hb
    unfold trial
    have hlt : ¬ i < tab.length := by omega
    by_cases hf : f ≥ max
    · simp [hf, hlt]
    · simp only [hf, if_false] at hb ⊢
      by_cases hf0 : f = 0
      · simp [hf0] at hb
      · simp only [hf0, if_false] at hb ⊢
        by_cases hd : i % f = 0
        · simp only [hd, if_true]
          cases tab[i / f]? with
          | none => rfl
          | some v => simp [hlt]
        · simp only [hd, if_false] at hb ⊢
          exact ih hb

/-! ## Lists -/

theorem split_at {α : Type} {l : List α} {k : Nat} {a : α} (h : l[k]? = some a) :
    ∃ l1 l2, l = l1 ++ a :: l2 ∧ l1.length = k := by
  induction l generalizing k with
  | nil => simp at h
  | cons b t ih =>
    cases k with
    | zero =>
      simp at h
      exact ⟨[], t, by simp [h], rfl⟩
    | succ k =>
      simp at h
      obtain ⟨l1, l2, e1, e2⟩ := ih h
      exact ⟨b :: l1, l2, by simp [e1], by simp [e2]⟩

theorem set_split {α : Type} (l1 l2 : List α) (a b : α) :
    (l1 ++ a :: l2).set l1.length b = l1 ++ b :: l2 := by
  induction l1 with
  | nil => simp
  | cons c t ih => simp [ih]

theorem eraseIdx_split {α : Type} (l1 l2 : List α) (a : α) :
    (l1 ++ a :: l2).eraseIdx l1.length = l1 ++ l2 := by
  induction l1 with
  | nil => simp
  | cons c t ih => simp [ih]

theorem map_eq_split {α β γ : Type} (f : α → γ) (g : β → γ) :
    ∀ (l1 : List α) (a : α) (l2 : List α) (bj : List β),
    (l1 ++ a :: l2).map f = bj.map g →
    ∃ b1 j b2, bj = b1 ++ j :: b2 ∧ l1.map f = b1.map g ∧ f a = g j ∧ l2.map f = b2.map g ∧
      b1.length = l1.length := by
  intro l1
  induction l1 with
  | nil =>
    intro a l2 bj h
    cases bj with
    | nil => simp at h
    | cons j b2 =>
      simp at h
      exact ⟨[], j, b2, rfl, rfl, h.1, h.2, rfl⟩
  | cons c t ih =>
    intro a l2 bj h
    cases bj with
    | nil => simp at h
    | cons j0 bt =>
      simp only [List.cons_append, List.map_cons, List.cons.injEq] at h
      obtain ⟨b1, j, b2, e1, e2, e3, e4, e5⟩ := ih a l2 bt h.2
      exact ⟨j0 :: b1, j, b2, by simp [e1], by simp [e2, h.1], e3, e4, by simp [e5]⟩

theorem getD_last_concat {α : Type} (l : List α) (z d : α) :
    (l ++ [z]).getD ((l ++ [z]).length - 1) d = z := by
  rw [List.getD_eq_getElem?_getD]
  simp

/-- Overwriting item `i` with the last item and dropping the last item removes
item `i`, up to order. -/
theorem swapRemove_perm {α : Type} (l1 l2 : List α) (a d : α) :
    (((l1 ++ a :: l2).set l1.length ((l1 ++ a :: l2).getD ((l1 ++ a :: l2).length - 1) d)).dropLast).Perm
      (l1 ++ l2) := by
  rw [set_split]
  rcases List.eq_nil_or_concat l2 with h | ⟨l3, z, h⟩
  · subst h
    simp
  · rw [List.concat_eq_append] at h
    subst h
    have e : (l1 ++ a :: (l3 ++ [z])).getD ((l1 ++ a :: (l3 ++ [z])).length - 1) d = z := by
      have : l1 ++ a :: (l3 ++ [z]) = (l1 ++ a :: l3) ++ [z] := by simp
      rw [this]
      exact getD_last_concat _ z d
    rw [e]
    have : l1 ++ z :: (l3 ++ [z]) = (l1 ++ z :: l3) ++ [z] := by simp
    rw [this, List.dropLast_concat]
    have h1 : (l1 ++ z :: l3).Perm (z :: (l1 ++ l3)) := List.perm_middle
    have h2 : (l1 ++ (l3 ++ [z])).Perm (z :: (l1 ++ l3)) := by
      rw [← List.append_assoc]
      exact List.perm_append_singleton z (l1 ++ l3)
    exact h1.trans h2.symm

theorem swapRemove_map {α β : Type} (f : α → β) (l : List α) (i : Nat) (d : α) (e : β)
    (h : l ≠ []) :
    ((l.map f).set i ((l.map f).getD ((l.map f).length - 1) e)).dropLast
      = ((l.set i (l.getD (l.length - 1) d)).dropLast).map f := by
  have hl : l.length - 1 < l.length := by
    have := List.length_pos.2 h
    omega
  rw [List.map_dropLast, List.map_set]
  congr 2
  rw [List.getD_eq_getElem?_getD, List.getD_eq_getElem?_getD]
  simp [List.getElem?_eq_getElem hl]


/-! ## Counting pending and covered indices -/

theorem pending_append (x : Nat) (l1 l2 : List Worker) :
    pending x (l1 ++ l2) = pending x l1 + pending x l2 := by
  simp [pending, List.countP_append]

theorem pending_cons (x : Nat) (w : Worker) (l : List Worker) :
    pending x (w :: l) = pending x l + (if w.i ≤ x ∧ x < w.job.end_ then 1 else 0) := by
  simp [pending, List.countP_cons]

theorem pending_nil (x : Nat) : pending x [] = 0 := rfl

theorem covered_append (x : Nat) (l1 l2 : List Task) :
    covered x (l1 ++ l2) = covered x l1 + covered x l2 := by
  simp [covered, List.countP_append]

theorem covered_single (x : Nat) (t : Task) :
    covered x [t] = (if t.start ≤ x ∧ x < t.end_ then 1 else 0) := by
  simp [covered, List.countP_cons]

theorem covered_nil (x : Nat) : covered x [] = 0 := rfl

/-! ## The invariant: start and worker moves -/

theorem cardFactors_two_three (x : Nat) (h1 : 2 ≤ x) (h2 : x < 4) : Ω x % 256 = 1 := by
  have : x = 2 ∨ x = 3 := by omega
  rcases this with rfl | rfl
  · rw [cardFactors_apply_prime Nat.prime_two]
  · rw [cardFactors_apply_prime Nat.prime_three]

theorem init_inv (L : Nat) (h : 8 ≤ L) :
    ∃ s, initState (List.replicate L 0) = Except.ok s ∧ Inv L s 0 0 [] [] ∧
      measure L s 0 + 16 = 4 * L := by
  refine ⟨_, by simp only [initState, List.length_replicate]; rw [if_pos (by omega)], ?_, ?_⟩
  · refine
      { len := by simp
        big := h
        zero := by
          simp only [List.getElem?_set]
          rw [if_neg (by omega), if_neg (by omega), if_neg (by omega), List.getElem?_replicate,
            if_pos (by omega)]
        one := by
          simp only [List.getElem?_set, List.length_set, List.length_replicate]
          rw [if_neg (by omega), if_neg (by omega), if_pos trivial, if_pos (by omega)]
        jobs := by simp
        prog := by simp
        que := by simp
        win := by simp
        mle := by omega
        disp := by simp
        tabOK := ?_
        qlen := by simp
        tot := by simp
        phase := Or.inl ?_ }
    · intro x h1 h2 h3 _
      have h4 : x < 4 := by simpa [rs] using h2
      rw [cardFactors_two_three x h1 h4]
      have : x = 2 ∨ x = 3 := by omega
      rcases this with rfl | rfl
      · simp only [List.getElem?_set, List.length_set, List.length_replicate]
        rw [if_neg (by omega), if_pos trivial, if_pos (by omega)]
      · simp only [List.getElem?_set, List.length_set, List.length_replicate]
        rw [if_pos trivial, if_pos (by omega)]
    · simp [Seeding, primesIn_zero_four]
  · simp only [measure, rs]
    simp
    omega

/-- The snapshot of range `j` serves every index of the range. -/
theorem job_serves (L j i : Nat) (h1 : rs j ≤ i) (h2 : i < min (rs (j + 1)) L) :
    (i.Prime → ∃ p ∈ primesIn 0 (rs (j - 3)), i < p * p) ∧
      (¬ i.Prime → i.minFac ∈ primesIn 0 (rs (j - 3))) := by
  have hR := rs_succ_le j
  have hR4 := rs_ge (j - 3)
  have hj4 := rs_ge j
  have hi : i < rs (j + 1) := lt_of_lt_of_le h2 (min_le_left _ _)
  constructor
  · intro hp
    by_cases h5 : rs (j - 3) = 5
    · exfalso
      have e1 : j - 3 = 1 := rs_inj.1 (by rw [h5]; rfl)
      have e2 : j = 4 := by omega
      subst e2
      have e3 : rs 4 = 8 := by simp [rs]
      have e4 : rs 5 = 10 := by simp [rs]
      have : i = 8 ∨ i = 9 := by omega
      rcases this with rfl | rfl
      · norm_num at hp
      · norm_num at hp
    · obtain ⟨p, hpp, hpR, hsq⟩ := exists_prime_sq_ge (rs (j - 3)) (by omega)
      exact ⟨p, mem_primesIn.2 ⟨Nat.zero_le _, hpR, hpp⟩, by omega⟩
  · intro hc
    have hq : i.minFac.Prime := Nat.minFac_prime (by omega)
    have hsq := Nat.minFac_sq_le_self (show 0 < i by omega) hc
    rw [pow_two] at hsq
    refine mem_primesIn.2 ⟨Nat.zero_le _, ?_, hq⟩
    by_contra hge
    have : rs (j - 3) ≤ i.minFac := by omega
    have := Nat.mul_le_mul this this
    nlinarith

/-- An iteration of a goroutine's outer loop keeps the invariant, assigns `tab[w.i]`
and brings the run nearer its end. -/
theorem tick_inv_log {L : Nat} {s : State} {n m : Nat} {bj qj : List Nat}
    (h : Inv L s n m bj qj) {k : Nat} {w : Worker} (hk : s.busy[k]? = some w)
    (hd : w.done = false) :
    ∃ s1, step s (Action.tick k) = Except.ok s1 ∧ Inv L s1 n m bj qj ∧
      measure L s1 m < measure L s m ∧ Moved L s (Action.tick k) s1 n m n m := by
  obtain ⟨l1, l2, hb, hl1⟩ := split_at hk
  have hwmem : w ∈ s.busy := by rw [hb]; simp
  have hjob : ∃ j ∈ bj, jobOf L j = w.job := by
    have : w.job ∈ s.busy.map Worker.job := List.mem_map_of_mem _ hwmem
    rw [h.jobs] at this
    exact List.mem_map.1 this
  obtain ⟨j, hj, hjw⟩ := hjob
  have hwin := h.win j (List.mem_append_left _ hj)
  have hstart : w.job.start = rs j := by rw [← hjw]; rfl
  have hend : w.job.end_ = min (rs (j + 1)) L := by rw [← hjw]; rfl
  have hsnap : w.job.primes = primesIn 0 (rs (j - 3)) := by rw [← hjw]; rfl
  have hprog := h.prog w hwmem
  have hlt : w.i < w.job.end_ := by
    simp [Worker.done] at hd; omega
  have hj4 := rs_ge j
  have hiL : w.i < L := by
    have := min_le_right (rs (j + 1)) L
    omega
  have hserve := job_serves L j w.i (by omega) (by omega)
  have htick := tickWorker_spec s.tab w (by rw [hsnap]; exact primesIn_sorted _ _)
    (by rw [hsnap]; intro f hf; exact (mem_primesIn.1 hf).2.2) (by omega)
    (by rw [h.len]; exact hiL) (by rw [hsnap]; exact hserve.1) (by rw [hsnap]; exact hserve.2)
  have hbreak : breaks w.i (maxOf w.i) w.job.primes = true :=
    breaks_spec w.i w.job.primes (by rw [hsnap]; intro f hf; exact (mem_primesIn.1 hf).2.2)
      (by rw [hsnap]; exact hserve.1) (by rw [hsnap]; exact hserve.2)
  refine ⟨_, by simp only [step, hk, hd, htick]; rfl, ?_, ?_, ?_⟩
  · have hset : s.busy.set k
        { w with i := w.i + 1, found := w.found ++ (if w.i.Prime then [w.i] else []) }
        = l1 ++ { w with i := w.i + 1, found := w.found ++ (if w.i.Prime then [w.i] else []) }
            :: l2 := by
      rw [hb, ← hl1, set_split]
    refine
      { len := by simp [h.len]
        big := h.big
        zero := by
          simp only [List.getElem?_set]
          rw [if_neg (by omega)]; exact h.zero
        one := by
          simp only [List.getElem?_set]
          rw [if_neg (by omega)]; exact h.one
        jobs := by
          simp only [hset]
          rw [← h.jobs, hb]
          simp
        prog := ?_
        que := h.que
        win := h.win
        mle := h.mle
        disp := h.disp
        tabOK := ?_
        qlen := h.qlen
        tot := h.tot
        phase := ?_ }
    · intro w1 hw1
      simp only [hset, List.mem_append, List.mem_cons] at hw1
      rcases hw1 with hw1 | rfl | hw1
      · exact h.prog w1 (by rw [hb]; simp [hw1])
      · refine ⟨by simp; omega, by simp; omega, ?_⟩
        simp only
        rw [hprog.2.2, primesIn_succ _ _ hprog.1]
        simp
      · exact h.prog w1 (by rw [hb]; simp [hw1])
    · intro x hx2 hxm hxL hnp
      simp only [hset] at hnp
      by_cases hxi : x = w.i
      · subst hxi
        simp only [List.getElem?_set]
        rw [if_pos trivial, if_pos (by rw [h.len]; exact hiL)]
        congr 1
        unfold tickVal
        by_cases hp : w.i.Prime
        · rw [if_pos hp, cardFactors_apply_prime hp]
        · rw [if_neg hp]
          have hq : w.i.minFac.Prime := Nat.minFac_prime (by omega)
          have hqd : w.i.minFac ∣ w.i := Nat.minFac_dvd _
          have hqm := mem_primesIn.1 (hserve.2 hp)
          have hsq := Nat.minFac_sq_le_self (show 0 < w.i by omega) hp
          rw [pow_two] at hsq
          have hR := rs_succ_le j
          have hm1 := min_le_left (rs (j + 1)) L
          have hdiv_lt : w.i / w.i.minFac < rs (j - 3) := by
            rw [Nat.div_lt_iff_lt_mul hq.pos]
            have := hq.two_le
            nlinarith
          have hdiv_ge : 2 ≤ w.i / w.i.minFac := by
            rw [Nat.le_div_iff_mul_le hq.pos]
            have := hq.two_le
            nlinarith
          have hRn : rs (j - 3) ≤ rs n := rs_le_iff.2 (by have := h.mle; omega)
          have hnm : rs n ≤ rs m := rs_le_iff.2 (by omega)
          have hnL : rs n < L := h.disp n (by omega)
          have hold := h.tabOK (w.i / w.i.minFac) hdiv_ge (by omega) (by omega) (by
            intro w2 hw2 hpend
            obtain ⟨j2, hj2, hjw2⟩ : ∃ j ∈ bj, jobOf L j = w2.job := by
              have : w2.job ∈ s.busy.map Worker.job := List.mem_map_of_mem _ hw2
              rw [h.jobs] at this
              exact List.mem_map.1 this
            have hwin2 := h.win j2 (List.mem_append_left _ hj2)
            have hs2 : w2.job.start = rs j2 := by rw [← hjw2]; rfl
            have := (h.prog w2 hw2).1
            have : rs n ≤ rs j2 := rs_le_iff.2 hwin2.1
            omega)
          rw [List.getD_eq_getElem?_getD, hold, Option.getD_some,
            cardFactors_div_prime (show 2 ≤ w.i by omega) hq hqd]
          omega
      · simp only [List.getElem?_set]
        rw [if_neg (fun e => hxi e.symm)]
        apply h.tabOK x hx2 hxm hxL
        intro w2 hw2
        rw [hb] at hw2
        simp only [List.mem_append, List.mem_cons] at hw2
        rcases hw2 with hw2 | rfl | hw2
        · exact hnp w2 (by simp [hw2])
        · have := hnp _ (List.mem_append_right _ (List.mem_cons_self _ _))
          simp only at this
          omega
        · exact hnp w2 (by simp [hw2])
    · have hlen : (s.busy.set k
        { w with i := w.i + 1, found := w.found ++ (if w.i.Prime then [w.i] else []) }).length
          = s.busy.length := by simp
      rcases h.phase with hp | hp | hp
      · exact Or.inl (by simpa [Seeding, hlen] using hp)
      · exact Or.inr (Or.inl (by simpa [Steady, hlen] using hp))
      · exact Or.inr (Or.inr (by simpa [Draining, hlen] using hp))
  · simp only [measure]
    have hset : s.busy.set k
        { w with i := w.i + 1, found := w.found ++ (if w.i.Prime then [w.i] else []) }
        = l1 ++ { w with i := w.i + 1, found := w.found ++ (if w.i.Prime then [w.i] else []) }
            :: l2 := by
      rw [hb, ← hl1, set_split]
    rw [hset]
    conv_rhs => rw [hb]
    simp only [List.map_append, List.map_cons, List.sum_append, List.sum_cons]
    omega
  · have hset : s.busy.set k
        { w with i := w.i + 1, found := w.found ++ (if w.i.Prime then [w.i] else []) }
        = l1 ++ { w with i := w.i + 1, found := w.found ++ (if w.i.Prime then [w.i] else []) }
            :: l2 := by
      rw [hb, ← hl1, set_split]
    refine ⟨by simp [sentBy], Or.inl rfl, by simp [retiredBy], Or.inl rfl, Or.inl rfl, ?_⟩
    intro x
    simp only [hset, writtenBy, written, hk, hd, hbreak, sentBy, covered_nil]
    conv_rhs => rw [hb]
    simp only [pending_append, pending_cons, Option.toList, List.count_singleton]
    by_cases hx : x = w.i
    · subst hx
      simp [hlt]
      omega
    · have hx2 : ¬ w.i = x := fun e => hx e.symm
      simp [hx, hx2]
      by_cases hx3 : w.i ≤ x
      · have e1 : w.i + 1 ≤ x := by omega
        simp [hx3, e1]
      · have e1 : ¬ w.i + 1 ≤ x := by omega
        simp [hx3, e1]

theorem tick_inv {L : Nat} {s : State} {n m : Nat} {bj qj : List Nat}
    (h : Inv L s n m bj qj) {k : Nat} {w : Worker} (hk : s.busy[k]? = some w)
    (hd : w.done = false) :
    ∃ s1, step s (Action.tick k) = Except.ok s1 ∧ Inv L s1 n m bj qj ∧
      measure L s1 m < measure L s m := by
  obtain ⟨s1, e1, e2, e3, _⟩ := tick_inv_log h hk hd
  exact ⟨s1, e1, e2, e3⟩

/-! ## The invariant: handing out a range -/

theorem min_rs_succ_gt {L m : Nat} (hmL : rs m < L) : rs m < min (rs (m + 1)) L :=
  lt_min (rs_lt_succ m) hmL

/-- Handing out range `m` to a fresh goroutine keeps the invariant; what is said about
the control variables of the new state is left to the caller. -/
theorem dispatch_inv {L : Nat} {s : State} {n m : Nat} {bj qj : List Nat}
    (h : Inv L s n m bj qj) (hnm : n ≤ m) (hm : m < n + 4) (hmL : rs m < L)
    (hsnap : s.primes = primesIn 0 (rs (m - 3))) (s1 : State)
    (htab : s1.tab = s.tab)
    (hbusy : s1.busy = s.busy ++
      [⟨⟨rs m, min (rs (m + 1)) L, s.primes⟩, rs m, [rs m, min (rs (m + 1)) L]⟩])
    (hqueue : s1.queue = s.queue) (htot : s1.jobsOut + s1.queue.length ≤ 4)
    (hphase : Seeding s1 n (m + 1) (bj ++ [m]) qj ∨ Steady L s1 n (m + 1) (bj ++ [m]) qj ∨
      Draining L s1 (m + 1) (bj ++ [m]) qj) :
    Inv L s1 n (m + 1) (bj ++ [m]) qj ∧ measure L s1 (m + 1) < measure L s m := by
  have hgt := min_rs_succ_gt hmL
  constructor
  · refine
      { len := by rw [htab]; exact h.len
        big := h.big
        zero := by rw [htab]; exact h.zero
        one := by rw [htab]; exact h.one
        jobs := by
          rw [hbusy, List.map_append, List.map_append, h.jobs]
          simp [jobOf, hsnap]
        prog := ?_
        que := by rw [hqueue]; exact h.que
        win := ?_
        mle := by omega
        disp := ?_
        tabOK := ?_
        qlen := by rw [hqueue]; exact h.qlen
        tot := htot
        phase := hphase }
    · intro w hw
      rw [hbusy] at hw
      rcases List.mem_append.1 hw with hw | hw
      · exact h.prog w hw
      · simp only [List.mem_singleton] at hw
        subst hw
        refine ⟨le_refl _, le_of_lt hgt, ?_⟩
        simp [primesIn_empty]
    · intro j hj
      simp only [List.mem_append, List.mem_singleton] at hj
      rcases hj with (hj | rfl) | hj
      · have := h.win j (List.mem_append_left _ hj); omega
      · omega
      · have := h.win j (List.mem_append_right _ hj); omega
    · intro j hj
      by_cases hjm : j < m
      · exact h.disp j hjm
      · have : j = m := by omega
        subst this; exact hmL
    · intro x hx2 hxm hxL hnp
      rw [htab]
      rw [hbusy] at hnp
      by_cases hx : x < rs m
      · exact h.tabOK x hx2 hx hxL (fun w hw => hnp w (List.mem_append_left _ hw))
      · exfalso
        have := hnp _ (List.mem_append_right _ (List.mem_singleton_self _))
        simp only [not_and, not_lt] at this
        have h1 := this (by omega)
        have h2 : x < min (rs (m + 1)) L := lt_min hxm hxL
        omega
  · simp only [measure, hbusy, hqueue, List.map_append, List.sum_append, List.map_cons,
      List.map_nil, List.sum_cons, List.sum_nil]
    have h1 : min (rs m) L = rs m := min_eq_left (le_of_lt hmL)
    have h2 : min (rs (m + 1)) L ≤ L := min_le_right _ _
    rw [h1]
    omega


/-- The primes of consecutive ranges, joined. -/
theorem flatMap_primesOf (L n : Nat) (hn : rs n ≤ L) (k : Nat) :
    (List.range' n k).flatMap (primesOf L) = primesIn (rs n) (min (rs (n + k)) L) := by
  induction k with
  | zero => simp [primesIn_empty, hn]
  | succ k ih =>
    rw [List.range'_concat, List.flatMap_append, ih]
    have e0 : n + 1 * k = n + k := by omega
    rw [e0, show n + (k + 1) = n + k + 1 from rfl]
    simp only [List.flatMap_cons, List.flatMap_nil, List.append_nil, primesOf]
    have hmono : rs n ≤ rs (n + k) := rs_le_iff.2 (by omega)
    have hlt := rs_lt_succ (n + k)
    by_cases hc : rs (n + k) ≤ L
    · rw [min_eq_left hc]
      exact primesIn_append hmono (le_min (le_of_lt hlt) hc)
    · have h1 : min (rs (n + k)) L = L := min_eq_right (by omega)
      have h2 : min (rs (n + k + 1)) L = L := min_eq_right (by omega)
      rw [h1, h2, primesIn_empty (show L ≤ rs (n + k) by omega)]
      simp

/-- With the registry in order and the outstanding ranges consecutive, the registry and
the primes of the outstanding ranges make up the primes below the ranges handed out. -/
theorem cons_of_sorted (L n k : Nat) (hn : rs n ≤ L) (l : List Nat)
    (hl : l.Perm (List.range' n k)) :
    (primesIn 0 (rs n) ++ l.flatMap (primesOf L)).Perm (primesIn 0 (min (rs (n + k)) L)) := by
  have h1 : (l.flatMap (primesOf L)).Perm ((List.range' n k).flatMap (primesOf L)) :=
    List.Perm.flatMap_right _ hl
  rw [flatMap_primesOf L n hn k] at h1
  have h2 := List.Perm.append_left (primesIn 0 (rs n)) h1
  rw [primesIn_append (Nat.zero_le _) (le_min (rs_le_iff.2 (by omega)) hn)] at h2
  exact h2

/-- What handing out range `m` leaves on the record. -/
theorem dispatch_moved {L : Nat} {s : State} {n m : Nat} (k : Nat) (s1 : State)
    (hsent : sent s = some (jobOf L m)) (hmL : rs m < L)
    (hbusy : s1.busy = s.busy ++
      [⟨⟨rs m, min (rs (m + 1)) L, s.primes⟩, rs m, [rs m, min (rs (m + 1)) L]⟩])
    (hret : retired s k = none) : Moved L s (Action.sched k) s1 n m n (m + 1) := by
  refine ⟨by simp [sentBy, hsent], Or.inr ⟨rfl, hmL⟩, by simp [retiredBy, hret], Or.inl rfl,
    Or.inr rfl, ?_⟩
  intro x
  simp only [hbusy, writtenBy, sentBy, hsent, Option.toList, pending_append, pending_cons,
    pending_nil, covered_single, jobOf, List.count_nil]
  omega

theorem seed_step_log {L : Nat} {s : State} {n m : Nat} {bj qj : List Nat}
    (h : Inv L s n m bj qj) (hp : Seeding s n m bj qj) (k : Nat) :
    ∃ s1 n1 m1 bj1 qj1, schedStep s k = Except.ok s1 ∧ (Inv L s1 n1 m1 bj1 qj1 ∧
      measure L s1 m1 < measure L s m) ∧ Moved L s (Action.sched k) s1 n m n1 m1 := by
  obtain ⟨hlt, hge, hn, hm, hbj, hqj, hidle, hblen, hprimes, hjobs, hexp, hexpI, hstart, hend⟩ := hp
  have hm3 : m ≤ 3 := by omega
  have e1 : rs m = s.seed := by rw [rs_small m (by omega)]; omega
  have e2 : min (rs (m + 1)) L = s.seed + 1 := by
    rw [rs_small (m + 1) (by omega)]
    have := h.big
    rw [min_eq_left (by omega)]; omega
  have e3 : m - 3 = 0 := by omega
  have hbig := h.big
  have hstep : schedStep s k = Except.ok
      { s with
        idle := s.idle + 1 - 1
        busy := s.busy ++ [⟨⟨s.seed, s.seed + 1, s.primes⟩, s.seed, [s.seed, s.seed + 1]⟩]
        seed := s.seed + 1 } := by
    have hs0 : s.seed ≠ 0 := by omega
    simp [schedStep, send, accept, hlt, hs0]
  have hsent : sent s = some (jobOf L m) := by
    simp only [sent, hlt, if_true, jobOf, e1, e2, e3, hprimes]
    rfl
  have hret : retired s k = none := by simp [retired, hlt]
  refine ⟨_, n, m + 1, bj ++ [m], qj, hstep, ?_,
    dispatch_moved k _ hsent (by omega) (by simp only [e1, e2]) hret⟩
  apply dispatch_inv h (by omega) (by omega) (by omega) (by rw [e3, hprimes]; rfl)
  · rfl
  · simp only [e1, e2]
  · rfl
  · simp only [hjobs]
    have := h.que
    rw [hqj] at this
    simp [this]
  · by_cases h8 : s.seed + 1 < 8
    · left
      refine ⟨h8, by simp; omega, hn, by simp; omega, ?_, hqj, by simp [hidle], by simp [hblen],
        hprimes, hjobs, hexp, hexpI, hstart, hend⟩
      rw [hbj, List.range'_concat]
      simp
    · have hseed : s.seed = 7 := by omega
      have hm' : m = 3 := by omega
      have hperm : (bj ++ [m] ++ qj).Perm (List.range' n (m + 1 - n)) := by
        rw [hbj, hqj, hn, List.append_nil, Nat.sub_zero, List.range'_concat]
        simp
      by_cases hL : 8 < L
      · right; left
        refine ⟨by simp [hseed], by simp [hstart, hL], by simp [hjobs, hblen, hm'],
          by simp [hidle, hblen, hm'], by simp [hprimes, hn, rs], hperm, by simp [hexpI],
          by simp [hexp], Or.inl ⟨by omega, ?_⟩⟩
        intro t ht
        simp only [hexp, hexpI, hn]
        interval_cases t <;> simp [rs]
      · right; right
        have hL8 : L = 8 := by omega
        refine ⟨by simp [hseed], by simp [hstart, hL8], by simp [hjobs, hblen, hm'],
          by simp [hidle, hblen, hm'], by rw [hm', hL8]; simp [rs], ?_⟩
        have := cons_of_sorted L n (m + 1 - n) (by rw [hn]; simp [rs]; omega) _ hperm
        simp only [hprimes]
        rw [hn] at this
        have e : min (rs (0 + (m + 1 - 0))) L = L := by
          rw [hm', hL8]; simp [rs]
        rw [e] at this
        exact this

theorem seed_step {L : Nat} {s : State} {n m : Nat} {bj qj : List Nat}
    (h : Inv L s n m bj qj) (hp : Seeding s n m bj qj) (k : Nat) :
    ∃ s1 n1 m1 bj1 qj1, schedStep s k = Except.ok s1 ∧ Inv L s1 n1 m1 bj1 qj1 ∧
      measure L s1 m1 < measure L s m := by
  obtain ⟨s1, n1, m1, bj1, qj1, e1, ⟨e2, e3⟩, _⟩ := seed_step_log h hp k
  exact ⟨s1, n1, m1, bj1, qj1, e1, e2, e3⟩

theorem dispatch_step_log {L : Nat} {s : State} {n m : Nat} {bj qj : List Nat}
    (h : Inv L s n m bj qj) (hp : Steady L s n m bj qj) (hm : m = n + 3) (k : Nat) :
    ∃ s1 n1 m1 bj1 qj1, schedStep s k = Except.ok s1 ∧ (Inv L s1 n1 m1 bj1 qj1 ∧
      measure L s1 m1 < measure L s m) ∧ Moved L s (Action.sched k) s1 n m n1 m1 := by
  obtain ⟨hseed, hsL, hjobs, hidle, hprimes, hperm, hexpI, hexpl, hcase⟩ := hp
  rcases hcase with ⟨hm4, _⟩ | ⟨_, hstart, hend, hexp⟩
  · omega
  have hblen : s.busy.length = bj.length := by
    have := congrArg List.length h.jobs
    simpa using this
  have hqlen : s.queue.length = qj.length := by
    rw [h.que]; simp
  have hcount : bj.length + qj.length = 3 := by
    have := hperm.length_eq
    simp at this
    omega
  have e34 : rs (m + 1) = rs (n + 4) := by rw [hm]
  have e1 : rs m = s.start := by rw [hm, hstart]
  have e2 : min (rs (m + 1)) L = (if s.end_ ≤ s.tab.length then s.end_ else s.tab.length) := by
    rw [e34, hend, h.len]
    by_cases hc : rs (n + 4) ≤ L
    · rw [if_pos hc, min_eq_left hc]
    · rw [if_neg hc, min_eq_right (by omega)]
  have hstep : schedStep s k = Except.ok
      { s with
        idle := s.idle - 1
        busy := s.busy ++ [⟨⟨s.start, if s.end_ ≤ s.tab.length then s.end_ else s.tab.length,
          s.primes⟩, s.start, [s.start, if s.end_ ≤ s.tab.length then s.end_ else s.tab.length]⟩]
        jobsOut := s.jobsOut + 1
        expected := s.expected.set s.expI s.start
        expI := (s.expI + 1) % 4 } := by
    have hs0 : s.start ≠ 0 := by have := rs_ge (n + 3); omega
    have h1 : ¬ s.seed < 8 := by omega
    have h2 : ¬ s.start ≥ s.tab.length := by rw [h.len]; omega
    have h3 : s.jobsOut + s.queue.length < 4 := by omega
    have h4 : s.idle ≠ 0 := by omega
    have h5 : ¬ (if s.end_ ≤ s.tab.length then s.end_ else s.tab.length) + 2 < s.start + 2 := by
      have hlt34 : rs (n + 3) < rs (n + 4) := rs_lt_succ (n + 3)
      have hlen := h.len
      split_ifs <;> omega
    simp only [schedStep, h1, h2, h3, if_true, if_false, send, h4, accept, hs0, h5]
  have hsent : sent s = some (jobOf L m) := by
    have h1 : ¬ s.seed < 8 := by omega
    have h2 : ¬ s.start ≥ s.tab.length := by rw [h.len]; omega
    have h3 : s.jobsOut + s.queue.length < 4 := by omega
    simp only [sent, h1, h2, h3, if_true, if_false, jobOf, e1, e2, hprimes]
    rw [hm]; simp
  have hret : retired s k = none := by
    have h1 : ¬ s.seed < 8 := by omega
    have h2 : ¬ s.start ≥ s.tab.length := by rw [h.len]; omega
    have h3 : s.jobsOut + s.queue.length < 4 := by omega
    simp [retired, h1, h2, h3]
  refine ⟨_, n, m + 1, bj ++ [m], qj, hstep, ?_,
    dispatch_moved k _ hsent (by rw [e1]; exact hsL) (by simp only [e1, e2]) hret⟩
  apply dispatch_inv h (by omega) (by omega) (by rw [e1]; exact hsL)
    (by rw [hprimes, hm]; simp)
  · rfl
  · simp only [e1, e2]
  · rfl
  · simp only [hjobs, hblen, hqlen]; omega
  · right; left
    have hperm' : (bj ++ [m] ++ qj).Perm (List.range' n (m + 1 - n)) := by
      have e : m + 1 - n = (m - n) + 1 := by omega
      rw [e, List.range'_concat]
      have : n + 1 * (m - n) = m := by omega
      rw [this]
      have p1 : (bj ++ [m] ++ qj).Perm (bj ++ qj ++ [m]) := by
        rw [List.append_assoc, List.append_assoc]
        exact List.Perm.append_left _ List.perm_append_comm
      exact p1.trans (List.Perm.append_right _ hperm)
    refine ⟨hseed, hsL, by simp [hjobs], by simp; omega, hprimes, hperm',
      Nat.mod_lt _ (by omega), by simp [hexpl], Or.inl ⟨by omega, ?_⟩⟩
    intro t ht
    simp only
    rw [List.getD_eq_getElem?_getD, List.getElem?_set]
    by_cases ht3 : t = 3
    · subst ht3
      have e : ((s.expI + 1) % 4 + 3) % 4 = s.expI := by omega
      rw [e, if_pos rfl, if_pos (by omega)]
      simp [hstart]
    · have e : s.expI ≠ ((s.expI + 1) % 4 + t) % 4 := by omega
      rw [if_neg e]
      have := hexp (t + 1) (by omega) (by omega)
      rw [List.getD_eq_getElem?_getD] at this
      have e' : ((s.expI + 1) % 4 + t) % 4 = (s.expI + (t + 1)) % 4 := by omega
      rw [e', this]
      congr 1

theorem dispatch_step {L : Nat} {s : State} {n m : Nat} {bj qj : List Nat}
    (h : Inv L s n m bj qj) (hp : Steady L s n m bj qj) (hm : m = n + 3) (k : Nat) :
    ∃ s1 n1 m1 bj1 qj1, schedStep s k = Except.ok s1 ∧ Inv L s1 n1 m1 bj1 qj1 ∧
      measure L s1 m1 < measure L s m := by
  obtain ⟨s1, n1, m1, bj1, qj1, e1, ⟨e2, e3⟩, _⟩ := dispatch_step_log h hp hm k
  exact ⟨s1, n1, m1, bj1, qj1, e1, e2, e3⟩

/-! ## The invariant: results coming back -/

theorem resultOf_zero (L j : Nat) : (resultOf L j).getD 0 0 = rs j := by
  simp [resultOf]

theorem resultOf_one (L j : Nat) : (resultOf L j).getD 1 0 = min (rs (j + 1)) L := by
  simp [resultOf]

theorem resultOf_drop (L j : Nat) : (resultOf L j).drop 2 = primesOf L j := by
  simp [resultOf]

theorem busy_length {L : Nat} {s : State} {n m : Nat} {bj qj : List Nat}
    (h : Inv L s n m bj qj) : s.busy.length = bj.length := by
  have := congrArg List.length h.jobs
  simpa using this

theorem queue_length {L : Nat} {s : State} {n m : Nat} {bj qj : List Nat}
    (h : Inv L s n m bj qj) : s.queue.length = qj.length := by
  rw [h.que]; simp

/-- A goroutine that has finished its loop holds the result of its range, and
`<-report` takes it. -/
theorem done_worker {L : Nat} {s : State} {n m : Nat} {bj qj : List Nat}
    (h : Inv L s n m bj qj) {k : Nat} {w : Worker} (hk : s.busy[k]? = some w)
    (hd : w.done = true) :
    ∃ l1 l2 b1 j b2, s.busy = l1 ++ w :: l2 ∧ bj = b1 ++ j :: b2 ∧
      l1.map Worker.job = b1.map (jobOf L) ∧ l2.map Worker.job = b2.map (jobOf L) ∧
      w.job = jobOf L j ∧ w.i = w.job.end_ ∧
      receive s k = Except.ok (resultOf L j, { s with busy := l1 ++ l2, idle := s.idle + 1 }) := by
  obtain ⟨l1, l2, hb, hl1⟩ := split_at hk
  have hjobs := h.jobs
  rw [hb] at hjobs
  obtain ⟨b1, j, b2, e1, e2, e3, e4, _⟩ := map_eq_split Worker.job (jobOf L) l1 w l2 bj hjobs
  have hprog := h.prog w (by rw [hb]; simp)
  have hwi : w.i = w.job.end_ := by
    have : w.job.end_ ≤ w.i := by simpa [Worker.done] using hd
    omega
  refine ⟨l1, l2, b1, j, b2, hb, e1, e2, e4, e3, hwi, ?_⟩
  have hfound : w.found = resultOf L j := by
    rw [hprog.2.2, hwi, e3]
    rfl
  simp only [receive, hk, hd, if_true, hfound]
  congr 3
  rw [hb, ← hl1, eraseIdx_split]

/-- Taking the result of a finished goroutine keeps the invariant; what is said about
the queue, the ghost counters and the control variables is left to the caller. -/
theorem recv_fields {L : Nat} {s : State} {n m : Nat} {bj qj : List Nat}
    (h : Inv L s n m bj qj) {l1 l2 : List Worker} {w : Worker} {b1 b2 : List Nat}
    (hb : s.busy = l1 ++ w :: l2)
    (hj1 : l1.map Worker.job = b1.map (jobOf L)) (hj2 : l2.map Worker.job = b2.map (jobOf L))
    (hwi : w.i = w.job.end_) (s1 : State) (htab : s1.tab = s.tab) (hbusy : s1.busy = l1 ++ l2)
    (n1 : Nat) (qj1 : List Nat) (hque : s1.queue = qj1.map (resultOf L))
    (hwin : ∀ j ∈ (b1 ++ b2) ++ qj1, n1 ≤ j ∧ j < m) (hmle : m ≤ n1 + 4)
    (hqlen : s1.queue.length ≤ 3) (htot : s1.jobsOut + s1.queue.length ≤ 4)
    (hphase : Seeding s1 n1 m (b1 ++ b2) qj1 ∨ Steady L s1 n1 m (b1 ++ b2) qj1 ∨
      Draining L s1 m (b1 ++ b2) qj1) :
    Inv L s1 n1 m (b1 ++ b2) qj1 := by
  refine
    { len := by rw [htab]; exact h.len
      big := h.big
      zero := by rw [htab]; exact h.zero
      one := by rw [htab]; exact h.one
      jobs := by rw [hbusy]; simp [hj1, hj2]
      prog := ?_
      que := hque
      win := hwin
      mle := hmle
      disp := h.disp
      tabOK := ?_
      qlen := hqlen
      tot := htot
      phase := hphase }
  · intro w1 hw1
    rw [hbusy] at hw1
    apply h.prog w1
    rw [hb]
    rcases List.mem_append.1 hw1 with hw1 | hw1
    · simp [hw1]
    · simp [hw1]
  · intro x hx2 hxm hxL hnp
    rw [htab]
    apply h.tabOK x hx2 hxm hxL
    intro w1 hw1
    rw [hb] at hw1
    rw [hbusy] at hnp
    simp only [List.mem_append, List.mem_cons] at hw1
    rcases hw1 with hw1 | rfl | hw1
    · exact hnp w1 (by simp [hw1])
    · omega
    · exact hnp w1 (by simp [hw1])

/-- A move that leaves the table and the goroutines alone keeps the invariant; what
is said about the queue, the ghost counters and the control variables is left to the
caller. -/
theorem queue_fields {L : Nat} {s : State} {n m : Nat} {bj qj : List Nat}
    (h : Inv L s n m bj qj) (s1 : State) (htab : s1.tab = s.tab) (hbusy : s1.busy = s.busy)
    (n1 : Nat) (qj1 : List Nat) (hque : s1.queue = qj1.map (resultOf L))
    (hwin : ∀ j ∈ bj ++ qj1, n1 ≤ j ∧ j < m) (hmle : m ≤ n1 + 4)
    (hqlen : s1.queue.length ≤ 3) (htot : s1.jobsOut + s1.queue.length ≤ 4)
    (hphase : Seeding s1 n1 m bj qj1 ∨ Steady L s1 n1 m bj qj1 ∨ Draining L s1 m bj qj1) :
    Inv L s1 n1 m bj qj1 :=
  { len := by rw [htab]; exact h.len
    big := h.big
    zero := by rw [htab]; exact h.zero
    one := by rw [htab]; exact h.one
    jobs := by rw [hbusy]; exact h.jobs
    prog := by rw [hbusy]; exact h.prog
    que := hque
    win := hwin
    mle := hmle
    disp := h.disp
    tabOK := by rw [htab, hbusy]; exact h.tabOK
    qlen := hqlen
    tot := htot
    phase := hphase }

/-- The control state after range `n` has been retired in order. -/
theorem retire_phase {L n : Nat} {bj1 qj1 : List Nat} (s1 : State) (hseed : s1.seed = 8)
    (hprimes : s1.primes = primesIn 0 (rs (n + 1))) (hstart : s1.start = rs (n + 4))
    (hend : s1.end_ = rs (n + 5)) (hexpI : s1.expI < 4) (hexpl : s1.expected.length = 4)
    (hexp : ∀ t, t < 4 → s1.expected.getD ((s1.expI + t) % 4) 0 = rs (n + t))
    (hjobs : s1.jobsOut = s1.busy.length) (hidle : s1.idle + s1.busy.length = 4)
    (hperm : (bj1 ++ qj1).Perm (List.range' (n + 1) 3)) (hn1 : rs (n + 1) ≤ L) :
    Seeding s1 (n + 1) (n + 4) bj1 qj1 ∨ Steady L s1 (n + 1) (n + 4) bj1 qj1 ∨
      Draining L s1 (n + 4) bj1 qj1 := by
  by_cases hL : rs (n + 4) < L
  · right; left
    refine ⟨hseed, by rw [hstart]; exact hL, hjobs, hidle, hprimes, ?_, hexpI, hexpl,
      Or.inr ⟨by omega, hstart, hend, ?_⟩⟩
    · have e : n + 4 - (n + 1) = 3 := by omega
      rw [e]; exact hperm
    · intro t ht1 ht4
      rw [hexp t ht4]
      congr 1
      omega
  · right; right
    refine ⟨hseed, by rw [hstart]; omega, hjobs, hidle, by omega, ?_⟩
    have := cons_of_sorted L (n + 1) 3 hn1 _ hperm
    rw [hprimes]
    have e : min (rs (n + 1 + 3)) L = L := min_eq_right (by
      have : rs (n + 1 + 3) = rs (n + 4) := rfl
      omega)
    rw [e] at this
    exact this

/-- What the scan of the queue finds. -/
theorem findExpected_none {L : Nat} {s : State} {qj : List Nat}
    (hque : s.queue = qj.map (resultOf L)) (hf : findExpected s = none) :
    ∀ j ∈ qj, rs j ≠ s.expected.getD s.expI 0 := by
  intro j hj hrs
  unfold findExpected at hf
  simp only at hf
  split at hf
  · simp at hf
  · rename_i hlt
    have hle := @List.findIdx_le_length _
      (fun q : List Nat => q.getD 0 0 == s.expected.getD s.expI 0) s.queue
    have heq : s.queue.findIdx (fun q => q.getD 0 0 == s.expected.getD s.expI 0)
        = s.queue.length := by omega
    rw [List.findIdx_eq_length] at heq
    have := heq (resultOf L j) (by rw [hque]; exact List.mem_map_of_mem _ hj)
    rw [resultOf_zero] at this
    simp [hrs] at this

theorem findExpected_some {L : Nat} {s : State} {qj : List Nat} {i : Nat}
    (hque : s.queue = qj.map (resultOf L)) (hf : findExpected s = some i) :
    ∃ q1 j q2, qj = q1 ++ j :: q2 ∧ q1.length = i ∧ rs j = s.expected.getD s.expI 0 := by
  unfold findExpected at hf
  simp only at hf
  split at hf
  · rename_i hlt
    simp only [Option.some.injEq] at hf
    have hp := List.findIdx_getElem (w := hlt)
    rw [hf] at hlt
    have hqi : i < qj.length := by rw [hque] at hlt; simpa using hlt
    obtain ⟨q1, q2, e1, e2⟩ := split_at (List.getElem?_eq_getElem hqi)
    refine ⟨q1, qj[i], q2, e1, e2, ?_⟩
    simp only [hf] at hp
    have e3 : s.queue[i] = resultOf L qj[i] := by
      simp [hque]
    rw [e3, resultOf_zero] at hp
    simpa using hp
  · simp at hf

/-! ## What the scheduler leaves on the record -/

/-- A goroutine that has finished its loop has nothing pending. -/
theorem pending_erase (x : Nat) (l1 l2 : List Worker) {w : Worker} (hwi : w.i = w.job.end_) :
    pending x (l1 ++ l2) = pending x (l1 ++ w :: l2) := by
  simp only [pending_append, pending_cons]
  have : ¬ (w.i ≤ x ∧ x < w.job.end_) := by omega
  simp [this]

/-- A scheduler iteration that neither sends nor retires. -/
theorem quiet_moved {L : Nat} {s : State} {n m : Nat} (k : Nat) (s1 : State)
    (hsent : sent s = none) (hret : retired s k = none)
    (hb : ∀ x, pending x s1.busy = pending x s.busy) :
    Moved L s (Action.sched k) s1 n m n m := by
  refine ⟨by simp [sentBy, hsent], Or.inl rfl, by simp [retiredBy, hret], Or.inl rfl,
    Or.inl rfl, ?_⟩
  intro x
  simp [writtenBy, sentBy, hsent, covered_nil, hb x]

/-- A scheduler iteration that retires range `n`. -/
theorem retire_moved {L : Nat} {s : State} {n m : Nat} (k : Nat) (s1 : State)
    (hsent : sent s = none) (hret : retired s k = some (resultOf L n)) (hnm : n < m)
    (hb : ∀ x, pending x s1.busy = pending x s.busy) :
    Moved L s (Action.sched k) s1 n m (n + 1) m := by
  refine ⟨by simp [sentBy, hsent], Or.inl rfl, by simp [retiredBy, hret], Or.inr ⟨rfl, hnm⟩,
    Or.inl rfl, ?_⟩
  intro x
  simp [writtenBy, sentBy, hsent, covered_nil, hb x]

/-! ## The invariant: the final drain -/

theorem getD_split {α : Type} (l1 l2 : List α) (a d : α) :
    (l1 ++ a :: l2).getD l1.length d = a := by
  induction l1 with
  | nil => simp
  | cons b t ih => simpa using ih

theorem flatMap_split {α β : Type} (f : α → List β) (l1 l2 l3 : List α) (a : α) :
    ((l1 ++ a :: l2 ++ l3).flatMap f).Perm (f a ++ (l1 ++ l2 ++ l3).flatMap f) := by
  have : (l1 ++ a :: l2 ++ l3).Perm (a :: (l1 ++ l2 ++ l3)) := by
    rw [List.append_assoc, List.append_assoc]
    exact List.perm_middle
  have h := List.Perm.flatMap_right f this
  simpa using h

theorem drain_step_log {L : Nat} {s : State} {n m : Nat} {bj qj : List Nat}
    (h : Inv L s n m bj qj) (hp : Draining L s m bj qj) (k : Nat)
    (hk : s.queue ≠ [] ∨ ∃ w, s.busy[k]? = some w ∧ w.done = true) :
    ∃ s1 n1 m1 bj1 qj1, schedStep s k = Except.ok s1 ∧ (Inv L s1 n1 m1 bj1 qj1 ∧
      measure L s1 m1 < measure L s m) ∧ Moved L s (Action.sched k) s1 n m n1 m1 := by
  obtain ⟨hseed, hsL, hjobs, hidle, hLm, hcons⟩ := hp
  have h1 : ¬ s.seed < 8 := by omega
  have h2 : s.start ≥ s.tab.length := by rw [h.len]; exact hsL
  have hsent : sent s = none := by simp [sent, h1, h2]
  have hret : retired s k = none := by simp [retired, h1, h2]
  cases hq : s.queue with
  | cons q qs =>
    have hque := h.que
    rw [hq] at hque
    cases qj with
    | nil => simp at hque
    | cons j qr =>
      simp only [List.map_cons, List.cons.injEq] at hque
      have hstep : schedStep s k = Except.ok
          { s with primes := s.primes ++ q.drop 2, queue := qs } := by
        unfold schedStep
        rw [if_neg h1, if_pos h2]
        simp only [hq]
      have hqlen := h.qlen
      have htot := h.tot
      rw [hq] at hqlen htot
      simp only [List.length_cons] at hqlen htot
      refine ⟨_, n, m, bj, qr, hstep, ⟨?_, ?_⟩, quiet_moved k _ hsent hret (fun x => rfl)⟩
      · refine queue_fields h _ ?_ ?_ n qr hque.2 ?_ ?_ ?_ ?_ ?_
        · rfl
        · rfl
        · intro j1 hj1
          apply h.win j1
          simp only [List.mem_append, List.mem_cons] at hj1 ⊢
          tauto
        · exact h.mle
        · simp only; omega
        · simp only; omega
        · right; right
          refine ⟨hseed, hsL, hjobs, hidle, hLm, ?_⟩
          simp only
          rw [hque.1, resultOf_drop]
          have p1 := flatMap_split (primesOf L) bj qr [] j
          simp only [List.append_nil] at p1
          have p2 : (s.primes ++ primesOf L j ++ (bj ++ qr).flatMap (primesOf L)).Perm
              (s.primes ++ (bj ++ j :: qr).flatMap (primesOf L)) := by
            rw [List.append_assoc]
            exact List.Perm.append_left _ p1.symm
          exact p2.trans hcons
      · simp only [measure, hq, List.length_cons]
        omega
  | nil =>
    rcases hk with hk | ⟨w, hw, hd⟩
    · exact absurd hq hk
    obtain ⟨l1, l2, b1, j, b2, hb, hbj, hj1, hj2, hwj, hwi, hrecv⟩ := done_worker h hw hd
    have hstep : schedStep s k = Except.ok
        { s with
          busy := l1 ++ l2
          idle := s.idle + 1
          jobsOut := s.jobsOut - 1
          primes := s.primes ++ (resultOf L j).drop 2 } := by
      unfold schedStep
      rw [if_neg h1, if_pos h2]
      simp only [hq, hrecv]
    have hque := h.que
    have hqlen := h.qlen
    have hblen : s.busy.length = l1.length + l2.length + 1 := by rw [hb]; simp; omega
    subst hbj
    refine ⟨_, n, m, b1 ++ b2, qj, hstep, ⟨?_, ?_⟩,
      quiet_moved k _ hsent hret (fun x => by rw [hb]; exact pending_erase x l1 l2 hwi)⟩
    · refine recv_fields h hb hj1 hj2 hwi _ ?_ ?_ n qj hque ?_ ?_ ?_ ?_ ?_
      · rfl
      · rfl
      · intro j1 hj1'
        apply h.win j1
        simp only [List.mem_append, List.mem_cons] at hj1' ⊢
        tauto
      · exact h.mle
      · exact hqlen
      · simp only [hq, List.length_nil]; omega
      · right; right
        refine ⟨hseed, hsL, by simp only [List.length_append]; omega,
          by simp only [List.length_append]; omega, hLm, ?_⟩
        simp only
        rw [resultOf_drop]
        have p1 := flatMap_split (primesOf L) b1 b2 qj j
        have p2 : (s.primes ++ primesOf L j ++ (b1 ++ b2 ++ qj).flatMap (primesOf L)).Perm
            (s.primes ++ (b1 ++ j :: b2 ++ qj).flatMap (primesOf L)) := by
          rw [List.append_assoc]
          exact List.Perm.append_left _ p1.symm
        exact p2.trans hcons
    · simp only [measure, hb, List.map_append, List.map_cons, List.sum_append, List.sum_cons]
      omega

theorem drain_step {L : Nat} {s : State} {n m : Nat} {bj qj : List Nat}
    (h : Inv L s n m bj qj) (hp : Draining L s m bj qj) (k : Nat)
    (hk : s.queue ≠ [] ∨ ∃ w, s.busy[k]? = some w ∧ w.done = true) :
    ∃ s1 n1 m1 bj1 qj1, schedStep s k = Except.ok s1 ∧ Inv L s1 n1 m1 bj1 qj1 ∧
      measure L s1 m1 < measure L s m := by
  obtain ⟨s1, n1, m1, bj1, qj1, e1, ⟨e2, e3⟩, _⟩ := drain_step_log h hp k hk
  exact ⟨s1, n1, m1, bj1, qj1, e1, e2, e3⟩

/-! ## The invariant: retiring the expected range -/

/-- The values the scheduler computes from the result of range `n`. -/
theorem retire_vals (L n : Nat) (h1 : rs (n + 1) < L) :
    primesIn 0 (rs n) ++ (resultOf L n).drop 2 = primesIn 0 (rs (n + 1)) ∧
      (resultOf L n).getD 0 0 * 2 = rs (n + 4) ∧ (resultOf L n).getD 1 0 * 2 = rs (n + 5) := by
  have e : min (rs (n + 1)) L = rs (n + 1) := min_eq_left (le_of_lt h1)
  refine ⟨?_, ?_, ?_⟩
  · rw [resultOf_drop, primesOf, e]
    exact primesIn_append (Nat.zero_le _) (le_of_lt (rs_lt_succ n))
  · rw [resultOf_zero, rs_add_four]; omega
  · rw [resultOf_one, e]
    have : rs (n + 5) = 2 * rs (n + 1) := rs_add_four (n + 1)
    omega

theorem perm_drop_first {l : List Nat} {n : Nat} (l1 l2 l3 : List Nat)
    (hl : l = l1 ++ n :: l2 ++ l3) (hp : l.Perm (List.range' n 4)) :
    (l1 ++ l2 ++ l3).Perm (List.range' (n + 1) 3) := by
  subst hl
  have e : List.range' n 4 = n :: List.range' (n + 1) 3 := by simp [List.range']
  rw [e] at hp
  have p1 : (l1 ++ n :: l2 ++ l3).Perm (n :: (l1 ++ l2 ++ l3)) := by
    rw [List.append_assoc, List.append_assoc]
    exact List.perm_middle
  exact (p1.symm.trans hp).cons_inv

theorem retire_step_log {L : Nat} {s : State} {n m : Nat} {bj qj : List Nat}
    (h : Inv L s n m bj qj) (hp : Steady L s n m bj qj) (hm : m = n + 4) (k : Nat)
    (hk : findExpected s ≠ none ∨ ∃ w, s.busy[k]? = some w ∧ w.done = true) :
    ∃ s1 n1 m1 bj1 qj1, schedStep s k = Except.ok s1 ∧ (Inv L s1 n1 m1 bj1 qj1 ∧
      measure L s1 m1 < measure L s m) ∧ Moved L s (Action.sched k) s1 n m n1 m1 := by
  obtain ⟨hseed, hsL, hjobs, hidle, hprimes, hperm, hexpI, hexpl, hcase⟩ := hp
  rcases hcase with ⟨_, hexp⟩ | ⟨hm3, _⟩
  swap
  · omega
  subst hm
  have e4 : n + 4 - n = 4 := by omega
  rw [e4] at hperm
  have hexp0 : s.expected.getD s.expI 0 = rs n := by
    have := hexp 0 (by omega)
    rwa [Nat.add_zero, Nat.mod_eq_of_lt hexpI, Nat.add_zero] at this
  have hblen := busy_length h
  have hqlen := queue_length h
  have hcount : bj.length + qj.length = 4 := by
    have := hperm.length_eq
    simpa using this
  have h1 : ¬ s.seed < 8 := by omega
  have h2 : ¬ s.start ≥ s.tab.length := by rw [h.len]; omega
  have h3 : ¬ s.jobsOut + s.queue.length < 4 := by omega
  have hn1 : rs (n + 1) < L := h.disp (n + 1) (by omega)
  obtain ⟨hv1, hv2, hv3⟩ := retire_vals L n hn1
  have hsent : sent s = none := by simp [sent, h1, h2, h3]
  cases hf : findExpected s with
  | some i =>
    obtain ⟨q1, j, q2, hqj, hq1, hrs⟩ := findExpected_some h.que hf
    have hjn : j = n := rs_inj.1 (by rw [hrs, hexp0])
    subst hjn
    have hqueue : s.queue = q1.map (resultOf L) ++ resultOf L j :: q2.map (resultOf L) := by
      rw [h.que, hqj]; simp
    have hget : s.queue.getD i [] = resultOf L j := by
      rw [hqueue, ← hq1]
      have := getD_split (q1.map (resultOf L)) (q2.map (resultOf L)) (resultOf L j) []
      simpa using this
    have hne : qj ≠ [] := by rw [hqj]; simp
    have hnew : (s.queue.set i (s.queue.getD (s.queue.length - 1) [])).dropLast
        = ((qj.set i (qj.getD (qj.length - 1) 0)).dropLast).map (resultOf L) := by
      rw [h.que]
      exact swapRemove_map (resultOf L) qj i 0 [] hne
    have hp1 : ((qj.set i (qj.getD (qj.length - 1) 0)).dropLast).Perm (q1 ++ q2) := by
      rw [hqj, ← hq1]
      exact swapRemove_perm q1 q2 j 0
    have hperm1 : (bj ++ (qj.set i (qj.getD (qj.length - 1) 0)).dropLast).Perm
        (List.range' (j + 1) 3) := by
      have p2 := perm_drop_first (bj ++ q1) q2 [] (by rw [hqj]; simp) hperm
      simp only [List.append_nil, List.append_assoc] at p2
      exact (List.Perm.append_left bj hp1).trans p2
    have hlen1 : bj.length + ((qj.set i (qj.getD (qj.length - 1) 0)).dropLast).length = 3 := by
      have := hperm1.length_eq
      simpa using this
    have hstep : schedStep s k = Except.ok
        { s with
          primes := s.primes ++ (s.queue.getD i []).drop 2
          start := (s.queue.getD i []).getD 0 0 * 2
          end_ := (s.queue.getD i []).getD 1 0 * 2
          queue := (s.queue.set i (s.queue.getD (s.queue.length - 1) [])).dropLast } := by
      unfold schedStep
      rw [if_neg h1, if_neg h2, if_neg h3]
      simp only [hf]
    have hret : retired s k = some (resultOf L j) := by
      simp only [retired, h1, h2, h3, if_false, hf, hget]
    refine ⟨_, j + 1, j + 4, bj, (qj.set i (qj.getD (qj.length - 1) 0)).dropLast, hstep, ⟨?_, ?_⟩,
      retire_moved k _ hsent hret (by omega) (fun x => rfl)⟩
    · refine queue_fields h _ ?_ ?_ (j + 1) _ hnew ?_ ?_ ?_ ?_ ?_
      · rfl
      · rfl
      · intro j1 hj1
        have := (hperm1.mem_iff).1 hj1
        simp only [List.mem_range'_1] at this
        omega
      · omega
      · simp only [hnew, List.length_map]; omega
      · simp only [hnew, List.length_map]; omega
      · refine retire_phase _ hseed ?_ ?_ ?_ hexpI hexpl hexp hjobs hidle hperm1 (le_of_lt hn1)
        · simp only [hget, hprimes, hv1]
        · simp only [hget, hv2]
        · simp only [hget, hv3]
    · simp only [measure, hnew, List.length_map]
      omega
  | none =>
    rcases hk with hk | ⟨w, hw, hd⟩
    · exact absurd hf hk
    obtain ⟨l1, l2, b1, j, b2, hb, hbj, hj1, hj2, hwj, hwi, hrecv⟩ := done_worker h hw hd
    have hbl : s.busy.length = l1.length + l2.length + 1 := by rw [hb]; simp; omega
    have hbjl : bj.length = b1.length + b2.length + 1 := by rw [hbj]; simp; omega
    have hl12 : l1.length + l2.length = b1.length + b2.length := by omega
    by_cases hjn : j = n
    · subst hjn
      have hstep : schedStep s k = Except.ok
          { s with
            busy := l1 ++ l2
            idle := s.idle + 1
            jobsOut := s.jobsOut - 1
            primes := s.primes ++ (resultOf L j).drop 2
            start := (resultOf L j).getD 0 0 * 2
            end_ := (resultOf L j).getD 1 0 * 2 } := by
        unfold schedStep
        rw [if_neg h1, if_neg h2, if_neg h3]
        simp only [hf, hrecv]
        rw [if_pos (by rw [resultOf_zero, hexp0])]
      have hperm1 : (b1 ++ b2 ++ qj).Perm (List.range' (j + 1) 3) :=
        perm_drop_first b1 b2 qj (by rw [hbj]) hperm
      have hlen1 : b1.length + b2.length + qj.length = 3 := by
        have := hperm1.length_eq
        simp at this
        omega
      have hret : retired s k = some (resultOf L j) := by
        simp only [retired, h1, h2, h3, if_false, hf, hrecv]
        rw [if_pos (by rw [resultOf_zero, hexp0])]
      refine ⟨_, j + 1, j + 4, b1 ++ b2, qj, hstep, ⟨?_, ?_⟩,
        retire_moved k _ hsent hret (by omega)
          (fun x => by rw [hb]; exact pending_erase x l1 l2 hwi)⟩
      · refine recv_fields h hb hj1 hj2 hwi _ ?_ ?_ (j + 1) qj h.que ?_ ?_ ?_ ?_ ?_
        · rfl
        · rfl
        · intro j1 hj1'
          have := (hperm1.mem_iff).1 hj1'
          simp only [List.mem_range'_1] at this
          omega
        · omega
        · exact h.qlen
        · simp only; omega
        · refine retire_phase _ hseed ?_ ?_ ?_ hexpI hexpl hexp ?_ ?_ hperm1 (le_of_lt hn1)
          · simp only [hprimes, hv1]
          · simp only [hv2]
          · simp only [hv3]
          · simp only [List.length_append]; omega
          · simp only [List.length_append]; omega
      · simp only [measure, hb, List.map_append, List.map_cons, List.sum_append, List.sum_cons]
        omega
    · have hne : ¬ (resultOf L j).getD 0 0 = s.expected.getD s.expI 0 := by
        rw [resultOf_zero, hexp0]
        exact fun e => hjn (rs_inj.1 e)
      have hstep : schedStep s k = Except.ok
          { s with
            busy := l1 ++ l2
            idle := s.idle + 1
            jobsOut := s.jobsOut - 1
            queue := s.queue ++ [resultOf L j] } := by
        unfold schedStep
        rw [if_neg h1, if_neg h2, if_neg h3]
        simp only [hf, hrecv]
        rw [if_neg hne]
      have hperm1 : (b1 ++ b2 ++ (qj ++ [j])).Perm (List.range' n (n + 4 - n)) := by
        rw [e4]
        refine List.Perm.trans ?_ hperm
        rw [hbj]
        have p1 : (b1 ++ j :: b2 ++ qj).Perm (j :: (b1 ++ b2 ++ qj)) := by
          rw [List.append_assoc, List.append_assoc]
          exact List.perm_middle
        have p2 : (b1 ++ b2 ++ (qj ++ [j])).Perm (j :: (b1 ++ b2 ++ qj)) := by
          rw [← List.append_assoc]
          exact List.perm_append_singleton j _
        exact p2.trans p1.symm
      have hnmem : n ∈ b1 ++ b2 := by
        have hn_in : n ∈ bj ++ qj := (hperm.mem_iff).2 (by simp)
        have hn_nq : n ∉ qj := fun hq => findExpected_none h.que hf n hq hexp0.symm
        rw [hbj] at hn_in
        simp only [List.mem_append, List.mem_cons] at hn_in ⊢
        rcases hn_in with (hx | hx | hx) | hx
        · exact Or.inl hx
        · exact absurd hx.symm hjn
        · exact Or.inr hx
        · exact absurd hx hn_nq
      have hpos : 1 ≤ b1.length + b2.length := by
        have := List.length_pos_of_mem hnmem
        simp only [List.length_append] at this
        omega
      have hret : retired s k = none := by
        simp only [retired, h1, h2, h3, if_false, hf, hrecv]
        rw [if_neg hne]
      refine ⟨_, n, n + 4, b1 ++ b2, qj ++ [j], hstep, ⟨?_, ?_⟩,
        quiet_moved k _ hsent hret (fun x => by rw [hb]; exact pending_erase x l1 l2 hwi)⟩
      · refine recv_fields h hb hj1 hj2 hwi _ ?_ ?_ n (qj ++ [j]) ?_ ?_ ?_ ?_ ?_ ?_
        · rfl
        · rfl
        · simp only [h.que, List.map_append, List.map_cons, List.map_nil]
        · intro j1 hj1'
          have := (hperm1.mem_iff).1 hj1'
          simp only [List.mem_range'_1] at this
          omega
        · omega
        · simp only [List.length_append, List.length_singleton]; omega
        · simp only [List.length_append, List.length_singleton]; omega
        · right; left
          refine ⟨hseed, hsL, by simp only [List.length_append]; omega,
            by simp only [List.length_append]; omega, hprimes, hperm1, hexpI, hexpl,
            Or.inl ⟨rfl, hexp⟩⟩
      · simp only [measure, hb, List.map_append, List.map_cons, List.sum_append, List.sum_cons,
          List.length_append, List.length_singleton]
        omega

theorem retire_step {L : Nat} {s : State} {n m : Nat} {bj qj : List Nat}
    (h : Inv L s n m bj qj) (hp : Steady L s n m bj qj) (hm : m = n + 4) (k : Nat)
    (hk : findExpected s ≠ none ∨ ∃ w, s.busy[k]? = some w ∧ w.done = true) :
    ∃ s1 n1 m1 bj1 qj1, schedStep s k = Except.ok s1 ∧ Inv L s1 n1 m1 bj1 qj1 ∧
      measure L s1 m1 < measure L s m := by
  obtain ⟨s1, n1, m1, bj1, qj1, e1, ⟨e2, e3⟩, _⟩ := retire_step_log h hp hm k hk
  exact ⟨s1, n1, m1, bj1, qj1, e1, e2, e3⟩

/-! ## Every enabled move keeps the invariant -/

theorem mem_enabled_tick {s : State} {k : Nat} (h : Action.tick k ∈ enabled s) :
    ∃ w, s.busy[k]? = some w ∧ w.done = false := by
  unfold enabled at h
  rcases List.mem_append.1 h with h | h
  · simp only [List.mem_map, List.mem_filter, List.mem_range, Action.tick.injEq] at h
    obtain ⟨k1, ⟨hk1, hd⟩, rfl⟩ := h
    refine ⟨s.busy[k1], List.getElem?_eq_getElem hk1, ?_⟩
    rw [List.getD_eq_getElem?_getD, List.getElem?_eq_getElem hk1] at hd
    simpa using hd
  · split at h
    · simp at h
    · simp at h

theorem mem_enabled_sched {s : State} {k : Nat} (h : Action.sched k ∈ enabled s) :
    wantsReport s = false ∨ ∃ w, s.busy[k]? = some w ∧ w.done = true := by
  unfold enabled at h
  rcases List.mem_append.1 h with h | h
  · simp at h
  · split at h
    · right
      simp only [List.mem_map, List.mem_filter, List.mem_range, Action.sched.injEq] at h
      obtain ⟨k1, ⟨hk1, hd⟩, rfl⟩ := h
      refine ⟨s.busy[k1], List.getElem?_eq_getElem hk1, ?_⟩
      rw [List.getD_eq_getElem?_getD, List.getElem?_eq_getElem hk1] at hd
      simpa using hd
    · left
      rename_i hw
      simpa using hw

theorem sched_inv_log {L : Nat} {s : State} {n m : Nat} {bj qj : List Nat}
    (h : Inv L s n m bj qj) (k : Nat)
    (hk : wantsReport s = false ∨ ∃ w, s.busy[k]? = some w ∧ w.done = true) :
    ∃ s1 n1 m1 bj1 qj1, schedStep s k = Except.ok s1 ∧ (Inv L s1 n1 m1 bj1 qj1 ∧
      measure L s1 m1 < measure L s m) ∧ Moved L s (Action.sched k) s1 n m n1 m1 := by
  rcases h.phase with hp | hp | hp
  · exact seed_step_log h hp k
  · have hp' := hp
    obtain ⟨hseed, hsL, hjobs, hidle, hprimes, hperm, hexpI, hexpl, hcase⟩ := hp'
    rcases hcase with ⟨hm, _⟩ | ⟨hm, _⟩
    · apply retire_step_log h hp hm k
      rcases hk with hk | hk
      · left
        have hcount : bj.length + qj.length = 4 := by
          have := hperm.length_eq
          simp at this
          omega
        have hb := busy_length h
        have hq := queue_length h
        have h1 : ¬ s.seed < 8 := by omega
        have h2 : ¬ s.start ≥ s.tab.length := by rw [h.len]; omega
        have h3 : ¬ s.jobsOut + s.queue.length < 4 := by omega
        unfold wantsReport at hk
        rw [if_neg h1, if_neg h2, if_neg h3] at hk
        intro hnone
        rw [hnone] at hk
        simp at hk
      · exact Or.inr hk
    · exact dispatch_step_log h hp hm k
  · apply drain_step_log h hp k
    rcases hk with hk | hk
    · left
      obtain ⟨hseed, hsL, _⟩ := hp
      have h1 : ¬ s.seed < 8 := by omega
      have h2 : s.start ≥ s.tab.length := by rw [h.len]; exact hsL
      unfold wantsReport at hk
      rw [if_neg h1, if_pos h2] at hk
      intro hnil
      rw [hnil] at hk
      simp at hk
    · exact Or.inr hk

theorem sched_inv {L : Nat} {s : State} {n m : Nat} {bj qj : List Nat}
    (h : Inv L s n m bj qj) (k : Nat)
    (hk : wantsReport s = false ∨ ∃ w, s.busy[k]? = some w ∧ w.done = true) :
    ∃ s1 n1 m1 bj1 qj1, schedStep s k = Except.ok s1 ∧ Inv L s1 n1 m1 bj1 qj1 ∧
      measure L s1 m1 < measure L s m := by
  obtain ⟨s1, n1, m1, bj1, qj1, e1, ⟨e2, e3⟩, _⟩ := sched_inv_log h k hk
  exact ⟨s1, n1, m1, bj1, qj1, e1, e2, e3⟩

/-- Every enabled move succeeds, keeps the invariant, brings the run nearer its end,
and leaves on the record what the ghost counters say. -/
theorem step_inv_log {L : Nat} {s : State} {n m : Nat} {bj qj : List Nat}
    (h : Inv L s n m bj qj) {a : Action} (ha : a ∈ enabled s) :
    ∃ s1 n1 m1 bj1 qj1, step s a = Except.ok s1 ∧ (Inv L s1 n1 m1 bj1 qj1 ∧
      measure L s1 m1 < measure L s m) ∧ Moved L s a s1 n m n1 m1 := by
  cases a with
  | tick k =>
    obtain ⟨w, hw, hd⟩ := mem_enabled_tick ha
    obtain ⟨s1, e1, e2, e3, e4⟩ := tick_inv_log h hw hd
    exact ⟨s1, n, m, bj, qj, e1, ⟨e2, e3⟩, e4⟩
  | sched k => exact sched_inv_log h k (mem_enabled_sched ha)

theorem step_inv {L : Nat} {s : State} {n m : Nat} {bj qj : List Nat}
    (h : Inv L s n m bj qj) {a : Action} (ha : a ∈ enabled s) :
    ∃ s1 n1 m1 bj1 qj1, step s a = Except.ok s1 ∧ Inv L s1 n1 m1 bj1 qj1 ∧
      measure L s1 m1 < measure L s m := by
  obtain ⟨s1, n1, m1, bj1, qj1, e1, ⟨e2, e3⟩, _⟩ := step_inv_log h ha
  exact ⟨s1, n1, m1, bj1, qj1, e1, e2, e3⟩

/-! ## No deadlock -/

theorem enabled_ne_nil_of_busy {s : State} (hb : s.busy ≠ []) : enabled s ≠ [] := by
  cases hbs : s.busy with
  | nil => exact absurd hbs hb
  | cons w rest =>
    by_cases hd : w.done = true
    · by_cases hw : wantsReport s = true
      · have : Action.sched 0 ∈ enabled s := by
          unfold enabled
          rw [if_pos hw]
          apply List.mem_append_right
          simp [hbs, hd]
        exact List.ne_nil_of_mem this
      · have : Action.sched 0 ∈ enabled s := by
          unfold enabled
          rw [if_neg hw]
          simp
        exact List.ne_nil_of_mem this
    · have : Action.tick 0 ∈ enabled s := by
        unfold enabled
        apply List.mem_append_left
        simp [hbs, hd]
      exact List.ne_nil_of_mem this

theorem enabled_ne_nil {L : Nat} {s : State} {n m : Nat} {bj qj : List Nat}
    (h : Inv L s n m bj qj) (hlo : loopOver s = false) : enabled s ≠ [] := by
  by_cases hw : wantsReport s = true
  · apply enabled_ne_nil_of_busy
    have hb := busy_length h
    have hq := queue_length h
    rcases h.phase with hp | hp | hp
    · exfalso
      obtain ⟨hlt, _⟩ := hp
      unfold wantsReport at hw
      rw [if_pos hlt] at hw
      simp at hw
    · obtain ⟨hseed, hsL, hjobs, hidle, hprimes, hperm, hexpI, hexpl, hcase⟩ := hp
      have h1 : ¬ s.seed < 8 := by omega
      have h2 : ¬ s.start ≥ s.tab.length := by rw [h.len]; omega
      unfold wantsReport at hw
      rw [if_neg h1, if_neg h2] at hw
      split at hw
      · simp at hw
      · rename_i h3
        have hnone : findExpected s = none := by simpa using hw
        rcases hcase with ⟨hm, hexp⟩ | ⟨hm, _⟩
        · have hexp0 : s.expected.getD s.expI 0 = rs n := by
            have := hexp 0 (by omega)
            rwa [Nat.add_zero, Nat.mod_eq_of_lt hexpI, Nat.add_zero] at this
          have hn_in : n ∈ bj ++ qj := (hperm.mem_iff).2 (by simp; omega)
          have hn_nq : n ∉ qj := fun hq => findExpected_none h.que hnone n hq hexp0.symm
          have hn_b : n ∈ bj := by
            rcases List.mem_append.1 hn_in with hx | hx
            · exact hx
            · exact absurd hx hn_nq
          intro hnil
          rw [hnil] at hb
          have := List.length_pos_of_mem hn_b
          simp at hb
          omega
        · exfalso
          have := hperm.length_eq
          simp at this
          omega
    · obtain ⟨hseed, hsL, hjobs, hidle, _⟩ := hp
      have h1 : ¬ s.seed < 8 := by omega
      have h2 : s.start ≥ s.tab.length := by rw [h.len]; exact hsL
      unfold wantsReport at hw
      rw [if_neg h1, if_pos h2] at hw
      have hqe : s.queue = [] := by simpa using hw
      intro hnil
      have hj0 : s.jobsOut = 0 := by rw [hjobs, hnil]; rfl
      simp [loopOver, hseed, hj0, hqe] at hlo
  · have : Action.sched 0 ∈ enabled s := by
      unfold enabled
      rw [if_neg hw]
      simp
    exact List.ne_nil_of_mem this

theorem measure_pos {L : Nat} {s : State} {n m : Nat} {bj qj : List Nat}
    (h : Inv L s n m bj qj) (hlo : loopOver s = false) : 0 < measure L s m := by
  unfold measure
  rcases h.phase with hp | hp | hp
  · obtain ⟨hlt, hge, hn, hm, _⟩ := hp
    have e : rs m = m + 4 := rs_small m (by omega)
    have := h.big
    rw [min_eq_left (by omega)]
    omega
  · obtain ⟨hseed, hsL, hjobs, hidle, hprimes, hperm, _⟩ := hp
    have := h.disp n (by
      rcases ‹_ ∧ _› with ⟨_, _, hc⟩
      rcases hc with ⟨hm, _⟩ | ⟨hm, _⟩ <;> omega)
    have hle : rs n ≤ rs m := rs_le_iff.2 (by have := h.mle; omega)
    have hb := busy_length h
    have hq := queue_length h
    have hcount := hperm.length_eq
    simp at hcount
    cases hbs : s.busy with
    | nil =>
      rw [hbs] at hb
      simp at hb
      rcases ‹_ ∧ _› with ⟨_, _, hc⟩
      rcases hc with ⟨hm, _⟩ | ⟨hm, _⟩ <;> simp <;> omega
    | cons w rest => simp
  · obtain ⟨hseed, hsL, hjobs, hidle, _⟩ := hp
    unfold loopOver at hlo
    cases hbs : s.busy with
    | nil =>
      rw [hbs] at hjobs
      simp at hjobs
      simp [hseed, hjobs] at hlo
      have : 0 < s.queue.length := List.length_pos.2 hlo
      simp; omega
    | cons w rest => simp


/-! ## Whole runs -/

theorem pick_mem {α : Type} (a : α) (as : List α) (c : Nat) :
    (a :: as).getD (c % (a :: as).length) a ∈ a :: as := by
  have hlt : c % (a :: as).length < (a :: as).length := Nat.mod_lt _ (by simp)
  rw [List.getD_eq_getElem _ _ hlt]
  exact List.getElem_mem _

/-- Along any schedule the run keeps the invariant and cannot fail: it reaches the end
of the main loop, or the schedule was shorter than the measure. -/
theorem run_spec {L : Nat} (cs : List Nat) : ∀ (s : State) (n m : Nat) (bj qj : List Nat),
    Inv L s n m bj qj →
    (∃ s1 n1 m1 bj1 qj1, run cs s = Except.ok s1 ∧ Inv L s1 n1 m1 bj1 qj1 ∧
        loopOver s1 = true) ∨
      (run cs s = Except.error Fault.unfinished ∧ cs.length < measure L s m) := by
  induction cs with
  | nil =>
    intro s n m bj qj h
    by_cases hlo : loopOver s = true
    · left
      exact ⟨s, n, m, bj, qj, by unfold run; rw [if_pos hlo], h, hlo⟩
    · right
      have hlo' : loopOver s = false := by simpa using hlo
      have hne := enabled_ne_nil h hlo'
      refine ⟨?_, by simpa using measure_pos h hlo'⟩
      unfold run
      rw [if_neg hlo]
      cases he : enabled s with
      | nil => exact absurd he hne
      | cons a as => rfl
  | cons c cs1 ih =>
    intro s n m bj qj h
    by_cases hlo : loopOver s = true
    · left
      exact ⟨s, n, m, bj, qj, by unfold run; rw [if_pos hlo], h, hlo⟩
    · have hlo' : loopOver s = false := by simpa using hlo
      have hne := enabled_ne_nil h hlo'
      unfold run
      rw [if_neg hlo]
      cases he : enabled s with
      | nil => exact absurd he hne
      | cons a as =>
        have hmem : (a :: as).getD (c % (a :: as).length) a ∈ enabled s := by
          rw [he]; exact pick_mem a as c
        obtain ⟨s1, n1, m1, bj1, qj1, e1, e2, e3⟩ := step_inv h hmem
        simp only [e1]
        rcases ih s1 n1 m1 bj1 qj1 e2 with hl | ⟨hr1, hr2⟩
        · exact Or.inl hl
        · right
          refine ⟨hr1, ?_⟩
          simp only [List.length_cons]
          omega

/-- What the invariant says once the main loop is over. -/
theorem final_facts {L : Nat} {s : State} {n m : Nat} {bj qj : List Nat}
    (h : Inv L s n m bj qj) (hlo : loopOver s = true) :
    s.busy = [] ∧ s.queue = [] ∧ s.idle = 4 ∧ s.primes.Perm (primesIn 0 L) ∧
      ∀ x, 2 ≤ x → x < L → s.tab[x]? = some (Ω x % 256) := by
  unfold loopOver at hlo
  simp only [Bool.and_eq_true, decide_eq_true_eq] at hlo
  obtain ⟨hs8, hz⟩ := hlo
  have hb := busy_length h
  have hq := queue_length h
  have hq0 : s.queue = [] := List.length_eq_zero.1 (by omega)
  have hqj : qj = [] := List.length_eq_zero.1 (by omega)
  rcases h.phase with hp | hp | hp
  · obtain ⟨hlt, _⟩ := hp
    omega
  · exfalso
    obtain ⟨hseed, hsL, hjobs, hidle, hprimes, hperm, hexpI, hexpl, hcase⟩ := hp
    have := hperm.length_eq
    simp at this
    rcases hcase with ⟨hm, _⟩ | ⟨hm, _⟩ <;> omega
  · obtain ⟨hseed, hsL, hjobs, hidle, hLm, hcons⟩ := hp
    have hb0 : s.busy = [] := List.length_eq_zero.1 (by omega)
    have hbj : bj = [] := List.length_eq_zero.1 (by omega)
    refine ⟨hb0, hq0, by rw [hb0] at hidle; simpa using hidle, ?_, ?_⟩
    · rw [hbj, hqj] at hcons
      simpa using hcons
    · intro x hx2 hxL
      apply h.tabOK x hx2 (by omega) hxL
      rw [hb0]
      simp

theorem kill_four (s : State) (h : s.idle = 4) :
    kill 4 s = Except.ok { s with idle := 0 } := by
  cases s
  simp only at h
  subst h
  simp [kill, send, accept]

/-- The run of `factCount` from a zeroed table of length `L ≥ 8`, under any schedule:
it cannot fail; given `4 L` moves it returns, with every entry from `2` on the number
of prime factors modulo `256` and the registry a rearrangement of the primes below
`L`. -/
theorem factCountFull_spec (L : Nat) (hL : 8 ≤ L) (cs : List Nat) :
    (∃ s, factCountFull (List.replicate L 0) cs = Except.ok (s, s.primes.length) ∧
        s.tab.length = L ∧ s.tab[0]? = some 0 ∧ s.tab[1]? = some 1 ∧
        (∀ x, 2 ≤ x → x < L → s.tab[x]? = some (Ω x % 256)) ∧
        s.primes.Perm (primesIn 0 L)) ∨
      (factCountFull (List.replicate L 0) cs = Except.error Fault.unfinished ∧
        cs.length < 4 * L) := by
  obtain ⟨s0, hinit, hinv, hmeas⟩ := init_inv L hL
  rcases run_spec cs s0 0 0 [] [] hinv with ⟨s1, n1, m1, bj1, qj1, hrun, hinv1, hlo⟩ | ⟨hrun, hlen⟩
  · left
    obtain ⟨hb, hq, hidle, hperm, htab⟩ := final_facts hinv1 hlo
    refine ⟨{ s1 with idle := 0 }, ?_, hinv1.len, hinv1.zero, hinv1.one, htab, hperm⟩
    unfold factCountFull
    simp only [hinit, hrun, kill_four s1 hidle]
  · right
    refine ⟨?_, by omega⟩
    unfold factCountFull
    simp only [hinit, hrun]

/-- Every state on a run from a zeroed table of length `L ≥ 8` satisfies the
invariant. -/
theorem reach_inv {L : Nat} (hL : 8 ≤ L) {s : State} (hr : Reach (List.replicate L 0) s) :
    ∃ n m bj qj, Inv L s n m bj qj := by
  induction hr with
  | init h0 =>
    obtain ⟨s0, hinit, hinv, _⟩ := init_inv L hL
    rw [hinit] at h0
    cases h0
    exact ⟨0, 0, [], [], hinv⟩
  | step _ _ ha hs ih =>
    obtain ⟨n, m, bj, qj, hinv⟩ := ih
    obtain ⟨s1, n1, m1, bj1, qj1, e1, e2, _⟩ := step_inv hinv ha
    rw [e1] at hs
    cases hs
    exact ⟨n1, m1, bj1, qj1, e2⟩


/-! ## Runs on concrete tables, and arithmetic for the statements -/

theorem run_cons (s1 : State) {s : State} {c : Nat} {cs : List Nat} (h1 : loopOver s = false)
    (h2 : move s c = Except.ok s1) : run (c :: cs) s = run cs s1 := by
  unfold move at h2
  conv_lhs => unfold run
  rw [if_neg (by simp [h1])]
  cases he : enabled s with
  | nil => rw [he] at h2; cases h2
  | cons a as =>
    rw [he] at h2
    simp only at h2 ⊢
    rw [h2]

theorem run_fail {s : State} {c : Nat} {cs : List Nat} {e : Fault} (h1 : loopOver s = false)
    (h2 : move s c = Except.error e) (h3 : enabled s ≠ []) : run (c :: cs) s = Except.error e := by
  unfold move at h2
  conv_lhs => unfold run
  rw [if_neg (by simp [h1])]
  cases he : enabled s with
  | nil => exact absurd he h3
  | cons a as =>
    rw [he] at h2
    simp only at h2 ⊢
    rw [h2]

theorem run_done {s : State} {cs : List Nat} (h1 : loopOver s = true) :
    run cs s = Except.ok s := by
  unfold run
  rw [if_pos h1]

theorem cardFactors_mod (i : Nat) (h0 : i ≠ 0) (h : i < 2 ^ 256) : Ω i % 256 = Ω i :=
  Nat.mod_eq_of_lt (cardFactors_lt_of_lt_two_pow h0 h)

theorem primesIn_length (n : Nat) : (primesIn 0 n).length = Nat.primeCounting' n := by
  induction n with
  | zero => simp [primesIn, Nat.primeCounting']
  | succ n ih =>
    rw [primesIn_succ 0 n (Nat.zero_le _), List.length_append, ih]
    unfold Nat.primeCounting'
    rw [Nat.count_succ]
    by_cases hp : n.Prime <;> simp [hp]

theorem primesIn_nodup (a b : Nat) : (primesIn a b).Nodup :=
  (primesIn_sorted a b).nodup

/-- The result of `factCount` on a zeroed table of length `N + 1`, `7 ≤ N`, under a
schedule of `4 (N + 1)` moves or more. -/
theorem factCount_spec (N : Nat) (h7 : 7 ≤ N) (cs : List Nat) (hcs : 4 * (N + 1) ≤ cs.length) :
    ∃ s, factCountFull (List.replicate (N + 1) 0) cs = Except.ok (s, s.primes.length) ∧
      factCount (List.replicate (N + 1) 0) cs = Except.ok (s.tab, s.primes.length) ∧
      s.tab.length = N + 1 ∧ s.tab[0]? = some 0 ∧ s.tab[1]? = some 1 ∧
      (∀ x, 2 ≤ x → x ≤ N → s.tab[x]? = some (Ω x % 256)) ∧
      s.primes.Perm (primesIn 0 (N + 1)) := by
  rcases factCountFull_spec (N + 1) (by omega) cs with ⟨s, h1, h2, h3, h4, h5, h6⟩ | ⟨_, hlt⟩
  · refine ⟨s, h1, ?_, h2, h3, h4, fun x hx1 hx2 => h5 x hx1 (by omega), h6⟩
    unfold factCount
    rw [h1]
  · omega

/-- The table `factCount` returns is the same under every schedule. -/
theorem final_table_eq {N : Nat} {t1 t2 : List Nat} (hl1 : t1.length = N + 1)
    (hl2 : t2.length = N + 1) (hz1 : t1[0]? = some 0) (hz2 : t2[0]? = some 0)
    (ho1 : t1[1]? = some 1) (ho2 : t2[1]? = some 1)
    (h1 : ∀ x, 2 ≤ x → x ≤ N → t1[x]? = some (Ω x % 256))
    (h2 : ∀ x, 2 ≤ x → x ≤ N → t2[x]? = some (Ω x % 256)) : t1 = t2 := by
  apply List.ext_getElem?
  intro i
  by_cases hi : i ≤ N
  · by_cases hi0 : i = 0
    · subst hi0; rw [hz1, hz2]
    · by_cases hi1 : i = 1
      · subst hi1; rw [ho1, ho2]
      · rw [h1 i (by omega) hi, h2 i (by omega) hi]
  · rw [List.getElem?_eq_none (by omega), List.getElem?_eq_none (by omega)]

/-- A run on the table for `N = 10`: the four seeds are handed out, the ranges `[4, 5)`
and `[5, 6)` are worked and retired in order, and `[8, 10)` is handed out in between.
The registry is `[2, 3, 5]` and `start = 10` is still inside the table. -/
theorem reach_ten :
    Reach (List.replicate (10 + 1) 0)
      ⟨[0, 1, 1, 1, 2, 1, 0, 0, 0, 0, 0], [2, 3, 5], 8, 1, [⟨⟨6, 7, [2, 3]⟩, 6, [6, 7]⟩, ⟨⟨7, 8, [2, 3]⟩, 7, [7, 8]⟩, ⟨⟨8, 10, [2, 3]⟩, 8, [8, 10]⟩], 3, [], [8, 5, 6, 7], 1, 10, 12⟩ := by
  have h0 : initState (List.replicate (10 + 1) 0) = Except.ok
      ⟨[0, 1, 1, 1, 0, 0, 0, 0, 0, 0, 0], [2, 3], 4, 0, [], 4, [], [4, 5, 6, 7], 0, 8, 10⟩ := by decide
  have h1 := @Reach.step _ _
    (⟨[0, 1, 1, 1, 0, 0, 0, 0, 0, 0, 0], [2, 3], 5, 0, [⟨⟨4, 5, [2, 3]⟩, 4, [4, 5]⟩], 4, [], [4, 5, 6, 7], 0, 8, 10⟩)
    (Action.sched 0) (Reach.init h0) (by decide) (by decide) (by decide)
  have h2 := @Reach.step _ _
    (⟨[0, 1, 1, 1, 0, 0, 0, 0, 0, 0, 0], [2, 3], 6, 0, [⟨⟨4, 5, [2, 3]⟩, 4, [4, 5]⟩, ⟨⟨5, 6, [2, 3]⟩, 5, [5, 6]⟩], 4, [], [4, 5, 6, 7], 0, 8, 10⟩)
    (Action.sched 0) h1 (by decide) (by decide) (by decide)
  have h3 := @Reach.step _ _
    (⟨[0, 1, 1, 1, 0, 0, 0, 0, 0, 0, 0], [2, 3], 7, 0, [⟨⟨4, 5, [2, 3]⟩, 4, [4, 5]⟩, ⟨⟨5, 6, [2, 3]⟩, 5, [5, 6]⟩, ⟨⟨6, 7, [2, 3]⟩, 6, [6, 7]⟩], 4, [], [4, 5, 6, 7], 0, 8, 10⟩)
    (Action.sched 0) h2 (by decide) (by decide) (by decide)
  have h4 := @Reach.step _ _
    (⟨[0, 1, 1, 1, 0, 0, 0, 0, 0, 0, 0], [2, 3], 8, 0, [⟨⟨4, 5, [2, 3]⟩, 4, [4, 5]⟩, ⟨⟨5, 6, [2, 3]⟩, 5, [5, 6]⟩, ⟨⟨6, 7, [2, 3]⟩, 6, [6, 7]⟩, ⟨⟨7, 8, [2, 3]⟩, 7, [7, 8]⟩], 4, [], [4, 5, 6, 7], 0, 8, 10⟩)
    (Action.sched 0) h3 (by decide) (by decide) (by decide)
  have h5 := @Reach.step _ _
    (⟨[0, 1, 1, 1, 2, 0, 0, 0, 0, 0, 0], [2, 3], 8, 0, [⟨⟨4, 5, [2, 3]⟩, 5, [4, 5]⟩, ⟨⟨5, 6, [2, 3]⟩, 5, [5, 6]⟩, ⟨⟨6, 7, [2, 3]⟩, 6, [6, 7]⟩, ⟨⟨7, 8, [2, 3]⟩, 7, [7, 8]⟩], 4, [], [4, 5, 6, 7], 0, 8, 10⟩)
    (Action.tick 0) h4 (by decide) (by decide) (by decide)
  have h6 := @Reach.step _ _
    (⟨[0, 1, 1, 1, 2, 0, 0, 0, 0, 0, 0], [2, 3], 8, 1, [⟨⟨5, 6, [2, 3]⟩, 5, [5, 6]⟩, ⟨⟨6, 7, [2, 3]⟩, 6, [6, 7]⟩, ⟨⟨7, 8, [2, 3]⟩, 7, [7, 8]⟩], 3, [], [4, 5, 6, 7], 0, 8, 10⟩)
    (Action.sched 0) h5 (by decide) (by decide) (by decide)
  have h7 := @Reach.step _ _
    (⟨[0, 1, 1, 1, 2, 0, 0, 0, 0, 0, 0], [2, 3], 8, 0, [⟨⟨5, 6, [2, 3]⟩, 5, [5, 6]⟩, ⟨⟨6, 7, [2, 3]⟩, 6, [6, 7]⟩, ⟨⟨7, 8, [2, 3]⟩, 7, [7, 8]⟩, ⟨⟨8, 10, [2, 3]⟩, 8, [8, 10]⟩], 4, [], [8, 5, 6, 7], 1, 8, 10⟩)
    (Action.sched 0) h6 (by decide) (by decide) (by decide)
  have h8 := @Reach.step _ _
    (⟨[0, 1, 1, 1, 2, 1, 0, 0, 0, 0, 0], [2, 3], 8, 0, [⟨⟨5, 6, [2, 3]⟩, 6, [5, 6, 5]⟩, ⟨⟨6, 7, [2, 3]⟩, 6, [6, 7]⟩, ⟨⟨7, 8, [2, 3]⟩, 7, [7, 8]⟩, ⟨⟨8, 10, [2, 3]⟩, 8, [8, 10]⟩], 4, [], [8, 5, 6, 7], 1, 8, 10⟩)
    (Action.tick 0) h7 (by decide) (by decide) (by decide)
  have h9 := @Reach.step _ _
    (⟨[0, 1, 1, 1, 2, 1, 0, 0, 0, 0, 0], [2, 3, 5], 8, 1, [⟨⟨6, 7, [2, 3]⟩, 6, [6, 7]⟩, ⟨⟨7, 8, [2, 3]⟩, 7, [7, 8]⟩, ⟨⟨8, 10, [2, 3]⟩, 8, [8, 10]⟩], 3, [], [8, 5, 6, 7], 1, 10, 12⟩)
    (Action.sched 0) h8 (by decide) (by decide) (by decide)
  exact h9

/-! ## The record of a run -/

theorem init_logged {L : Nat} {s : State} (h : initState (List.replicate L 0) = Except.ok s) :
    Logged L s initLog 0 0 := by
  unfold initState at h
  split at h
  · cases h
    refine ⟨rfl, rfl, ?_, ⟨[], rfl⟩, Nat.le_refl 0⟩
    intro x
    simp [initLog, pending_nil, covered_nil]
  · cases h

/-- A move of the invariant keeps the record in step with the ghost counters. -/
theorem logged_step {L : Nat} {s s1 : State} {g : Log} {a : Action} {n m n1 m1 : Nat}
    (h : Logged L s g n m) (hm : Moved L s a s1 n m n1 m1) :
    Logged L s1 (record g s a) n1 m1 := by
  refine ⟨?_, ?_, ?_, ?_, ?_⟩
  · simp only [record, hm.sends, h.disp]
    rcases hm.mstep with e | ⟨e, _⟩
    · simp [e]
    · rw [if_neg (by omega), e, List.range_succ, List.map_append]
      rfl
  · simp only [record, hm.retires, h.ret]
    rcases hm.nstep with e | ⟨e, _⟩
    · simp [e]
    · rw [if_neg (by omega), e, List.range_succ, List.map_append]
      rfl
  · intro x
    have h1 := h.wr x
    have h2 := hm.cons x
    simp only [record, List.count_append, covered_append]
    omega
  · obtain ⟨ws, hws⟩ := h.boot
    exact ⟨ws ++ writtenBy s a, by simp [record, hws]⟩
  · have := h.nle
    rcases hm.nstep with e | ⟨e, hlt⟩
    · rcases hm.mstep with e1 | ⟨e1, _⟩ <;> omega
    · rcases hm.excl with e1 | e1 <;> omega

/-- Every state on a run from a zeroed table of length `L ≥ 8` satisfies the invariant,
and the record of the run is the one the ghost counters describe. -/
theorem trace_inv {L : Nat} (hL : 8 ≤ L) {s : State} {g : Log}
    (hr : Trace (List.replicate L 0) s g) :
    ∃ n m bj qj, Inv L s n m bj qj ∧ Logged L s g n m := by
  induction hr with
  | init h0 =>
    obtain ⟨s0, hinit, hinv, _⟩ := init_inv L hL
    have hl := init_logged h0
    rw [hinit] at h0
    cases h0
    exact ⟨0, 0, [], [], hinv, hl⟩
  | step _ _ ha hs ih =>
    obtain ⟨n, m, bj, qj, hinv, hlog⟩ := ih
    obtain ⟨s1, n1, m1, bj1, qj1, e1, ⟨e2, _⟩, e4⟩ := step_inv_log hinv ha
    rw [e1] at hs
    cases hs
    exact ⟨n1, m1, bj1, qj1, e2, logged_step hlog e4⟩

/-- Along any schedule the run keeps the invariant and its record, and cannot fail. -/
theorem runLog_spec {L : Nat} (cs : List Nat) :
    ∀ (s : State) (g : Log) (n m : Nat) (bj qj : List Nat),
    Inv L s n m bj qj → Logged L s g n m →
    (∃ s1 g1 n1 m1 bj1 qj1, runLog cs s g = Except.ok (s1, g1) ∧ Inv L s1 n1 m1 bj1 qj1 ∧
        Logged L s1 g1 n1 m1 ∧ loopOver s1 = true) ∨
      (runLog cs s g = Except.error Fault.unfinished ∧ cs.length < measure L s m) := by
  induction cs with
  | nil =>
    intro s g n m bj qj h hl
    by_cases hlo : loopOver s = true
    · left
      exact ⟨s, g, n, m, bj, qj, by unfold runLog; rw [if_pos hlo], h, hl, hlo⟩
    · right
      have hlo1 : loopOver s = false := by simpa using hlo
      have hne := enabled_ne_nil h hlo1
      refine ⟨?_, by simpa using measure_pos h hlo1⟩
      unfold runLog
      rw [if_neg hlo]
      cases he : enabled s with
      | nil => exact absurd he hne
      | cons a as => rfl
  | cons c cs1 ih =>
    intro s g n m bj qj h hl
    by_cases hlo : loopOver s = true
    · left
      exact ⟨s, g, n, m, bj, qj, by unfold runLog; rw [if_pos hlo], h, hl, hlo⟩
    · have hlo1 : loopOver s = false := by simpa using hlo
      have hne := enabled_ne_nil h hlo1
      unfold runLog
      rw [if_neg hlo]
      cases he : enabled s with
      | nil => exact absurd he hne
      | cons a as =>
        have hmem : (a :: as).getD (c % (a :: as).length) a ∈ enabled s := by
          rw [he]; exact pick_mem a as c
        obtain ⟨s1, n1, m1, bj1, qj1, e1, ⟨e2, e3⟩, e4⟩ := step_inv_log h hmem
        simp only [e1]
        rcases ih s1 _ n1 m1 bj1 qj1 e2 (logged_step hl e4) with hl1 | ⟨hr1, hr2⟩
        · exact Or.inl hl1
        · right
          refine ⟨hr1, ?_⟩
          simp only [List.length_cons]
          omega

/-! ## The ranges handed out -/

theorem jobs_bounds (L m : Nat) (hd : ∀ j, j < m → rs j < L) :
    ∀ t ∈ (List.range m).map (jobOf L), 4 ≤ t.start ∧ t.start < t.end_ ∧ t.end_ ≤ L := by
  intro t ht
  obtain ⟨j, hj, rfl⟩ := List.mem_map.1 ht
  have hj1 := hd j (List.mem_range.1 hj)
  exact ⟨rs_ge j, min_rs_succ_gt hj1, min_le_right _ _⟩

theorem jobs_chain (L m : Nat) (hd : ∀ j, j < m → rs j < L) :
    List.Chain' (fun a b : Task => b.start = a.end_) ((List.range m).map (jobOf L)) := by
  rw [List.chain'_map]
  cases m with
  | zero => simp
  | succ k =>
    rw [List.chain'_range_succ]
    intro j hj
    have := hd (j + 1) (by omega)
    simp only [jobOf]
    rw [min_eq_left (le_of_lt this)]

theorem jobs_pairwise (L m : Nat) :
    List.Pairwise (fun a b : Task => a.end_ ≤ b.start) ((List.range m).map (jobOf L)) := by
  rw [List.pairwise_map]
  refine List.Pairwise.imp ?_ (List.pairwise_lt_range m)
  intro a b hab
  simp only [jobOf]
  have : rs (a + 1) ≤ rs b := rs_le_iff.2 hab
  have := min_le_left (rs (a + 1)) L
  omega

/-- Every index from `4` up to the start of range `m` lies in one of the ranges before
`m`. -/
theorem range_of_index (m i : Nat) (h4 : 4 ≤ i) (hi : i < rs m) :
    ∃ j, j < m ∧ rs j ≤ i ∧ i < rs (j + 1) := by
  induction m with
  | zero => simp [rs] at hi; omega
  | succ k ih =>
    by_cases h : i < rs k
    · obtain ⟨j, hj, h1, h2⟩ := ih h
      exact ⟨j, by omega, h1, h2⟩
    · exact ⟨k, by omega, by omega, hi⟩

/-- The number of ranges before `m` that hold `x`. -/
theorem covered_jobs (L m x : Nat) :
    covered x ((List.range m).map (jobOf L)) = if 4 ≤ x ∧ x < min (rs m) L then 1 else 0 := by
  induction m with
  | zero =>
    have e : rs 0 = 4 := rfl
    rw [List.range_zero, List.map_nil, covered_nil, e]
    split_ifs <;> omega
  | succ k ih =>
    rw [List.range_succ, List.map_append, covered_append, ih]
    simp only [List.map_cons, List.map_nil, covered_single, jobOf]
    have h4 := rs_ge k
    have hlt := rs_lt_succ k
    split_ifs <;> omega

/-! ## Whole runs, with their record -/

/-- The function `runLog` is `run` with the record added. -/
theorem runLog_run (cs : List Nat) : ∀ (s : State) (g : Log),
    (runLog cs s g).map Prod.fst = run cs s := by
  induction cs with
  | nil =>
    intro s g
    unfold runLog run
    by_cases hlo : loopOver s = true
    · simp [hlo, Except.map]
    · simp only [hlo]
      cases enabled s <;> rfl
  | cons c cs1 ih =>
    intro s g
    unfold runLog run
    by_cases hlo : loopOver s = true
    · simp [hlo, Except.map]
    · simp only [hlo]
      cases he : enabled s with
      | nil => rfl
      | cons a as =>
        simp only [Bool.false_eq_true, if_false]
        cases hs : step s ((a :: as).getD (c % (a :: as).length) a) with
        | error e => rfl
        | ok s1 => exact ih s1 _

/-- Once the main loop is over every index of the table has been handed out. -/
theorem final_handed {L : Nat} {s : State} {n m : Nat} {bj qj : List Nat}
    (h : Inv L s n m bj qj) (hlo : loopOver s = true) : L ≤ rs m := by
  unfold loopOver at hlo
  simp only [Bool.and_eq_true, decide_eq_true_eq] at hlo
  obtain ⟨hs8, hz⟩ := hlo
  have hb := busy_length h
  have hq := queue_length h
  rcases h.phase with hp | hp | hp
  · obtain ⟨hlt, _⟩ := hp
    omega
  · exfalso
    obtain ⟨hseed, hsL, hjobs, hidle, hprimes, hperm, hexpI, hexpl, hcase⟩ := hp
    have := hperm.length_eq
    simp at this
    rcases hcase with ⟨hm, _⟩ | ⟨hm, _⟩ <;> omega
  · exact hp.2.2.2.2.1

theorem count_range_one (N x : Nat) :
    (List.range' 1 N).count x = if 1 ≤ x ∧ x < N + 1 then 1 else 0 := by
  rw [List.count_eq_of_nodup (List.nodup_range' 1 N)]
  simp only [List.mem_range'_1]
  split_ifs <;> omega

theorem count_boot (x : Nat) :
    ([1, 2, 3] : List Nat).count x = if 1 ≤ x ∧ x < 4 then 1 else 0 := by
  have : ([1, 2, 3] : List Nat) = List.range' 1 3 := rfl
  rw [this, count_range_one]

/-- The run of `factCount` from a zeroed table of length `N + 1`, with its record: given
`4 (N + 1)` moves it returns in the state `factCountFull` returns, having handed out
the ranges `0 .. m - 1`, which end where the table ends, and having assigned every
entry from `1` to `N` once. -/
theorem factCountLog_spec (N : Nat) (h7 : 7 ≤ N) (cs : List Nat)
    (hcs : 4 * (N + 1) ≤ cs.length) :
    ∃ s g m, factCountLog (List.replicate (N + 1) 0) cs = Except.ok (s, g) ∧
      factCountFull (List.replicate (N + 1) 0) cs = Except.ok (s, s.primes.length) ∧
      g.dispatched = (List.range m).map (jobOf (N + 1)) ∧ (∀ j, j < m → rs j < N + 1) ∧
      N + 1 ≤ rs m ∧ (∃ ws, g.written = [1, 2, 3] ++ ws) ∧
      g.written.Perm (List.range' 1 N) := by
  obtain ⟨s0, hinit, hinv, hmeas⟩ := init_inv (N + 1) (by omega)
  rcases runLog_spec cs s0 initLog 0 0 [] [] hinv (init_logged hinit) with
    ⟨s1, g1, n1, m1, bj1, qj1, hrun, hinv1, hlog1, hlo⟩ | ⟨_, hlen⟩
  swap
  · omega
  obtain ⟨hb, hq, hidle, hperm, htab⟩ := final_facts hinv1 hlo
  have hrun2 : run cs s0 = Except.ok s1 := by
    rw [← runLog_run cs s0 initLog, hrun]
    rfl
  have hLm := final_handed hinv1 hlo
  refine ⟨{ s1 with idle := 0 }, g1, m1, ?_, ?_, hlog1.disp, hinv1.disp, hLm, hlog1.boot, ?_⟩
  · unfold factCountLog
    simp only [hinit, hrun, kill_four s1 hidle]
  · unfold factCountFull
    simp only [hinit, hrun2, kill_four s1 hidle]
  · rw [List.perm_iff_count]
    intro x
    have h1 := hlog1.wr x
    rw [hb, pending_nil, hlog1.disp, covered_jobs, count_boot, min_eq_right hLm] at h1
    rw [count_range_one]
    split_ifs at h1 ⊢ <;> omega

/-! ## Facts about the record for the claims -/

theorem ceilSqrt_le_iff (n k : Nat) : ceilSqrt n ≤ k ↔ n ≤ k * k := by
  unfold ceilSqrt
  have h1 := floorSqrt_sq_le n
  have h2 := lt_floorSqrt_succ_sq n
  by_cases hc : floorSqrt n * floorSqrt n = n
  · rw [if_pos hc]
    constructor
    · intro h
      have := Nat.mul_le_mul h h
      omega
    · intro h
      by_contra hlt
      have : k + 1 ≤ floorSqrt n := by omega
      have := Nat.mul_le_mul this this
      nlinarith
  · rw [if_neg hc]
    constructor
    · intro h
      have := Nat.mul_le_mul h h
      omega
    · intro h
      by_contra hlt
      have : k ≤ floorSqrt n := by omega
      have := Nat.mul_le_mul this this
      omega

/-- The snapshot of range `j` holds every prime up to the ceiling of the square root
of the last index of the range. -/
theorem snapshot_covers (L j p : Nat) (hp : p.Prime)
    (hle : p ≤ ceilSqrt (min (rs (j + 1)) L - 1)) : p ∈ primesIn 0 (rs (j - 3)) := by
  refine mem_primesIn.2 ⟨Nat.zero_le _, ?_, hp⟩
  have h4 := rs_ge (j - 3)
  have h2 := rs_succ_le j
  have h3 := min_le_left (rs (j + 1)) L
  have hc : ceilSqrt (min (rs (j + 1)) L - 1) ≤ rs (j - 3) - 1 := by
    rw [ceilSqrt_le_iff]
    obtain ⟨r, hr⟩ : ∃ r, rs (j - 3) = r + 4 := ⟨rs (j - 3) - 4, by omega⟩
    rw [hr] at h2 ⊢
    have e : r + 4 - 1 = r + 3 := by omega
    rw [e]
    have h5 : 2 * r + 7 ≤ (r + 3) * (r + 3) := by nlinarith
    omega
  omega

/-- A task of the record is the task of a range handed out. -/
theorem mem_dispatched {L : Nat} {s : State} {g : Log} {n m : Nat} {bj qj : List Nat}
    (h : Inv L s n m bj qj) (hl : Logged L s g n m) {t : Task} (ht : t ∈ g.dispatched) :
    ∃ j, j < m ∧ rs j < L ∧ t = jobOf L j := by
  rw [hl.disp] at ht
  obtain ⟨j, hj, rfl⟩ := List.mem_map.1 ht
  have hj1 := List.mem_range.1 hj
  exact ⟨j, hj1, h.disp j hj1, rfl⟩

theorem range_split (N : Nat) (h : 3 ≤ N) :
    List.range' 1 N = [1, 2, 3] ++ List.range' 4 (N - 3) := by
  have e : List.range' 1 3 ++ List.range' (1 + 3) (N - 3) = List.range' 1 (N - 3 + 3) :=
    List.range'_append_1 1 3 (N - 3)
  have e3 : N - 3 + 3 = N := by omega
  rw [e3] at e
  rw [← e]
  rfl

/-- The results retired so far are those of the first ranges handed out, in the order
they were handed out. -/
theorem retired_prefix {L : Nat} {s : State} {g : Log} {n m : Nat} (hl : Logged L s g n m) :
    g.retired.length = n ∧ g.retired.length ≤ g.dispatched.length ∧
      g.retired.map (fun r => (r.getD 0 0, r.getD 1 0))
        = (g.dispatched.take g.retired.length).map (fun t => (t.start, t.end_)) := by
  have hn : g.retired.length = n := by rw [hl.ret]; simp
  have hm : g.dispatched.length = m := by rw [hl.disp]; simp
  refine ⟨hn, by rw [hn, hm]; exact hl.nle, ?_⟩
  rw [hn, hl.ret, hl.disp, ← List.map_take, List.take_range, min_eq_left hl.nle]
  simp only [List.map_map]
  apply List.map_congr_left
  intro j _
  simp [resultOf, jobOf]

/-- The bootstrap on the table for `N = 7`. -/
theorem init_seven : initState (List.replicate (7 + 1) 0) = Except.ok
    ⟨[0, 1, 1, 1, 0, 0, 0, 0], [2, 3], 4, 0, [], 4, [], [4, 5, 6, 7], 0, 8, 10⟩ := by
  decide

/-- The run on the table for `N = 7` after the first seed has been handed out. -/
theorem trace_first_seed :
    Trace (List.replicate (7 + 1) 0)
      ⟨[0, 1, 1, 1, 0, 0, 0, 0], [2, 3], 5, 0, [⟨⟨4, 5, [2, 3]⟩, 4, [4, 5]⟩], 4, [],
        [4, 5, 6, 7], 0, 8, 10⟩
      ⟨[⟨4, 5, [2, 3]⟩], [], [1, 2, 3]⟩ := by
  have h0 := init_seven
  have h1 := @Trace.step _ _
    (⟨[0, 1, 1, 1, 0, 0, 0, 0], [2, 3], 5, 0, [⟨⟨4, 5, [2, 3]⟩, 4, [4, 5]⟩], 4, [],
        [4, 5, 6, 7], 0, 8, 10⟩) _ (Action.sched 0) (Trace.init h0) (by decide) (by decide) (by decide)
  exact h1

/-- The run on the table for `N = 8` once the four seeds have been handed out. -/
theorem trace_seeded :
    Trace (List.replicate (8 + 1) 0)
      ⟨[0, 1, 1, 1, 0, 0, 0, 0, 0], [2, 3], 8, 0,
        [⟨⟨4, 5, [2, 3]⟩, 4, [4, 5]⟩, ⟨⟨5, 6, [2, 3]⟩, 5, [5, 6]⟩, ⟨⟨6, 7, [2, 3]⟩, 6, [6, 7]⟩,
          ⟨⟨7, 8, [2, 3]⟩, 7, [7, 8]⟩], 4, [], [4, 5, 6, 7], 0, 8, 10⟩
      ⟨[⟨4, 5, [2, 3]⟩, ⟨5, 6, [2, 3]⟩, ⟨6, 7, [2, 3]⟩, ⟨7, 8, [2, 3]⟩], [], [1, 2, 3]⟩ := by
  have h0 : initState (List.replicate (8 + 1) 0) = Except.ok
      ⟨[0, 1, 1, 1, 0, 0, 0, 0, 0], [2, 3], 4, 0, [], 4, [], [4, 5, 6, 7], 0, 8, 10⟩ := by decide
  have h1 := @Trace.step _ _
    (⟨[0, 1, 1, 1, 0, 0, 0, 0, 0], [2, 3], 5, 0, [⟨⟨4, 5, [2, 3]⟩, 4, [4, 5]⟩], 4, [],
        [4, 5, 6, 7], 0, 8, 10⟩) _ (Action.sched 0) (Trace.init h0) (by decide) (by decide) (by decide)
  have h2 := @Trace.step _ _
    (⟨[0, 1, 1, 1, 0, 0, 0, 0, 0], [2, 3], 6, 0,
        [⟨⟨4, 5, [2, 3]⟩, 4, [4, 5]⟩, ⟨⟨5, 6, [2, 3]⟩, 5, [5, 6]⟩], 4, [],
        [4, 5, 6, 7], 0, 8, 10⟩) _ (Action.sched 0) h1 (by decide) (by decide) (by decide)
  have h3 := @Trace.step _ _
    (⟨[0, 1, 1, 1, 0, 0, 0, 0, 0], [2, 3], 7, 0,
        [⟨⟨4, 5, [2, 3]⟩, 4, [4, 5]⟩, ⟨⟨5, 6, [2, 3]⟩, 5, [5, 6]⟩, ⟨⟨6, 7, [2, 3]⟩, 6, [6, 7]⟩],
        4, [], [4, 5, 6, 7], 0, 8, 10⟩) _ (Action.sched 0) h2 (by decide) (by decide) (by decide)
  have h4 := @Trace.step _ _
    (⟨[0, 1, 1, 1, 0, 0, 0, 0, 0], [2, 3], 8, 0,
        [⟨⟨4, 5, [2, 3]⟩, 4, [4, 5]⟩, ⟨⟨5, 6, [2, 3]⟩, 5, [5, 6]⟩, ⟨⟨6, 7, [2, 3]⟩, 6, [6, 7]⟩,
          ⟨⟨7, 8, [2, 3]⟩, 7, [7, 8]⟩],
        4, [], [4, 5, 6, 7], 0, 8, 10⟩) _ (Action.sched 0) h3 (by decide) (by decide) (by decide)
  exact h4

/-! ## The renderer -/

theorem walk_length (k : Nat) : ∀ p : Pen, (walk k p).length = k := by
  induction k with
  | zero => intro p; rfl
  | succ k ih => intro p; simp [walk, ih]

/-- When every colour can be looked up the loop of `renderImage` runs to the end of the
table, and sets the pixels the pen walks over. -/
theorem paint_spec (tab : List Nat) (colors : List NRGBA) (grey : Bool) (k : Nat) :
    ∀ (i : Nat) (p : Pen), i + k = tab.length →
      (∀ j, i ≤ j → j < tab.length → ∃ c, shade tab colors grey j = Except.ok c) →
      ∃ ds, paint tab colors grey k i p = Except.ok ds ∧
        ds.map (fun d => (d.x, d.y)) = walk k p := by
  induction k with
  | zero => intro i p _ _; exact ⟨[], rfl, rfl⟩
  | succ k ih =>
    intro i p hik hc
    obtain ⟨c, hcol⟩ := hc i (le_refl _) (by omega)
    obtain ⟨ds, hds, hw⟩ := ih (i + 1) p.next (by omega) (fun j hj hjl => hc j (by omega) hjl)
    refine ⟨⟨p.xHere, p.yHere, c⟩ :: ds, ?_, ?_⟩
    · unfold paint
      rw [if_pos (by omega)]
      simp only [hcol, hds]
    · simp [walk, hw]

theorem shade_mono (tab : List Nat) (colors : List NRGBA) (j : Nat) (hj : j < tab.length) :
    ∃ c, shade tab colors false j = Except.ok c := by
  unfold shade
  rw [List.getElem?_eq_getElem hj]
  simp only [Bool.false_eq_true, if_false]
  split_ifs
  · exact ⟨black, rfl⟩
  · exact ⟨white, rfl⟩

theorem shade_grey (tab : List Nat) (max j v : Nat) (hv : tab[j]? = some v) (hlt : v < max) :
    ∃ c, shade tab (colorTab max) true j = Except.ok c := by
  unfold shade
  rw [hv]
  simp only [if_true]
  have hl : v < (colorTab max).length := by simp [colorTab, hlt]
  rw [List.getElem?_eq_getElem hl]
  exact ⟨_, rfl⟩

/-- No number up to `size * size` has `maxGrey size` or more prime factors. -/
theorem cardFactors_lt_maxGrey (size i : Nat) (h1 : 1 ≤ i) (h2 : i ≤ size * size) :
    Ω i < maxGrey size := by
  unfold maxGrey
  have h := two_pow_cardFactors_le i (by omega)
  have h3 : Ω i ≤ Nat.log 2 i := (Nat.pow_le_iff_le_log (by norm_num) (by omega)).1 h
  have h4 : Nat.log 2 i ≤ Nat.log 2 (size * size) := Nat.log_mono_right h2
  omega

/-! ## The spiral walk -/

theorem walk_add (a b : Nat) : ∀ p : Pen,
    walk (a + b) p = walk a p ++ walk b (Pen.next^[a] p) := by
  induction a with
  | zero => intro p; simp [walk]
  | succ a ih =>
    intro p
    have e : a + 1 + b = (a + b) + 1 := by omega
    rw [e]
    simp only [walk, Function.iterate_succ_apply, List.cons_append]
    rw [ih]

theorem range_map_succ {α : Type} (f : Nat → α) (k : Nat) :
    (List.range (k + 1)).map f = f 0 :: (List.range k).map (fun j => f (j + 1)) := by
  rw [List.range_succ_eq_map]
  simp [List.map_map, Function.comp_def]

theorem right_run (k : Nat) (st yg y : Int) (hyg : yg ≠ 0) : ∀ x : Int,
    walk (k + 1) ⟨true, true, st, (k : Int) + 1, yg, x, y⟩
        = (List.range (k + 1)).map (fun j : Nat => (x + (j : Int), y)) ∧
      Pen.next^[k + 1] ⟨true, true, st, (k : Int) + 1, yg, x, y⟩
        = ⟨false, true, st, st + 1, yg, x + ((k : Int) + 1), y⟩ := by
  induction k with
  | zero =>
    intro x
    simp [walk, Pen.next, Pen.advance, Pen.turn, List.range_succ]
  | succ k ih =>
    intro x
    have hk : ((k : Int) + 1) ≠ 0 := by omega
    have hstep : Pen.next ⟨true, true, st, ((k + 1 : Nat) : Int) + 1, yg, x, y⟩
        = ⟨true, true, st, (k : Int) + 1, yg, x + 1, y⟩ := by
      simp [Pen.next, Pen.advance, Pen.turn, hk, hyg]
    obtain ⟨h1, h2⟩ := ih (x + 1)
    constructor
    · rw [range_map_succ]
      show _ :: walk (k + 1) (Pen.next _) = _
      rw [hstep, h1]
      simp only [Nat.cast_zero, add_zero, List.cons.injEq, true_and]
      apply List.map_congr_left
      intro j _
      simp only [Prod.mk.injEq, and_true]
      push_cast
      ring
    · rw [Function.iterate_succ_apply, hstep, h2]
      simp only [Pen.mk.injEq, true_and, and_true]
      push_cast
      ring

theorem left_run (k : Nat) (st yg y : Int) (hyg : yg ≠ 0) : ∀ x : Int,
    walk (k + 1) ⟨false, false, st, (k : Int) + 1, yg, x, y⟩
        = (List.range (k + 1)).map (fun j : Nat => (x - (j : Int), y)) ∧
      Pen.next^[k + 1] ⟨false, false, st, (k : Int) + 1, yg, x, y⟩
        = ⟨true, false, st, st + 1, yg, x - ((k : Int) + 1), y⟩ := by
  induction k with
  | zero =>
    intro x
    simp [walk, Pen.next, Pen.advance, Pen.turn, List.range_succ]
  | succ k ih =>
    intro x
    have hk : ((k : Int) + 1) ≠ 0 := by omega
    have hstep : Pen.next ⟨false, false, st, ((k + 1 : Nat) : Int) + 1, yg, x, y⟩
        = ⟨false, false, st, (k : Int) + 1, yg, x - 1, y⟩ := by
      simp [Pen.next, Pen.advance, Pen.turn, hk, hyg]
    obtain ⟨h1, h2⟩ := ih (x - 1)
    constructor
    · rw [range_map_succ]
      show _ :: walk (k + 1) (Pen.next _) = _
      rw [hstep, h1]
      simp only [Nat.cast_zero, sub_zero, List.cons.injEq, true_and]
      apply List.map_congr_left
      intro j _
      simp only [Prod.mk.injEq, and_true]
      push_cast
      ring
    · rw [Function.iterate_succ_apply, hstep, h2]
      simp only [Pen.mk.injEq, true_and, and_true]
      push_cast
      ring

theorem up_run (k : Nat) (st xg x : Int) (hxg : xg ≠ 0) : ∀ y : Int,
    walk (k + 1) ⟨false, true, st, xg, (k : Int) + 1, x, y⟩
        = (List.range (k + 1)).map (fun j : Nat => (x, y - (j : Int))) ∧
      Pen.next^[k + 1] ⟨false, true, st, xg, (k : Int) + 1, x, y⟩
        = ⟨false, false, st + 1, xg, st + 1, x, y - ((k : Int) + 1)⟩ := by
  induction k with
  | zero =>
    intro y
    simp [walk, Pen.next, Pen.advance, Pen.turn, hxg, List.range_succ]
  | succ k ih =>
    intro y
    have hk : ((k : Int) + 1) ≠ 0 := by omega
    have hstep : Pen.next ⟨false, true, st, xg, ((k + 1 : Nat) : Int) + 1, x, y⟩
        = ⟨false, true, st, xg, (k : Int) + 1, x, y - 1⟩ := by
      simp [Pen.next, Pen.advance, Pen.turn, hk, hxg]
    obtain ⟨h1, h2⟩ := ih (y - 1)
    constructor
    · rw [range_map_succ]
      show _ :: walk (k + 1) (Pen.next _) = _
      rw [hstep, h1]
      simp only [Nat.cast_zero, sub_zero, List.cons.injEq, true_and]
      apply List.map_congr_left
      intro j _
      simp only [Prod.mk.injEq, true_and]
      push_cast
      ring
    · rw [Function.iterate_succ_apply, hstep, h2]
      simp only [Pen.mk.injEq, true_and, and_true]
      push_cast
      ring

theorem down_run (k : Nat) (st xg x : Int) (hxg : xg ≠ 0) : ∀ y : Int,
    walk (k + 1) ⟨true, false, st, xg, (k : Int) + 1, x, y⟩
        = (List.range (k + 1)).map (fun j : Nat => (x, y + (j : Int))) ∧
      Pen.next^[k + 1] ⟨true, false, st, xg, (k : Int) + 1, x, y⟩
        = ⟨true, true, st + 1, xg, st + 1, x, y + ((k : Int) + 1)⟩ := by
  induction k with
  | zero =>
    intro y
    simp [walk, Pen.next, Pen.advance, Pen.turn, hxg, List.range_succ]
  | succ k ih =>
    intro y
    have hk : ((k : Int) + 1) ≠ 0 := by omega
    have hstep : Pen.next ⟨true, false, st, xg, ((k + 1 : Nat) : Int) + 1, x, y⟩
        = ⟨true, false, st, xg, (k : Int) + 1, x, y + 1⟩ := by
      simp [Pen.next, Pen.advance, Pen.turn, hk, hxg]
    obtain ⟨h1, h2⟩ := ih (y + 1)
    constructor
    · rw [range_map_succ]
      show _ :: walk (k + 1) (Pen.next _) = _
      rw [hstep, h1]
      simp only [Nat.cast_zero, add_zero, List.cons.injEq, true_and]
      apply List.map_congr_left
      intro j _
      simp only [Prod.mk.injEq, true_and]
      push_cast
      ring
    · rw [Function.iterate_succ_apply, hstep, h2]
      simp only [Pen.mk.injEq, true_and, and_true]
      push_cast
      ring

/-! ## Segments of the walk -/

theorem mem_seg_right (x y : Int) (k : Nat) (a b : Int) :
    (a, b) ∈ (List.range k).map (fun j : Nat => (x + (j : Int), y)) ↔
      b = y ∧ x ≤ a ∧ a < x + k := by
  simp only [List.mem_map, List.mem_range, Prod.mk.injEq]
  constructor
  · rintro ⟨j, hj, h1, h2⟩
    omega
  · rintro ⟨h1, h2, h3⟩
    exact ⟨(a - x).toNat, by omega, by omega, h1.symm⟩

theorem mem_seg_left (x y : Int) (k : Nat) (a b : Int) :
    (a, b) ∈ (List.range k).map (fun j : Nat => (x - (j : Int), y)) ↔
      b = y ∧ x - k < a ∧ a ≤ x := by
  simp only [List.mem_map, List.mem_range, Prod.mk.injEq]
  constructor
  · rintro ⟨j, hj, h1, h2⟩
    omega
  · rintro ⟨h1, h2, h3⟩
    exact ⟨(x - a).toNat, by omega, by omega, h1.symm⟩

theorem mem_seg_down (x y : Int) (k : Nat) (a b : Int) :
    (a, b) ∈ (List.range k).map (fun j : Nat => (x, y + (j : Int))) ↔
      a = x ∧ y ≤ b ∧ b < y + k := by
  simp only [List.mem_map, List.mem_range, Prod.mk.injEq]
  constructor
  · rintro ⟨j, hj, h1, h2⟩
    omega
  · rintro ⟨h1, h2, h3⟩
    exact ⟨(b - y).toNat, by omega, h1.symm, by omega⟩

theorem mem_seg_up (x y : Int) (k : Nat) (a b : Int) :
    (a, b) ∈ (List.range k).map (fun j : Nat => (x, y - (j : Int))) ↔
      a = x ∧ y - k < b ∧ b ≤ y := by
  simp only [List.mem_map, List.mem_range, Prod.mk.injEq]
  constructor
  · rintro ⟨j, hj, h1, h2⟩
    omega
  · rintro ⟨h1, h2, h3⟩
    exact ⟨(y - b).toNat, by omega, h1.symm, by omega⟩

theorem nodup_seg (f : Nat → Int × Int) (k : Nat)
    (hf : ∀ i j : Nat, f i = f j → i = j) : ((List.range k).map f).Nodup :=
  List.Nodup.map (fun i j h => hf i j h) (List.nodup_range k)

/-- A filled square and two segments along two of its sides make the next square. -/
theorem filled_grow {v s1 s2 : List (Int × Int)} {cx cy dx dy : Int} {t : Nat}
    (hv : Filled v cx cy t) (h1 : s1.Nodup) (h2 : s2.Nodup)
    (hmem : ∀ a b, ((a, b) ∈ s1 ∨ (a, b) ∈ s2) ↔
      (dx ≤ a ∧ a < dx + (t + 1 : Nat) ∧ dy ≤ b ∧ b < dy + (t + 1 : Nat)) ∧
        ¬ (cx ≤ a ∧ a < cx + t ∧ cy ≤ b ∧ b < cy + t))
    (hdis : ∀ a b, (a, b) ∈ s1 → (a, b) ∉ s2)
    (hsub : ∀ a b : Int, cx ≤ a ∧ a < cx + t ∧ cy ≤ b ∧ b < cy + t →
      dx ≤ a ∧ a < dx + (t + 1 : Nat) ∧ dy ≤ b ∧ b < dy + (t + 1 : Nat)) :
    Filled (v ++ (s1 ++ s2)) dx dy (t + 1) := by
  obtain ⟨hnd, hm⟩ := hv
  constructor
  · rw [List.nodup_append]
    refine ⟨hnd, ?_, ?_⟩
    · rw [List.nodup_append]
      exact ⟨h1, h2, fun p hp1 hp2 => hdis p.1 p.2 hp1 hp2⟩
    · intro p hp hp2
      have h3 := (hm p.1 p.2).1 hp
      have h4 := (hmem p.1 p.2).1 (List.mem_append.1 hp2)
      exact h4.2 h3
  · intro a b
    rw [List.mem_append, List.mem_append, hm a b, hmem a b]
    constructor
    · rintro (h | h)
      · exact hsub a b h
      · exact h.1
    · intro h
      by_cases hc : cx ≤ a ∧ a < cx + t ∧ cy ≤ b ∧ b < cy + t
      · exact Or.inl hc
      · exact Or.inr ⟨h, hc⟩

theorem right_seg (n : Nat) (hn : 1 ≤ n) (st xg yg x y : Int) (hyg : yg ≠ 0) (hxg : xg = n) :
    walk n ⟨true, true, st, xg, yg, x, y⟩
        = (List.range n).map (fun j : Nat => (x + (j : Int), y)) ∧
      Pen.next^[n] ⟨true, true, st, xg, yg, x, y⟩ = ⟨false, true, st, st + 1, yg, x + n, y⟩ := by
  obtain ⟨k, rfl⟩ : ∃ k, n = k + 1 := ⟨n - 1, by omega⟩
  subst hxg
  have h := right_run k st yg y hyg x
  push_cast
  exact h

theorem left_seg (n : Nat) (hn : 1 ≤ n) (st xg yg x y : Int) (hyg : yg ≠ 0) (hxg : xg = n) :
    walk n ⟨false, false, st, xg, yg, x, y⟩
        = (List.range n).map (fun j : Nat => (x - (j : Int), y)) ∧
      Pen.next^[n] ⟨false, false, st, xg, yg, x, y⟩ = ⟨true, false, st, st + 1, yg, x - n, y⟩ := by
  obtain ⟨k, rfl⟩ : ∃ k, n = k + 1 := ⟨n - 1, by omega⟩
  subst hxg
  have h := left_run k st yg y hyg x
  push_cast
  exact h

theorem up_seg (n : Nat) (hn : 1 ≤ n) (st xg yg x y : Int) (hxg : xg ≠ 0) (hyg : yg = n) :
    walk n ⟨false, true, st, xg, yg, x, y⟩
        = (List.range n).map (fun j : Nat => (x, y - (j : Int))) ∧
      Pen.next^[n] ⟨false, true, st, xg, yg, x, y⟩
        = ⟨false, false, st + 1, xg, st + 1, x, y - n⟩ := by
  obtain ⟨k, rfl⟩ : ∃ k, n = k + 1 := ⟨n - 1, by omega⟩
  subst hyg
  have h := up_run k st xg x hxg y
  push_cast
  exact h

theorem down_seg (n : Nat) (hn : 1 ≤ n) (st xg yg x y : Int) (hxg : xg ≠ 0) (hyg : yg = n) :
    walk n ⟨true, false, st, xg, yg, x, y⟩
        = (List.range n).map (fun j : Nat => (x, y + (j : Int))) ∧
      Pen.next^[n] ⟨true, false, st, xg, yg, x, y⟩
        = ⟨true, true, st + 1, xg, st + 1, x, y + n⟩ := by
  obtain ⟨k, rfl⟩ : ∃ k, n = k + 1 := ⟨n - 1, by omega⟩
  subst hyg
  have h := down_run k st xg x hxg y
  push_cast
  exact h

/-- From a filled square of odd side, the pen to the right of its bottom row: one run
up and one run left fill the next square and leave the pen to the left of its top
row. -/
theorem odd_to_even (t : Nat) (ht : 1 ≤ t) (v : List (Int × Int)) (cx cy : Int)
    (hv : Filled v cx cy t) :
    Filled (v ++ walk (t + (t + 1)) ⟨false, true, t, t + 1, t, cx + t, cy + t - 1⟩)
        cx (cy - 1) (t + 1) ∧
      Pen.next^[t + (t + 1)] ⟨false, true, t, t + 1, t, cx + t, cy + t - 1⟩
        = ⟨true, false, (t + 1 : Nat), (t + 1 : Nat) + 1, (t + 1 : Nat), cx - 1, cy - 1⟩ := by
  obtain ⟨u1, u2⟩ := up_seg t ht t (t + 1) t (cx + t) (cy + t - 1) (by omega) rfl
  obtain ⟨l1, l2⟩ := left_seg (t + 1) (by omega) (t + 1) (t + 1) (t + 1) (cx + t)
    (cy + t - 1 - t) (by omega) (by push_cast; rfl)
  have hw : walk (t + (t + 1)) ⟨false, true, t, t + 1, t, cx + t, cy + t - 1⟩
      = (List.range t).map (fun j : Nat => (cx + t, cy + t - 1 - (j : Int)))
        ++ (List.range (t + 1)).map (fun j : Nat => (cx + t - (j : Int), cy + t - 1 - t)) := by
    rw [walk_add, u1, u2, l1]
  constructor
  · rw [hw]
    apply filled_grow hv
    · exact nodup_seg _ _ (fun i j h => by simp only [Prod.mk.injEq] at h; omega)
    · exact nodup_seg _ _ (fun i j h => by simp only [Prod.mk.injEq] at h; omega)
    · intro a b
      rw [mem_seg_up, mem_seg_left]
      push_cast
      omega
    · intro a b
      rw [mem_seg_up, mem_seg_left]
      omega
    · intro a b
      push_cast
      omega
  · have e : t + (t + 1) = (t + 1) + t := by omega
    rw [e, Function.iterate_add_apply, u2, l2]
    congr 1 <;> push_cast <;> omega

/-- From a filled square of even side, the pen to the left of its top row: one run down
and one run right fill the next square and leave the pen to the right of its bottom
row. -/
theorem even_to_odd (t : Nat) (ht : 1 ≤ t) (v : List (Int × Int)) (cx cy : Int)
    (hv : Filled v cx cy t) :
    Filled (v ++ walk (t + (t + 1)) ⟨true, false, t, t + 1, t, cx - 1, cy⟩)
        (cx - 1) cy (t + 1) ∧
      Pen.next^[t + (t + 1)] ⟨true, false, t, t + 1, t, cx - 1, cy⟩
        = ⟨false, true, (t + 1 : Nat), (t + 1 : Nat) + 1, (t + 1 : Nat),
            cx - 1 + (t + 1 : Nat), cy + (t + 1 : Nat) - 1⟩ := by
  obtain ⟨u1, u2⟩ := down_seg t ht t (t + 1) t (cx - 1) cy (by omega) rfl
  obtain ⟨l1, l2⟩ := right_seg (t + 1) (by omega) (t + 1) (t + 1) (t + 1) (cx - 1)
    (cy + t) (by omega) (by push_cast; rfl)
  have hw : walk (t + (t + 1)) ⟨true, false, t, t + 1, t, cx - 1, cy⟩
      = (List.range t).map (fun j : Nat => (cx - 1, cy + (j : Int)))
        ++ (List.range (t + 1)).map (fun j : Nat => (cx - 1 + (j : Int), cy + t)) := by
    rw [walk_add, u1, u2, l1]
  constructor
  · rw [hw]
    apply filled_grow hv
    · exact nodup_seg _ _ (fun i j h => by simp only [Prod.mk.injEq] at h; omega)
    · exact nodup_seg _ _ (fun i j h => by simp only [Prod.mk.injEq] at h; omega)
    · intro a b
      rw [mem_seg_down, mem_seg_right]
      push_cast
      omega
    · intro a b
      rw [mem_seg_down, mem_seg_right]
      omega
    · intro a b
      push_cast
      omega
  · have e : t + (t + 1) = (t + 1) + t := by omega
    rw [e, Function.iterate_add_apply, u2, l2]
    congr 1
    push_cast
    omega

/-- After `t * t` iterations from the centre `(x0, y0)` the pen has filled the square of
side `t` whose corner is `(x0 - (t-1)/2, y0 - t/2)`, and stands beside it. -/
theorem spiral_square (x0 y0 : Int) (t : Nat) (ht : 1 ≤ t) :
    Filled (walk (t * t) ⟨true, true, 1, 1, 1, x0, y0⟩)
        (x0 - ((t - 1) / 2 : Nat)) (y0 - (t / 2 : Nat)) t ∧
      Pen.next^[t * t] ⟨true, true, 1, 1, 1, x0, y0⟩
        = if t % 2 = 1 then
            ⟨false, true, t, t + 1, t, x0 - ((t - 1) / 2 : Nat) + t, y0 - (t / 2 : Nat) + t - 1⟩
          else ⟨true, false, t, t + 1, t, x0 - ((t - 1) / 2 : Nat) - 1, y0 - (t / 2 : Nat)⟩ := by
  induction t, ht using Nat.le_induction with
  | base =>
    constructor
    · constructor
      · simp [walk]
      · intro a b
        simp [walk]
        omega
    · simp [Pen.next, Pen.advance, Pen.turn]
  | succ t ht ih =>
    obtain ⟨hf, hp⟩ := ih
    have e : (t + 1) * (t + 1) = t * t + (t + (t + 1)) := by ring
    have e2 : t * t + (t + (t + 1)) = (t + (t + 1)) + t * t := by omega
    by_cases hodd : t % 2 = 1
    · rw [if_pos hodd] at hp
      obtain ⟨g1, g2⟩ := odd_to_even t ht _ _ _ hf
      have c1 : x0 - (((t + 1 - 1) / 2 : Nat) : Int) = x0 - (((t - 1) / 2 : Nat) : Int) := by
        omega
      have c2 : y0 - (((t + 1) / 2 : Nat) : Int) = y0 - ((t / 2 : Nat) : Int) - 1 := by omega
      constructor
      · rw [e, walk_add, hp, c1, c2]
        exact g1
      · rw [e, e2, Function.iterate_add_apply, hp, g2, if_neg (by omega), c1, c2]
    · rw [if_neg hodd] at hp
      obtain ⟨g1, g2⟩ := even_to_odd t ht _ _ _ hf
      have c1 : x0 - (((t + 1 - 1) / 2 : Nat) : Int) = x0 - (((t - 1) / 2 : Nat) : Int) - 1 := by
        omega
      have c2 : y0 - (((t + 1) / 2 : Nat) : Int) = y0 - ((t / 2 : Nat) : Int) := by omega
      constructor
      · rw [e, walk_add, hp, c1, c2]
        exact g1
      · rw [e, e2, Function.iterate_add_apply, hp, g2, if_pos (by omega), c1, c2]

/-- The walk of `renderImage` over `size * size` iterations fills the image. -/
theorem walk_fills (size : Nat) (h1 : 1 ≤ size) :
    Filled (walk (size * size) (penStart size)) 0 0 size := by
  have hx : Int.tdiv ((size : Int) - 1) 2 = (((size - 1) / 2 : Nat) : Int) := by
    rw [Int.tdiv_eq_ediv (by omega) (by norm_num)]
    omega
  have hy : Int.tdiv (size : Int) 2 = ((size / 2 : Nat) : Int) := by
    rw [Int.tdiv_eq_ediv (by omega) (by norm_num)]
    omega
  have h := (spiral_square (((size - 1) / 2 : Nat) : Int) ((size / 2 : Nat) : Int) size h1).1
  rw [sub_self, sub_self] at h
  unfold penStart
  rw [hx, hy]
  exact h

/-- Whatever the colours, the pixels the loop of `renderImage` sets are those the pen
walks over. -/
theorem paint_coords (tab : List Nat) (colors : List NRGBA) (grey : Bool) (k : Nat) :
    ∀ (i : Nat) (p : Pen) (ds : List Dot), i + k = tab.length →
      paint tab colors grey k i p = Except.ok ds →
      ds.map (fun d => (d.x, d.y)) = walk k p := by
  induction k with
  | zero =>
    intro i p ds _ h
    unfold paint at h
    cases h
    rfl
  | succ k ih =>
    intro i p ds hik h
    unfold paint at h
    rw [if_pos (by omega)] at h
    cases hs : shade tab colors grey i with
    | error e => rw [hs] at h; cases h
    | ok c =>
      rw [hs] at h
      simp only at h
      cases hp : paint tab colors grey k (i + 1) p.next with
      | error e => rw [hp] at h; cases h
      | ok ds1 =>
        rw [hp] at h
        simp only [Except.ok.injEq] at h
        subst h
        have := ih (i + 1) p.next ds1 (by omega) hp
        simp [walk, this]

theorem walk_head (k : Nat) (p : Pen) : (walk (k + 1) p).head? = some (p.xHere, p.yHere) := rfl

/-- The walk on the three by three image, run. -/
theorem renderImage_three :
    (renderImage (List.replicate 10 0) 3 false).map (fun l => l.map (fun d => (d.x, d.y)))
      = Except.ok [(1, 1), (2, 1), (2, 0), (1, 0), (0, 0), (0, 1), (0, 2), (1, 2), (2, 2)] := by
  decide

/-! ## A table shorter than the seed ranges -/

/-- On a table cut to `k` entries the inner loop, for an index below `k`, does what it
does on the whole table. -/
theorem trial_take (tab : List Nat) (k i max : Nat) (found : List Nat) (hi : i < k)
    (hk : k ≤ tab.length) : ∀ ps : List Nat,
    trial (tab.take k) i max found ps
      = (trial tab i max found ps).map (fun r => (r.1.take k, r.2)) := by
  intro ps
  induction ps with
  | nil => rfl
  | cons f fs ih =>
    unfold trial
    have hlen : (tab.take k).length = k := by rw [List.length_take]; omega
    have hil : i < tab.length := by omega
    by_cases hf : f ≥ max
    · simp only [hf, if_true, hlen, hi, hil, Except.map]
      rw [List.set_take]
    · simp only [hf, if_false]
      by_cases hf0 : f = 0
      · simp [hf0, Except.map]
      · simp only [hf0, if_false]
        by_cases hd : i % f = 0
        · simp only [hd, if_true]
          have hq : i / f < k := lt_of_le_of_lt (Nat.div_le_self _ _) hi
          rw [List.getElem?_take_of_lt hq]
          cases tab[i / f]? with
          | none => rfl
          | some v =>
            simp only [hlen, hi, hil, if_true, Except.map]
            rw [List.set_take]
        · simp only [hd, if_false]
          exact ih

theorem send_cut (k : Nat) (s : State) (t : Task) :
    send (cut k s) t = (send s t).map (cut k) := by
  unfold send
  by_cases h0 : s.idle = 0
  · simp [cut, h0, Except.map]
  · have h1 : ¬ (cut k s).idle = 0 := h0
    rw [if_neg h0, if_neg h1]
    cases accept t with
    | error e => rfl
    | ok r =>
      cases r with
      | none => rfl
      | some w => rfl

theorem send_start {s s1 : State} {t : Task} (h : send s t = Except.ok s1) :
    s1.start = s.start := by
  unfold send at h
  by_cases h0 : s.idle = 0
  · rw [if_pos h0] at h; cases h
  · rw [if_neg h0] at h
    cases ha : accept t with
    | error e => rw [ha] at h; cases h
    | ok r =>
      rw [ha] at h
      cases r with
      | none => cases h; rfl
      | some w => cases h; rfl

theorem receive_cut (k : Nat) (s : State) (j : Nat) :
    receive (cut k s) j = (receive s j).map (fun r => (r.1, cut k r.2)) := by
  unfold receive
  have hb : (cut k s).busy = s.busy := rfl
  rw [hb]
  cases s.busy[j]? with
  | none => rfl
  | some w =>
    by_cases hd : w.done = true
    · simp [hd, cut, Except.map]
    · simp [hd, Except.map]

theorem receive_start {s s1 : State} {j : Nat} {r : List Nat}
    (h : receive s j = Except.ok (r, s1)) : s1.start = s.start := by
  unfold receive at h
  cases hb : s.busy[j]? with
  | none => rw [hb] at h; cases h
  | some w =>
    rw [hb] at h
    by_cases hd : w.done = true
    · simp only [hd, if_true, Except.ok.injEq, Prod.mk.injEq] at h
      rw [← h.2]
    · simp only [hd] at h
      cases h

/-- A scheduler iteration once `start` has passed the table: on the cut table it does
what it does on the whole one. -/
theorem schedStep_cut (k : Nat) (s : State) (j : Nat) (hP : s.tab.length ≤ s.start)
    (hk : k ≤ s.tab.length) : schedStep (cut k s) j = (schedStep s j).map (cut k) := by
  have hlen : (cut k s).tab.length ≤ (cut k s).start := by
    show (s.tab.take k).length ≤ s.start
    rw [List.length_take]
    omega
  by_cases hs : s.seed < 8
  · have hs1 : (cut k s).seed < 8 := hs
    unfold schedStep
    rw [if_pos hs, if_pos hs1]
    have e : ({ cut k s with idle := (cut k s).idle + 1 } : State)
        = cut k { s with idle := s.idle + 1 } := rfl
    rw [e, send_cut]
    simp only [show (cut k s).seed = s.seed from rfl, show (cut k s).primes = s.primes from rfl]
    cases send { s with idle := s.idle + 1 } ⟨s.seed, s.seed + 1, s.primes⟩ with
    | error e => rfl
    | ok s1 => rfl
  · have hs1 : ¬ (cut k s).seed < 8 := hs
    unfold schedStep
    rw [if_neg hs, if_neg hs1, if_pos hP, if_pos hlen]
    have hq : (cut k s).queue = s.queue := rfl
    rw [hq]
    cases s.queue with
    | cons q qs => rfl
    | nil =>
      simp only
      rw [receive_cut]
      cases receive s j with
      | error e => rfl
      | ok r => rfl

/-- Once `start` has passed the table it does not change. -/
theorem start_fixed {s s1 : State} {a : Action} (h : step s a = Except.ok s1)
    (hP : s.tab.length ≤ s.start) : s1.start = s.start := by
  cases a with
  | tick k =>
    simp only [step] at h
    cases hb : s.busy[k]? with
    | none => rw [hb] at h; cases h
    | some w =>
      rw [hb] at h
      simp only at h
      by_cases hd : w.done = true
      · rw [if_pos hd] at h; cases h
      · rw [if_neg hd] at h
        cases ht : tickWorker s.tab w with
        | error e => rw [ht] at h; cases h
        | ok r => rw [ht] at h; cases h; rfl
  | sched k =>
    simp only [step] at h
    unfold schedStep at h
    by_cases hs : s.seed < 8
    · rw [if_pos hs] at h
      cases hse : send { s with idle := s.idle + 1 } ⟨s.seed, s.seed + 1, s.primes⟩ with
      | error e => rw [hse] at h; cases h
      | ok s2 =>
        rw [hse] at h
        cases h
        have h2 := send_start hse
        exact h2
    · rw [if_neg hs, if_pos hP] at h
      cases hq : s.queue with
      | cons q qs => rw [hq] at h; cases h; rfl
      | nil =>
        rw [hq] at h
        simp only at h
        cases hr : receive s k with
        | error e => rw [hr] at h; cases h
        | ok r =>
          rw [hr] at h
          cases h
          have h2 := @receive_start s r.2 k r.1 hr
          exact h2

theorem enabled_cut (k : Nat) (s : State) (hP : s.tab.length ≤ s.start)
    (hk : k ≤ s.tab.length) : enabled (cut k s) = enabled s := by
  have hlen : (cut k s).tab.length ≤ (cut k s).start := by
    show (s.tab.take k).length ≤ s.start
    rw [List.length_take]
    omega
  have hw : wantsReport (cut k s) = wantsReport s := by
    unfold wantsReport
    by_cases hs : s.seed < 8
    · have hs1 : (cut k s).seed < 8 := hs
      rw [if_pos hs, if_pos hs1]
    · have hs1 : ¬ (cut k s).seed < 8 := hs
      rw [if_neg hs, if_neg hs1, if_pos hP, if_pos hlen]
      rfl
  unfold enabled
  rw [hw]
  rfl

theorem loopOver_cut (k : Nat) (s : State) : loopOver (cut k s) = loopOver s := rfl

/-- A goroutine inside its loop holds a snapshot that serves its index: the inner loop
leaves through a `break`. -/
theorem inv_breaks {L : Nat} {s : State} {n m : Nat} {bj qj : List Nat}
    (h : Inv L s n m bj qj) {w : Worker} (hwmem : w ∈ s.busy) (hd : w.done = false) :
    breaks w.i (maxOf w.i) w.job.primes = true := by
  have hjob : ∃ j ∈ bj, jobOf L j = w.job := by
    have : w.job ∈ s.busy.map Worker.job := List.mem_map_of_mem _ hwmem
    rw [h.jobs] at this
    exact List.mem_map.1 this
  obtain ⟨j, hj, hjw⟩ := hjob
  have hstart : w.job.start = rs j := by rw [← hjw]; rfl
  have hend : w.job.end_ = min (rs (j + 1)) L := by rw [← hjw]; rfl
  have hsnap : w.job.primes = primesIn 0 (rs (j - 3)) := by rw [← hjw]; rfl
  have hprog := h.prog w hwmem
  have hlt : w.i < w.job.end_ := by
    simp [Worker.done] at hd; omega
  have hserve := job_serves L j w.i (by omega) (by omega)
  exact breaks_spec w.i w.job.primes (by rw [hsnap]; intro f hf; exact (mem_primesIn.1 hf).2.2)
    (by rw [hsnap]; exact hserve.1) (by rw [hsnap]; exact hserve.2)

/-- An iteration of a goroutine's loop for an index below `k`: on the cut table it does
what it does on the whole one. -/
theorem tick_cut (k : Nat) (s : State) (j : Nat) {w : Worker} (hb : s.busy[j]? = some w)
    (hi : w.i < k) (hk : k ≤ s.tab.length) :
    step (cut k s) (Action.tick j) = (step s (Action.tick j)).map (cut k) := by
  simp only [step]
  have e : (cut k s).busy = s.busy := rfl
  rw [e, hb]
  simp only
  by_cases hd : w.done = true
  · rw [if_pos hd, if_pos hd]
    rfl
  · rw [if_neg hd, if_neg hd]
    unfold tickWorker
    have e2 : (cut k s).tab = s.tab.take k := rfl
    rw [e2, trial_take _ _ _ _ _ hi hk]
    cases trial s.tab w.i (maxOf w.i) w.found w.job.primes with
    | error e => rfl
    | ok r => rfl

/-- An iteration of a goroutine's loop for an index from `k` on fails on the cut
table. -/
theorem tick_cut_fail (k : Nat) (s : State) (j : Nat) {w : Worker} (hb : s.busy[j]? = some w)
    (hd : w.done = false) (hbr : breaks w.i (maxOf w.i) w.job.primes = true) (hi : k ≤ w.i) :
    step (cut k s) (Action.tick j) = Except.error Fault.indexOutOfRange := by
  simp only [step]
  have e : (cut k s).busy = s.busy := rfl
  rw [e, hb]
  simp only
  rw [if_neg (by simp [hd])]
  unfold tickWorker
  have hlen : (cut k s).tab.length ≤ w.i := by
    show (s.tab.take k).length ≤ w.i
    rw [List.length_take]
    omega
  rw [trial_out_of_range _ _ _ _ _ hbr hlen]

/-- A run on the table cut to `k` entries follows the run on the whole table until a
goroutine reaches an index from `k` on, where it fails: it fails with an index out of
range, or it ends as the run on the whole table does and no index from `k` on was
assigned. -/
theorem runLog_cut {L : Nat} (k : Nat) (hk : k ≤ L) (cs : List Nat) :
    ∀ (s : State) (g : Log) (n m : Nat) (bj qj : List Nat) (s1 : State) (g1 : Log),
    Inv L s n m bj qj → L ≤ s.start → runLog cs s g = Except.ok (s1, g1) →
    run cs (cut k s) = Except.error Fault.indexOutOfRange ∨
      (run cs (cut k s) = Except.ok (cut k s1) ∧
        ∀ x, k ≤ x → g1.written.count x = g.written.count x) := by
  induction cs with
  | nil =>
    intro s g n m bj qj s1 g1 h hst hr
    unfold runLog at hr
    by_cases hlo : loopOver s = true
    · rw [if_pos hlo] at hr
      cases hr
      right
      refine ⟨?_, fun _ _ => rfl⟩
      unfold run
      rw [loopOver_cut, if_pos hlo]
    · rw [if_neg hlo] at hr
      cases he : enabled s with
      | nil => rw [he] at hr; cases hr
      | cons a as => rw [he] at hr; cases hr
  | cons c cs1 ih =>
    intro s g n m bj qj s1 g1 h hst hr
    have hP : s.tab.length ≤ s.start := by rw [h.len]; exact hst
    have hkl : k ≤ s.tab.length := by rw [h.len]; exact hk
    unfold runLog at hr
    by_cases hlo : loopOver s = true
    · rw [if_pos hlo] at hr
      cases hr
      right
      refine ⟨?_, fun _ _ => rfl⟩
      unfold run
      rw [loopOver_cut, if_pos hlo]
    · rw [if_neg hlo] at hr
      unfold run
      rw [loopOver_cut, if_neg hlo, enabled_cut k s hP hkl]
      cases he : enabled s with
      | nil => rw [he] at hr; cases hr
      | cons a as =>
        rw [he] at hr
        simp only at hr ⊢
        have hmem : (a :: as).getD (c % (a :: as).length) a ∈ enabled s := by
          rw [he]; exact pick_mem a as c
        obtain ⟨s2, n1, m1, bj1, qj1, e1, ⟨e2, _⟩, _⟩ := step_inv_log h hmem
        rw [e1] at hr
        simp only at hr
        have hst2 : L ≤ s2.start := by rw [start_fixed e1 hP]; exact hst
        generalize (a :: as).getD (c % (a :: as).length) a = act at hmem e1 hr ⊢
        cases act with
        | sched j =>
          have hc : step (cut k s) (Action.sched j) = Except.ok (cut k s2) := by
            show schedStep (cut k s) j = _
            rw [schedStep_cut k s j hP hkl]
            have e3 : schedStep s j = Except.ok s2 := e1
            rw [e3]
            rfl
          rw [hc]
          simp only
          rcases ih s2 _ n1 m1 bj1 qj1 s1 g1 e2 hst2 hr with h1 | ⟨h1, h2⟩
          · exact Or.inl h1
          · right
            refine ⟨h1, fun x hx => ?_⟩
            rw [h2 x hx]
            simp [record, writtenBy]
        | tick j =>
          obtain ⟨w, hw, hd⟩ := mem_enabled_tick hmem
          by_cases hi : w.i < k
          · have hc : step (cut k s) (Action.tick j) = Except.ok (cut k s2) := by
              rw [tick_cut k s j hw hi hkl, e1]
              rfl
            rw [hc]
            simp only
            rcases ih s2 _ n1 m1 bj1 qj1 s1 g1 e2 hst2 hr with h1 | ⟨h1, h2⟩
            · exact Or.inl h1
            · right
              refine ⟨h1, fun x hx => ?_⟩
              rw [h2 x hx]
              have hne : ¬ w.i = x := by omega
              simp only [record, writtenBy, written, hw, hd, List.count_append]
              split_ifs <;> simp [List.count_cons, hne]
          · left
            have hwmem : w ∈ s.busy := by
              obtain ⟨l1, l2, hb, _⟩ := split_at hw
              rw [hb]
              simp
            rw [tick_cut_fail k s j hw hd (inv_breaks h hwmem hd) (by omega)]

/-- On a zeroed table of length `N + 1` with `4 ≤ N ≤ 6` every run long enough to end
fails with an index out of range: the seed worker of `[7, 8)` assigns `tab[7]` before the
scheduler can leave its loop, unless a seed worker before it has failed already. -/
theorem factCount_short (N : Nat) (h4 : 4 ≤ N) (h6 : N ≤ 6) (cs : List Nat)
    (hcs : 16 ≤ cs.length) :
    factCount (List.replicate (N + 1) 0) cs = Except.error Fault.indexOutOfRange := by
  obtain ⟨s0, hinit, hinv, hmeas⟩ := init_inv 8 (by norm_num)
  rcases runLog_spec cs s0 initLog 0 0 [] [] hinv (init_logged hinit) with
    ⟨s1, g1, n1, m1, bj1, qj1, hrun, hinv1, hlog1, hlo⟩ | ⟨_, hlen⟩
  swap
  · omega
  have hs0 : s0 = ⟨[0, 1, 1, 1, 0, 0, 0, 0], [2, 3], 4, 0, [], 4, [], [4, 5, 6, 7], 0, 8, 10⟩ := by
    have e := init_seven
    rw [hinit] at e
    cases e
    rfl
  have hcut : initState (List.replicate (N + 1) 0) = Except.ok (cut (N + 1) s0) := by
    rw [hs0]
    interval_cases N <;> rfl
  have hfail : run cs (cut (N + 1) s0) = Except.error Fault.indexOutOfRange := by
    rcases runLog_cut (N + 1) (by omega) cs s0 initLog 0 0 [] [] s1 g1 hinv
      (by rw [hs0]) hrun with h1 | ⟨_, h2⟩
    · exact h1
    · exfalso
      obtain ⟨hb, _, _, _, _⟩ := final_facts hinv1 hlo
      have hLm := final_handed hinv1 hlo
      have h3 := hlog1.wr 7
      have h5 := h2 7 (by omega)
      rw [hb, pending_nil, hlog1.disp, covered_jobs, count_boot, min_eq_right hLm] at h3
      have h6 : initLog.written.count 7 = 0 := by decide
      rw [h6] at h5
      split_ifs at h3 <;> omega
  unfold factCount factCountFull
  rw [hcut]
  simp only [hfail]

/-! ## The claims -/

theorem max_sq_lt {N : Nat} (h : (N : Int) ≤ MAX_SIZE * MAX_SIZE) : N < 2 ^ 256 := by
  unfold MAX_SIZE at h
  have h1 : N ≤ 256000000 := by omega
  calc N ≤ 256000000 := h1
    _ < 2 ^ 256 := by norm_num

/-- C1: for every `N` with `7 ≤ N ≤ MAX_SIZE * MAX_SIZE` and every schedule of the
threads (one long enough for the run to end; `4 (N + 1)` moves always are),
`factCount` on a zeroed table of length `N + 1` returns, with `tab[i]` the number of
prime factors of `i` counted with multiplicity for every `2 ≤ i ≤ N`. -/
theorem factCount_table_cardFactors (N : Nat) (h7 : 7 ≤ N)
    (hmax : (N : Int) ≤ MAX_SIZE * MAX_SIZE) (cs : List Nat) (hcs : 4 * (N + 1) ≤ cs.length) :
    ∃ tab cnt, factCount (List.replicate (N + 1) 0) cs = Except.ok (tab, cnt) ∧
      ∀ i, 2 ≤ i → i ≤ N → tab[i]? = some (Ω i) := by
  obtain ⟨s, _, h2, _, _, _, h6, _⟩ := factCount_spec N h7 cs hcs
  refine ⟨s.tab, s.primes.length, h2, ?_⟩
  intro i hi2 hiN
  rw [h6 i hi2 hiN, cardFactors_mod i (by omega) (lt_of_le_of_lt hiN (max_sq_lt hmax))]

theorem cardFactors_nine : Ω 9 = 2 := by
  have : (9 : Nat) = 3 ^ 2 := by norm_num
  rw [this, cardFactors_apply_prime_pow Nat.prime_three]

theorem cardFactors_ten : Ω 10 = 2 := by
  have : (10 : Nat) = 2 * 5 := by norm_num
  rw [this, cardFactors_mul (by norm_num) (by norm_num), cardFactors_apply_prime Nat.prime_two,
    cardFactors_apply_prime Nat.prime_five]

/-- Witness for C1: `N = 10` under the schedule of forty-four zeros gives `tab[9] = 2`
and `tab[10] = 2`. -/
theorem factCount_table_cardFactors_witness :
    ∃ tab cnt, factCount (List.replicate (10 + 1) 0) (List.replicate 44 0) = Except.ok (tab, cnt) ∧
      tab[9]? = some 2 ∧ tab[10]? = some 2 := by
  obtain ⟨tab, cnt, h, hall⟩ := factCount_table_cardFactors 10 (by norm_num)
    (by norm_num [MAX_SIZE]) (List.replicate 44 0) (by simp)
  refine ⟨tab, cnt, h, ?_, ?_⟩
  · rw [hall 9 (by norm_num) (by norm_num), cardFactors_nine]
  · rw [hall 10 (by norm_num) (by norm_num), cardFactors_ten]

/-- C2: for every `N` with `7 ≤ N ≤ MAX_SIZE * MAX_SIZE` and every schedule (long
enough for the run to end), the integer `factCount` returns is the number of primes
`p ≤ N`, and is the number of indices `i` in `[2, N]` with `tab[i] == 1` in the table it
leaves. -/
theorem factCount_returns_primeCounting (N : Nat) (h7 : 7 ≤ N)
    (hmax : (N : Int) ≤ MAX_SIZE * MAX_SIZE) (cs : List Nat) (hcs : 4 * (N + 1) ≤ cs.length) :
    ∃ tab cnt, factCount (List.replicate (N + 1) 0) cs = Except.ok (tab, cnt) ∧
      cnt = Nat.primeCounting N ∧
      cnt = ((List.range' 2 (N - 1)).filter (fun i => decide (tab[i]? = some 1))).length := by
  obtain ⟨s, _, h2, _, _, _, h6, h7'⟩ := factCount_spec N h7 cs hcs
  have hlen : s.primes.length = Nat.primeCounting N := by
    rw [h7'.length_eq, primesIn_length]
    rfl
  refine ⟨s.tab, s.primes.length, h2, hlen, ?_⟩
  have hfil : (List.range' 2 (N - 1)).filter (fun i => decide (s.tab[i]? = some 1))
      = (List.range' 2 (N - 1)).filter (fun p => decide (Nat.Prime p)) := by
    apply List.filter_congr
    intro i hi
    simp only [List.mem_range'_1] at hi
    rw [h6 i hi.1 (by omega),
      cardFactors_mod i (by omega) (lt_of_le_of_lt (show i ≤ N by omega) (max_sq_lt hmax))]
    simp [cardFactors_eq_one_iff_prime]
  rw [hfil, h7'.length_eq, ← primesIn_append (Nat.zero_le 2) (show 2 ≤ N + 1 by omega)]
  have e0 : primesIn 0 2 = [] := by
    unfold primesIn
    simp [List.range', List.filter_cons]
    norm_num
  have e1 : primesIn 2 (N + 1) = (List.range' 2 (N - 1)).filter (fun p => decide (Nat.Prime p)) := by
    unfold primesIn
    have : N + 1 - 2 = N - 1 := by omega
    rw [this]
  rw [e0, e1]
  simp

/-- Witness for C2: `N = 10` returns `4`. -/
theorem factCount_returns_primeCounting_witness :
    ∃ tab, factCount (List.replicate (10 + 1) 0) (List.replicate 44 0) = Except.ok (tab, 4) := by
  obtain ⟨tab, cnt, h, hc, _⟩ := factCount_returns_primeCounting 10 (by norm_num)
    (by norm_num [MAX_SIZE]) (List.replicate 44 0) (by simp)
  have h4 : Nat.primeCounting 10 = 4 := by
    simp only [Nat.primeCounting, Nat.primeCounting', Nat.count_succ, Nat.count_zero]
    norm_num
  rw [h4] at hc
  subst hc
  exact ⟨tab, h⟩

/-- C3: for every `N` with `7 ≤ N ≤ MAX_SIZE * MAX_SIZE` and any two schedules (each
long enough for the run to end), the two runs of `factCount` end with the same table
and return the same prime count. -/
theorem factCount_deterministic (N : Nat) (h7 : 7 ≤ N) (_hmax : (N : Int) ≤ MAX_SIZE * MAX_SIZE)
    (cs1 cs2 : List Nat) (h1 : 4 * (N + 1) ≤ cs1.length) (h2 : 4 * (N + 1) ≤ cs2.length) :
    ∃ tab cnt, factCount (List.replicate (N + 1) 0) cs1 = Except.ok (tab, cnt) ∧
      factCount (List.replicate (N + 1) 0) cs2 = Except.ok (tab, cnt) := by
  obtain ⟨s1, _, a2, a3, a4, a5, a6, a7⟩ := factCount_spec N h7 cs1 h1
  obtain ⟨s2, _, b2, b3, b4, b5, b6, b7⟩ := factCount_spec N h7 cs2 h2
  refine ⟨s1.tab, s1.primes.length, a2, ?_⟩
  rw [b2, final_table_eq a3 b3 a4 b4 a5 b5 a6 b6, a7.length_eq, b7.length_eq]

/-- Witness for C3: `N = 7` under the schedule of thirty-two zeros and under the
schedule of thirty-two threes. -/
theorem factCount_deterministic_witness :
    ∃ tab cnt, factCount (List.replicate (7 + 1) 0) (List.replicate 32 0) = Except.ok (tab, cnt) ∧
      factCount (List.replicate (7 + 1) 0) (List.replicate 32 3) = Except.ok (tab, cnt) :=
  factCount_deterministic 7 (by norm_num) (by norm_num [MAX_SIZE]) (List.replicate 32 0)
    (List.replicate 32 3) (by simp) (by simp)

/-- Counterexample to C4 as stated: on a table for `N = 7` every seed range is drained
in arrival order; when the worker of `[7, 8)` reports before the worker of `[5, 6)` the
registry ends as `[2, 3, 7, 5]`. -/
theorem registry_not_increasing :
    (factCountFull (List.replicate (7 + 1) 0) [0, 0, 0, 0, 0, 0, 0, 0, 3, 1, 0, 0]).map
      (fun r => r.1.primes) = Except.ok [2, 3, 7, 5] := by
  have e0 : initState (List.replicate (7 + 1) 0) = Except.ok
      ⟨[0, 1, 1, 1, 0, 0, 0, 0], [2, 3], 4, 0, [], 4, [], [4, 5, 6, 7], 0, 8, 10⟩ := by decide
  have e1 : run [0, 0, 0, 0, 0, 0, 0, 0, 3, 1, 0, 0]
      ⟨[0, 1, 1, 1, 0, 0, 0, 0], [2, 3], 4, 0, [], 4, [], [4, 5, 6, 7], 0, 8, 10⟩
      = Except.ok ⟨[0, 1, 1, 1, 2, 1, 2, 1], [2, 3, 7, 5], 8, 4, [], 0, [], [4, 5, 6, 7], 0, 8, 10⟩ := by
    rw [run_cons (⟨[0, 1, 1, 1, 0, 0, 0, 0], [2, 3], 5, 0, [⟨⟨4, 5, [2, 3]⟩, 4, [4, 5]⟩], 4, [], [4, 5, 6, 7], 0, 8, 10⟩) (by decide) (by decide)]
    rw [run_cons (⟨[0, 1, 1, 1, 2, 0, 0, 0], [2, 3], 5, 0, [⟨⟨4, 5, [2, 3]⟩, 5, [4, 5]⟩], 4, [], [4, 5, 6, 7], 0, 8, 10⟩) (by decide) (by decide)]
    rw [run_cons (⟨[0, 1, 1, 1, 2, 0, 0, 0], [2, 3], 6, 0, [⟨⟨4, 5, [2, 3]⟩, 5, [4, 5]⟩, ⟨⟨5, 6, [2, 3]⟩, 5, [5, 6]⟩], 4, [], [4, 5, 6, 7], 0, 8, 10⟩) (by decide) (by decide)]
    rw [run_cons (⟨[0, 1, 1, 1, 2, 1, 0, 0], [2, 3], 6, 0, [⟨⟨4, 5, [2, 3]⟩, 5, [4, 5]⟩, ⟨⟨5, 6, [2, 3]⟩, 6, [5, 6, 5]⟩], 4, [], [4, 5, 6, 7], 0, 8, 10⟩) (by decide) (by decide)]
    rw [run_cons (⟨[0, 1, 1, 1, 2, 1, 0, 0], [2, 3], 7, 0, [⟨⟨4, 5, [2, 3]⟩, 5, [4, 5]⟩, ⟨⟨5, 6, [2, 3]⟩, 6, [5, 6, 5]⟩, ⟨⟨6, 7, [2, 3]⟩, 6, [6, 7]⟩], 4, [], [4, 5, 6, 7], 0, 8, 10⟩) (by decide) (by decide)]
    rw [run_cons (⟨[0, 1, 1, 1, 2, 1, 2, 0], [2, 3], 7, 0, [⟨⟨4, 5, [2, 3]⟩, 5, [4, 5]⟩, ⟨⟨5, 6, [2, 3]⟩, 6, [5, 6, 5]⟩, ⟨⟨6, 7, [2, 3]⟩, 7, [6, 7]⟩], 4, [], [4, 5, 6, 7], 0, 8, 10⟩) (by decide) (by decide)]
    rw [run_cons (⟨[0, 1, 1, 1, 2, 1, 2, 0], [2, 3], 8, 0, [⟨⟨4, 5, [2, 3]⟩, 5, [4, 5]⟩, ⟨⟨5, 6, [2, 3]⟩, 6, [5, 6, 5]⟩, ⟨⟨6, 7, [2, 3]⟩, 7, [6, 7]⟩, ⟨⟨7, 8, [2, 3]⟩, 7, [7, 8]⟩], 4, [], [4, 5, 6, 7], 0, 8, 10⟩) (by decide) (by decide)]
    rw [run_cons (⟨[0, 1, 1, 1, 2, 1, 2, 1], [2, 3], 8, 0, [⟨⟨4, 5, [2, 3]⟩, 5, [4, 5]⟩, ⟨⟨5, 6, [2, 3]⟩, 6, [5, 6, 5]⟩, ⟨⟨6, 7, [2, 3]⟩, 7, [6, 7]⟩, ⟨⟨7, 8, [2, 3]⟩, 8, [7, 8, 7]⟩], 4, [], [4, 5, 6, 7], 0, 8, 10⟩) (by decide) (by decide)]
    rw [run_cons (⟨[0, 1, 1, 1, 2, 1, 2, 1], [2, 3, 7], 8, 1, [⟨⟨4, 5, [2, 3]⟩, 5, [4, 5]⟩, ⟨⟨5, 6, [2, 3]⟩, 6, [5, 6, 5]⟩, ⟨⟨6, 7, [2, 3]⟩, 7, [6, 7]⟩], 3, [], [4, 5, 6, 7], 0, 8, 10⟩) (by decide) (by decide)]
    rw [run_cons (⟨[0, 1, 1, 1, 2, 1, 2, 1], [2, 3, 7, 5], 8, 2, [⟨⟨4, 5, [2, 3]⟩, 5, [4, 5]⟩, ⟨⟨6, 7, [2, 3]⟩, 7, [6, 7]⟩], 2, [], [4, 5, 6, 7], 0, 8, 10⟩) (by decide) (by decide)]
    rw [run_cons (⟨[0, 1, 1, 1, 2, 1, 2, 1], [2, 3, 7, 5], 8, 3, [⟨⟨6, 7, [2, 3]⟩, 7, [6, 7]⟩], 1, [], [4, 5, 6, 7], 0, 8, 10⟩) (by decide) (by decide)]
    rw [run_cons (⟨[0, 1, 1, 1, 2, 1, 2, 1], [2, 3, 7, 5], 8, 4, [], 0, [], [4, 5, 6, 7], 0, 8, 10⟩) (by decide) (by decide)]
    exact run_done (by decide)
  unfold factCountFull
  rw [e0]
  simp only [e1]
  rfl

/-- C4, amended: for every `N ≥ 7` and every schedule, the registry is strictly
increasing in every state of the run in which `start < len(tab)` (up to the final drain
primes are appended in range-retirement order only), and the registry held when the
loop has ended has no duplicates and holds exactly the primes `p ≤ N`.  The final drain
appends in queue order and then in arrival order, so nothing is said about the order
of the final registry. -/
theorem registry_sorted_until_drain (N : Nat) (h7 : 7 ≤ N) :
    (∀ s, Reach (List.replicate (N + 1) 0) s → s.start < s.tab.length →
        s.primes.Sorted (· < ·)) ∧
      ∀ cs : List Nat, 4 * (N + 1) ≤ cs.length →
        ∃ s cnt, factCountFull (List.replicate (N + 1) 0) cs = Except.ok (s, cnt) ∧
          s.primes.Nodup ∧ ∀ p, p ∈ s.primes ↔ (p.Prime ∧ p ≤ N) := by
  constructor
  · intro s hr hlt
    obtain ⟨n, m, bj, qj, hinv⟩ := reach_inv (show 8 ≤ N + 1 by omega) hr
    rcases hinv.phase with hp | hp | hp
    · obtain ⟨_, _, _, _, _, _, _, _, hprimes, _⟩ := hp
      rw [hprimes]; exact primesIn_sorted _ _
    · obtain ⟨_, _, _, _, hprimes, _⟩ := hp
      rw [hprimes]; exact primesIn_sorted _ _
    · obtain ⟨_, hL, _⟩ := hp
      rw [hinv.len] at hlt
      omega
  · intro cs hcs
    obtain ⟨s, h1, _, _, _, _, _, hperm⟩ := factCount_spec N h7 cs hcs
    refine ⟨s, s.primes.length, h1, (hperm.nodup_iff).2 (primesIn_nodup _ _), ?_⟩
    intro p
    rw [hperm.mem_iff, mem_primesIn]
    constructor
    · rintro ⟨_, h2, h3⟩; exact ⟨h3, by omega⟩
    · rintro ⟨h2, h3⟩; exact ⟨Nat.zero_le _, by omega, h2⟩

/-- Witness for C4, amended, at `N = 10`: in the state reached once `[4, 5)` and `[5, 6)`
are retired, `start = 10 < 11 = len(tab)` and the registry `[2, 3, 5]` is increasing;
and under the schedule of forty-four zeros the final registry holds the primes up to
`10`, each once. -/
theorem registry_sorted_until_drain_witness :
    (∃ s, Reach (List.replicate (10 + 1) 0) s ∧ s.start < s.tab.length ∧
        s.primes = [2, 3, 5] ∧ s.primes.Sorted (· < ·)) ∧
      ∃ s cnt, factCountFull (List.replicate (10 + 1) 0) (List.replicate 44 0)
          = Except.ok (s, cnt) ∧
        s.primes.Nodup ∧ ∀ p, p ∈ s.primes ↔ (p.Prime ∧ p ≤ 10) :=
  ⟨⟨_, reach_ten, by decide, rfl,
      (registry_sorted_until_drain 10 (by norm_num)).1 _ reach_ten (by decide)⟩,
    (registry_sorted_until_drain 10 (by norm_num)).2 (List.replicate 44 0) (by simp)⟩

/-- The bootstrap writes `1` at index `1` as well as at `2` and `3`. -/
theorem bootstrap_sets_one :
    (initState (List.replicate 10 0)).map (fun s => s.tab)
      = Except.ok [0, 1, 1, 1, 0, 0, 0, 0, 0, 0] := by
  decide

/-- For every `N ≥ 7` the bootstrap of `factCount` on a zeroed table sets the entries
`1`, `2` and `3` to `1` and nothing else, and under every schedule (long enough for the
run to end) the table `factCount` returns has `tab[0] == 0` and `tab[1] == 1`: index `0`
keeps its zero default and no worker writes index `1`. -/
theorem factCount_leaves_one (N : Nat) (h7 : 7 ≤ N) :
    (initState (List.replicate (N + 1) 0)).map (fun s => s.tab)
        = Except.ok (0 :: 1 :: 1 :: 1 :: List.replicate (N - 3) 0) ∧
      ∀ cs : List Nat, 4 * (N + 1) ≤ cs.length →
        ∃ tab cnt, factCount (List.replicate (N + 1) 0) cs = Except.ok (tab, cnt) ∧
          tab[0]? = some 0 ∧ tab[1]? = some 1 := by
  constructor
  · have e : N + 1 = (N - 3) + 4 := by omega
    rw [e]
    simp [initState, List.replicate_succ]
    rfl
  · intro cs hcs
    obtain ⟨s, _, h2, _, h4, h5, _, _⟩ := factCount_spec N h7 cs hcs
    exact ⟨s.tab, s.primes.length, h2, h4, h5⟩

/-- The same at `N = 9`, the table of the least size `main` accepts. -/
theorem factCount_leaves_one_witness :
    (initState (List.replicate (9 + 1) 0)).map (fun s => s.tab)
        = Except.ok (0 :: 1 :: 1 :: 1 :: List.replicate (9 - 3) 0) ∧
      ∀ cs : List Nat, 4 * (9 + 1) ≤ cs.length →
        ∃ tab cnt, factCount (List.replicate (9 + 1) 0) cs = Except.ok (tab, cnt) ∧
          tab[0]? = some 0 ∧ tab[1]? = some 1 :=
  factCount_leaves_one 9 (by norm_num)

theorem cardFactors_small :
    Ω 2 = 1 ∧ Ω 3 = 1 ∧ Ω 4 = 2 ∧ Ω 5 = 1 ∧ Ω 6 = 2 ∧ Ω 7 = 1 ∧ Ω 8 = 3 ∧ Ω 9 = 2 := by
  refine ⟨cardFactors_apply_prime Nat.prime_two, cardFactors_apply_prime Nat.prime_three, ?_,
    cardFactors_apply_prime Nat.prime_five, ?_, cardFactors_apply_prime (by norm_num), ?_,
    cardFactors_nine⟩
  · have : (4 : Nat) = 2 ^ 2 := by norm_num
    rw [this, cardFactors_apply_prime_pow Nat.prime_two]
  · have : (6 : Nat) = 2 * 3 := by norm_num
    rw [this, cardFactors_mul (by norm_num) (by norm_num), cardFactors_apply_prime Nat.prime_two,
      cardFactors_apply_prime Nat.prime_three]
  · have : (8 : Nat) = 2 ^ 3 := by norm_num
    rw [this, cardFactors_apply_prime_pow Nat.prime_two]

/-- C5 fails on the code: for `size = 3` and every schedule (long enough for the run to
end), `factCount` returns the table `[0, 1, 1, 1, 2, 1, 2, 1, 3, 2]` and the count `4`:
`tab[1]` is `1`, not the zero default (`1` has no prime factor), since the bootstrap
assigns `tab[1], tab[2], tab[3] = 1, 1, 1` and nothing writes index `1` afterwards.  In
monochrome `renderImage` then paints five pixels black, the one of the number `1`
among them. -/
theorem factCount_marks_one (cs : List Nat) (hcs : 4 * (3 * 3 + 1) ≤ cs.length) :
    factCount (makeTab 3) cs = Except.ok ([0, 1, 1, 1, 2, 1, 2, 1, 3, 2], 4) ∧
      (renderImage [0, 1, 1, 1, 2, 1, 2, 1, 3, 2] 3 false).map
          (fun img => (img.filter (fun d => decide (d.c = black))).map (fun d => (d.x, d.y)))
        = Except.ok [(1, 1), (2, 1), (2, 0), (0, 0), (0, 2)] := by
  constructor
  · obtain ⟨s, _, h2, h3, h4, h5, h6, hperm⟩ := factCount_spec 9 (by norm_num) cs hcs
    obtain ⟨c2, c3, c4, c5, c6, c7, c8, c9⟩ := cardFactors_small
    have htab : s.tab = [0, 1, 1, 1, 2, 1, 2, 1, 3, 2] := by
      apply final_table_eq h3 (by rfl) h4 (by rfl) h5 (by rfl) h6
      intro x hx2 hx9
      interval_cases x <;> simp [c2, c3, c4, c5, c6, c7, c8, c9]
    have hcnt : s.primes.length = 4 := by
      rw [hperm.length_eq, primesIn_length]
      simp only [Nat.primeCounting', Nat.count_succ, Nat.count_zero]
      norm_num
    show factCount (List.replicate (9 + 1) 0) cs = _
    rw [h2, htab, hcnt]
  · decide

/-- Witness for C5 on the code: the schedule of forty zeros. -/
theorem factCount_marks_one_witness :
    factCount (makeTab 3) (List.replicate 40 0)
        = Except.ok ([0, 1, 1, 1, 2, 1, 2, 1, 3, 2], 4) ∧
      (renderImage [0, 1, 1, 1, 2, 1, 2, 1, 3, 2] 3 false).map
          (fun img => (img.filter (fun d => decide (d.c = black))).map (fun d => (d.x, d.y)))
        = Except.ok [(1, 1), (2, 1), (2, 0), (0, 0), (0, 2)] :=
  factCount_marks_one (List.replicate 40 0) (by simp)

/-- Counterexample to C6 as stated: on a table for `N = 4` the seed worker of `[5, 6)`
writes `tab[5]`, past the end of the table, and the run fails. -/
theorem factCount_four_fails :
    factCount (List.replicate (4 + 1) 0) [0, 0, 0, 0] = Except.error Fault.indexOutOfRange := by
  have e0 : initState (List.replicate (4 + 1) 0) = Except.ok
      ⟨[0, 1, 1, 1, 0], [2, 3], 4, 0, [], 4, [], [4, 5, 6, 7], 0, 8, 10⟩ := by decide
  have e1 : run [0, 0, 0, 0] ⟨[0, 1, 1, 1, 0], [2, 3], 4, 0, [], 4, [], [4, 5, 6, 7], 0, 8, 10⟩
      = Except.error Fault.indexOutOfRange := by
    rw [run_cons (⟨[0, 1, 1, 1, 0], [2, 3], 5, 0, [⟨⟨4, 5, [2, 3]⟩, 4, [4, 5]⟩], 4, [], [4, 5, 6, 7], 0, 8, 10⟩) (by decide) (by decide)]
    rw [run_cons (⟨[0, 1, 1, 1, 2], [2, 3], 5, 0, [⟨⟨4, 5, [2, 3]⟩, 5, [4, 5]⟩], 4, [], [4, 5, 6, 7], 0, 8, 10⟩) (by decide) (by decide)]
    rw [run_cons (⟨[0, 1, 1, 1, 2], [2, 3], 6, 0, [⟨⟨4, 5, [2, 3]⟩, 5, [4, 5]⟩, ⟨⟨5, 6, [2, 3]⟩, 5, [5, 6]⟩], 4, [], [4, 5, 6, 7], 0, 8, 10⟩) (by decide) (by decide)]
    exact run_fail (by decide) (by decide) (by decide)
  unfold factCount factCountFull
  rw [e0]
  simp only [e1]

/-- C6, amended: for every `N ≥ 7` and every schedule (long enough for the run to
end), `factCount` on a zeroed table of length `N + 1` returns and returns the number of
primes up to `N`, and it leaves `tab[i]` equal to the number of prime factors of `i`,
which is at least `1` and is `1` exactly when `i` is prime, for all `2 ≤ i ≤ N`; for the
entries, `N + 1` being the length of a Go slice, an `int`, `N` is below `2 ^ 63`, where a
`uint8` holds every count.  For `N = 4, 5, 6` and every schedule of that length the run
fails with an index out of range: a seed worker writes past the end of the table. -/
theorem factCount_from_seven (N : Nat) (cs : List Nat) (hcs : 4 * (N + 1) ≤ cs.length) :
    (7 ≤ N →
      ∃ tab cnt, factCount (List.replicate (N + 1) 0) cs = Except.ok (tab, cnt) ∧
        tab.length = N + 1 ∧ cnt = Nat.primeCounting N ∧
        (N < 2 ^ 63 → ∀ i, 2 ≤ i → i ≤ N →
          ∃ v, tab[i]? = some v ∧ v = Ω i ∧ 1 ≤ v ∧ (v = 1 ↔ i.Prime))) ∧
      (4 ≤ N → N ≤ 6 →
        factCount (List.replicate (N + 1) 0) cs = Except.error Fault.indexOutOfRange) := by
  constructor
  · intro h7
    obtain ⟨s, _, h2, h3, _, _, h6, hperm⟩ := factCount_spec N h7 cs hcs
    have hlen : s.primes.length = Nat.primeCounting N := by
      rw [hperm.length_eq, primesIn_length]
      rfl
    refine ⟨s.tab, s.primes.length, h2, h3, hlen, ?_⟩
    intro hN i hi2 hiN
    have hN1 : N < 2 ^ 256 := lt_trans hN (by norm_num)
    refine ⟨Ω i, ?_, rfl, ?_, cardFactors_eq_one_iff_prime⟩
    · rw [h6 i hi2 hiN, cardFactors_mod i (by omega) (lt_of_le_of_lt hiN hN1)]
    · rw [cardFactors_div_prime hi2 (Nat.minFac_prime (by omega)) (Nat.minFac_dvd i)]
      omega
  · intro h4 h6
    exact factCount_short N h4 h6 cs (by omega)

/-- Witness for C6, amended: at the boundary `N = 7` the table has eight entries with
`tab[4] = 2` and `tab[7] = 1`, and the returned prime count is `4`; at `N = 4`, `5` and
`6` the run fails, here under three different schedules. -/
theorem factCount_from_seven_witness :
    (∃ tab, factCount (List.replicate (7 + 1) 0) (List.replicate 32 0) = Except.ok (tab, 4) ∧
        tab.length = 8 ∧ tab[4]? = some 2 ∧ tab[7]? = some 1) ∧
      factCount (List.replicate (4 + 1) 0) (List.replicate 20 0)
        = Except.error Fault.indexOutOfRange ∧
      factCount (List.replicate (5 + 1) 0) (List.replicate 24 1)
        = Except.error Fault.indexOutOfRange ∧
      factCount (List.replicate (6 + 1) 0) (List.replicate 28 2)
        = Except.error Fault.indexOutOfRange := by
  refine ⟨?_,
    (factCount_from_seven 4 (List.replicate 20 0) (by simp)).2 (by norm_num) (by norm_num),
    (factCount_from_seven 5 (List.replicate 24 1) (by simp)).2 (by norm_num) (by norm_num),
    (factCount_from_seven 6 (List.replicate 28 2) (by simp)).2 (by norm_num) (by norm_num)⟩
  obtain ⟨tab, cnt, h, hl, hc, hall0⟩ :=
    (factCount_from_seven 7 (List.replicate 32 0) (by simp)).1 (by norm_num)
  have hall := hall0 (by norm_num)
  have h4 : Nat.primeCounting 7 = 4 := by
    simp only [Nat.primeCounting, Nat.primeCounting', Nat.count_succ, Nat.count_zero]
    norm_num
  rw [h4] at hc
  subst hc
  refine ⟨tab, h, hl, ?_, ?_⟩
  · obtain ⟨v, hv, hvo, _, _⟩ := hall 4 (by norm_num) (by norm_num)
    have e : Ω 4 = 2 := by
      have : (4 : Nat) = 2 ^ 2 := by norm_num
      rw [this, cardFactors_apply_prime_pow Nat.prime_two]
    rw [hv, hvo, e]
  · obtain ⟨v, hv, _, _, hvp⟩ := hall 7 (by norm_num) (by norm_num)
    rw [hv, hvp.2 (by norm_num)]

/-- C7: for every `N ≥ 7`, in every state a run of `factCount` can reach under any
schedule, the reorder buffer `queue` holds at most `3` results and
`jobsOut + len(queue)` is at most `4`. -/
theorem queue_bounded (N : Nat) (h7 : 7 ≤ N) (s : State)
    (hr : Reach (List.replicate (N + 1) 0) s) :
    s.queue.length ≤ 3 ∧ s.jobsOut + s.queue.length ≤ 4 := by
  obtain ⟨n, m, bj, qj, hinv⟩ := reach_inv (show 8 ≤ N + 1 by omega) hr
  exact ⟨hinv.qlen, hinv.tot⟩

/-- Witness for C7: `N = 7` and the state after the first seed has been handed out. -/
theorem queue_bounded_witness :
    ∃ s, Reach (List.replicate (7 + 1) 0) s ∧ s.seed = 5 ∧
      s.queue.length ≤ 3 ∧ s.jobsOut + s.queue.length ≤ 4 := by
  have hr : Reach (List.replicate (7 + 1) 0)
      ⟨[0, 1, 1, 1, 0, 0, 0, 0], [2, 3], 5, 0, [⟨⟨4, 5, [2, 3]⟩, 4, [4, 5]⟩], 4, [],
        [4, 5, 6, 7], 0, 8, 10⟩ :=
    Reach.step (a := Action.sched 0)
      (Reach.init (s := ⟨[0, 1, 1, 1, 0, 0, 0, 0], [2, 3], 4, 0, [], 4, [], [4, 5, 6, 7], 0, 8, 10⟩)
        (by decide))
      (by decide) (by decide) (by decide)
  exact ⟨_, hr, rfl, queue_bounded 7 (by norm_num) _ hr⟩

/-- Counterexample to C8 as stated: the task `[1, 2)` with the snapshot `[2, 3]` (all
primes below `4`) meets `0 < start < end ≤ len(tab)`, and `goFactor` reports `1` as a
prime found. -/
theorem goFactor_counts_one_as_prime :
    goFactor (List.replicate 8 0) ⟨1, 2, [2, 3]⟩
      = Except.ok (some ([0, 1, 0, 0, 0, 0, 0, 0], [1, 2, 1])) := by
  decide

/-- C8, amended: for every task with `2 ≤ start < end ≤ len(tab)` whose snapshot is an
increasing list of primes that contains every prime `q` with `q * q ≤ end - 1` and some
prime `p` with `p * p > end - 1`, `goFactor` reports a slice with `report[0] = start`,
`report[1] = end` and `report[2:]` the list of the primes `p` with `start ≤ p < end`
in increasing order. -/
theorem goFactor_report (tab : List Nat) (t : Task) (h1 : 2 ≤ t.start) (h2 : t.start < t.end_)
    (h3 : t.end_ ≤ tab.length) (hs : t.primes.Sorted (· < ·)) (hp : ∀ f ∈ t.primes, f.Prime)
    (hall : ∀ q, q.Prime → q * q ≤ t.end_ - 1 → q ∈ t.primes)
    (hbig : ∃ p ∈ t.primes, t.end_ - 1 < p * p) :
    ∃ tab1 report, goFactor tab t = Except.ok (some (tab1, report)) ∧
      report.getD 0 0 = t.start ∧ report.getD 1 0 = t.end_ ∧
      report.drop 2 = primesIn t.start t.end_ := by
  have hacc : accept t = Except.ok (some ⟨t, t.start, [t.start, t.end_]⟩) := by
    unfold accept
    rw [if_neg (by omega), if_neg (by omega)]
  obtain ⟨tab1, w1, e1, _, _, _, e5⟩ := workLoop_spec (t.end_ - t.start) tab
    ⟨t, t.start, [t.start, t.end_]⟩ hs hp h1 (le_of_lt h2) h3 (le_refl _)
    (by
      intro i _ hi2 _
      obtain ⟨p, hpm, hpp⟩ := hbig
      exact ⟨p, hpm, by simp only at hi2; omega⟩)
    (by
      intro i hi1 hi2 hc
      simp only at hi1 hi2
      have hq : i.minFac.Prime := Nat.minFac_prime (by omega)
      have hsq := Nat.minFac_sq_le_self (show 0 < i by omega) hc
      rw [pow_two] at hsq
      exact hall _ hq (by omega))
  refine ⟨tab1, w1.found, ?_, ?_, ?_, ?_⟩
  · unfold goFactor
    rw [hacc]
    simp only [e1]
  · rw [e5]; rfl
  · rw [e5]; rfl
  · rw [e5]; rfl

/-- Witness for C8, amended: the seed task `[7, 8)` with the snapshot `[2, 3]` on a
table of eight entries. -/
theorem goFactor_report_witness :
    ∃ tab1 report, goFactor (List.replicate 8 0) ⟨7, 8, [2, 3]⟩ = Except.ok (some (tab1, report)) ∧
      report.getD 0 0 = 7 ∧ report.getD 1 0 = 8 ∧ report.drop 2 = primesIn 7 8 :=
  goFactor_report (List.replicate 8 0) ⟨7, 8, [2, 3]⟩ (by decide) (by decide) (by decide)
    (by decide) (by
      intro f hf
      simp only [List.mem_cons, List.mem_singleton, List.not_mem_nil, or_false] at hf
      rcases hf with rfl | rfl
      · exact Nat.prime_two
      · exact Nat.prime_three)
    (by
      intro q hq hqq
      simp only at hqq
      have hq2 := hq.two_le
      have hq3 : q < 3 := by nlinarith
      have : q = 2 := by omega
      subst this
      simp)
    ⟨3, by simp, by decide⟩

/-- C9: for every `size` with `MIN_SIZE ≤ size ≤ MAX_SIZE`, on the table of length
`size * size + 1` that `main` makes, the bootstrap writes of `factCount` are in range,
every move of every thread in every state a run can reach succeeds (so every index at
which a worker reads or writes `tab` is below `len(tab)`), and no schedule, complete or
cut short, ends in an index out of range. -/
theorem indices_in_range (size : Nat) (hmin : MIN_SIZE ≤ (size : Int))
    (_hmax : (size : Int) ≤ MAX_SIZE) :
    (∃ s0, initState (makeTab size) = Except.ok s0) ∧
      (∀ s, Reach (makeTab size) s → ∀ a ∈ enabled s, ∃ s1, step s a = Except.ok s1) ∧
      ∀ cs, factCount (makeTab size) cs ≠ Except.error Fault.indexOutOfRange := by
  have h3 : 3 ≤ size := by unfold MIN_SIZE at hmin; omega
  have hL : 8 ≤ size * size + 1 := by nlinarith
  unfold makeTab
  refine ⟨?_, ?_, ?_⟩
  · obtain ⟨s0, h0, _⟩ := init_inv (size * size + 1) hL
    exact ⟨s0, h0⟩
  · intro s hr a ha
    obtain ⟨n, m, bj, qj, hinv⟩ := reach_inv hL hr
    obtain ⟨s1, _, _, _, _, e1, _⟩ := step_inv hinv ha
    exact ⟨s1, e1⟩
  · intro cs
    rcases factCountFull_spec (size * size + 1) hL cs with ⟨s, h1, _⟩ | ⟨h1, _⟩
    · unfold factCount
      rw [h1]
      intro h
      cases h
    · unfold factCount
      rw [h1]
      intro h
      cases h

/-- Witness for C9: `size = MIN_SIZE = 3`. -/
theorem indices_in_range_witness :
    (∃ s0, initState (makeTab 3) = Except.ok s0) ∧
      (∀ s, Reach (makeTab 3) s → ∀ a ∈ enabled s, ∃ s1, step s a = Except.ok s1) ∧
      ∀ cs, factCount (makeTab 3) cs ≠ Except.error Fault.indexOutOfRange :=
  indices_in_range 3 (by decide) (by decide)

/-- C10: `isValidSize size` is true exactly when `MIN_SIZE ≤ size ≤ MAX_SIZE`, that is
`3 ≤ size ≤ 16000`; and for every value of the `-s` flag, every count of stray
arguments and every outcome of the prompt, `main` reaches the call of `factCount` only
with a size for which `isValidSize` is true, namely the flag when it is valid and else
a valid answer to the prompt; in every other case it returns without computing. -/
theorem main_gates_size (narg : Nat) (flag : Int) (line : Option Int) :
    (∀ size, isValidSize size = true ↔ (MIN_SIZE ≤ size ∧ size ≤ MAX_SIZE)) ∧
      (∀ size, isValidSize size = true ↔ (3 ≤ size ∧ size ≤ 16000)) ∧
      (∀ size, main narg flag line = Entry.compute size → isValidSize size = true) ∧
      (∀ size, main narg flag line = Entry.compute size ↔
        (narg = 0 ∧ isValidSize size = true ∧
          (flag = size ∨ (isValidSize flag = false ∧ line = some size)))) := by
  have hv : ∀ size, isValidSize size = true ↔ (MIN_SIZE ≤ size ∧ size ≤ MAX_SIZE) := by
    intro size
    unfold isValidSize
    split_ifs <;> simp <;> omega
  have hv' : ∀ size, isValidSize size = true ↔ (3 ≤ size ∧ size ≤ 16000) := by
    intro size
    rw [hv]
    simp [MIN_SIZE, MAX_SIZE]
  have hmain : ∀ size, main narg flag line = Entry.compute size ↔
      (narg = 0 ∧ isValidSize size = true ∧
        (flag = size ∨ (isValidSize flag = false ∧ line = some size))) := by
    intro size
    by_cases hn : narg > 0
    · have hm : main narg flag line = Entry.usage := by
        unfold main; rw [if_pos hn]
      rw [hm]
      constructor
      · intro h; cases h
      · rintro ⟨h, _⟩; omega
    · have hn0 : narg = 0 := by omega
      by_cases hf : isValidSize flag = true
      · have hf0 : flag ≠ 0 := by
          intro h0; rw [h0] at hf; exact absurd hf (by decide)
        have hm : main narg flag line = Entry.compute flag := by
          unfold main; simp [hn0, hf, hf0]
        rw [hm]
        constructor
        · intro h
          have e : flag = size := by injection h
          exact ⟨hn0, by rw [← e]; exact hf, Or.inl e⟩
        · rintro ⟨_, _, h | ⟨h, _⟩⟩
          · rw [h]
          · rw [h] at hf; cases hf
      · have hf' : isValidSize flag = false := by simpa using hf
        have hm : main narg flag line
            = if getSize line = 0 then Entry.tryAgain else Entry.compute (getSize line) := by
          unfold main; simp [hn0, hf']
        rw [hm]
        have key : ∀ g, (if g = 0 then Entry.tryAgain else Entry.compute g) = Entry.compute size
            ↔ (g ≠ 0 ∧ g = size) := by
          intro g
          by_cases hg : g = 0
          · rw [if_pos hg]
            constructor
            · intro h; cases h
            · rintro ⟨h, _⟩; exact absurd hg h
          · rw [if_neg hg]
            constructor
            · intro h
              have e : g = size := by injection h
              exact ⟨hg, e⟩
            · rintro ⟨_, h⟩; rw [h]
        rw [key]
        have hz : isValidSize 0 = false := by decide
        cases line with
        | none =>
          unfold getSize
          constructor
          · rintro ⟨h, _⟩; exact absurd rfl h
          · rintro ⟨_, hs, h | ⟨_, h⟩⟩
            · rw [h] at hf'; rw [hf'] at hs; cases hs
            · cases h
        | some count =>
          unfold getSize
          by_cases hc : isValidSize count = true
          · simp only [hc, if_true]
            constructor
            · rintro ⟨_, h⟩
              exact ⟨hn0, by rw [← h]; exact hc, Or.inr ⟨hf', by rw [h]⟩⟩
            · rintro ⟨_, hs, h | ⟨_, h⟩⟩
              · rw [h] at hf'; rw [hf'] at hs; cases hs
              · have e : count = size := by injection h
                refine ⟨?_, e⟩
                intro h0; rw [h0] at hc; rw [hz] at hc; cases hc
          · have hc' : isValidSize count = false := by simpa using hc
            simp only [hc', Bool.false_eq_true, if_false]
            constructor
            · rintro ⟨h, _⟩; exact absurd rfl h
            · rintro ⟨_, hs, h | ⟨_, h⟩⟩
              · rw [h] at hf'; rw [hf'] at hs; cases hs
              · have e : count = size := by injection h
                rw [e] at hc'; rw [hc'] at hs; cases hs
  exact ⟨hv, hv', fun size h => ((hmain size).1 h).2.1, hmain⟩

/-- Witness for C10: the flag `-s 0` with the answer `5` to the prompt computes with
size `5`; the flag `-s 2` with no usable answer does not compute. -/
theorem main_gates_size_witness :
    main 0 0 (some 5) = Entry.compute 5 ∧ isValidSize 5 = true ∧
      main 0 2 none = Entry.tryAgain := by
  refine ⟨?_, ?_, by decide⟩
  · exact ((main_gates_size 0 0 (some 5)).2.2.2 5).2 ⟨rfl, by decide, Or.inr ⟨by decide, rfl⟩⟩
  · exact (main_gates_size 0 0 (some 5)).2.2.1 5 (by decide)


/-- C11: for every `N ≥ 7` and every schedule (long enough for the run to end), the
tasks `factCount` sends over the whole run, seeds included, have
`4 ≤ start < end ≤ len(tab)`; they are pairwise disjoint and in order, each begins
where the one sent before it ended, the first four are the seeds `[4,5) .. [7,8)`, and
every index `4 .. N` lies in exactly one of them.  The indices assigned over the run
are `1, 2, 3` (the bootstrap) followed by a rearrangement of `4 .. N` (the goroutines):
every index `1 .. N` is assigned once. -/
theorem dispatched_ranges_partition (N : Nat) (h7 : 7 ≤ N) (cs : List Nat)
    (hcs : 4 * (N + 1) ≤ cs.length) :
    ∃ s g, factCountLog (List.replicate (N + 1) 0) cs = Except.ok (s, g) ∧
      (∀ t ∈ g.dispatched, 4 ≤ t.start ∧ t.start < t.end_ ∧ t.end_ ≤ N + 1) ∧
      g.dispatched.Pairwise (fun a b => a.end_ ≤ b.start) ∧
      g.dispatched.Chain' (fun a b => b.start = a.end_) ∧
      (g.dispatched.take 4).map (fun t => (t.start, t.end_)) = [(4, 5), (5, 6), (6, 7), (7, 8)] ∧
      (∀ i, 4 ≤ i → i ≤ N →
        (∃ t ∈ g.dispatched, t.start ≤ i ∧ i < t.end_) ∧ covered i g.dispatched = 1) ∧
      ∃ ws, g.written = [1, 2, 3] ++ ws ∧ ws.Perm (List.range' 4 (N - 3)) := by
  obtain ⟨s, g, m, h1, _, hD, hdisp, hLm, ⟨ws, hws⟩, hperm⟩ := factCountLog_spec N h7 cs hcs
  refine ⟨s, g, h1, ?_, ?_, ?_, ?_, ?_, ws, hws, ?_⟩
  · rw [hD]; exact jobs_bounds (N + 1) m hdisp
  · rw [hD]; exact jobs_pairwise (N + 1) m
  · rw [hD]; exact jobs_chain (N + 1) m hdisp
  · have hm4 : 4 ≤ m := by
      by_contra hlt
      have : rs m ≤ rs 3 := rs_le_iff.2 (by omega)
      have e3 : rs 3 = 7 := rfl
      omega
    rw [hD, ← List.map_take, List.take_range, min_eq_left hm4]
    simp [List.range, List.range.loop, jobOf, rs]
    omega
  · intro i h4 hiN
    have hcov : covered i g.dispatched = 1 := by
      rw [hD, covered_jobs, min_eq_right hLm, if_pos ⟨h4, by omega⟩]
    refine ⟨?_, hcov⟩
    obtain ⟨j, hj, hj1, hj2⟩ := range_of_index m i h4 (by omega)
    refine ⟨jobOf (N + 1) j, by rw [hD]; exact List.mem_map_of_mem _ (List.mem_range.2 hj), hj1, ?_⟩
    exact lt_min hj2 (by omega)
  · rw [hws, range_split N (by omega)] at hperm
    exact (List.perm_append_left_iff _).1 hperm

/-- Witness for C11: `N = 7` under the schedule of thirty-two zeros. -/
theorem dispatched_ranges_partition_witness :
    ∃ s g, factCountLog (List.replicate (7 + 1) 0) (List.replicate 32 0) = Except.ok (s, g) ∧
      (∀ t ∈ g.dispatched, 4 ≤ t.start ∧ t.start < t.end_ ∧ t.end_ ≤ 7 + 1) ∧
      g.dispatched.Pairwise (fun a b => a.end_ ≤ b.start) ∧
      g.dispatched.Chain' (fun a b => b.start = a.end_) ∧
      (g.dispatched.take 4).map (fun t => (t.start, t.end_)) = [(4, 5), (5, 6), (6, 7), (7, 8)] ∧
      (∀ i, 4 ≤ i → i ≤ 7 →
        (∃ t ∈ g.dispatched, t.start ≤ i ∧ i < t.end_) ∧ covered i g.dispatched = 1) ∧
      ∃ ws, g.written = [1, 2, 3] ++ ws ∧ ws.Perm (List.range' 4 (7 - 3)) :=
  dispatched_ranges_partition 7 (by norm_num) (List.replicate 32 0) (by simp)

/-- C12: for every `N ≥ 7` and every state of a run with its record: the results
retired so far are those of the first ranges sent, in the order they were sent; and
when the scheduler is in the last branch of its loop (`start < len(tab)` and
`jobsOut + len(queue) == 4`), `expected[expI]` is the start of the first task sent and
not yet retired, that task is held by a goroutine (and `jobsOut ≥ 1`) or its result is
in `queue`, it is held by a goroutine whenever the scan of the queue finds nothing (so
the `<-report` that follows can be answered), and some thread can move. -/
theorem expected_is_oldest (N : Nat) (h7 : 7 ≤ N) (s : State) (g : Log)
    (ht : Trace (List.replicate (N + 1) 0) s g) :
    (g.retired.length ≤ g.dispatched.length ∧
      g.retired.map (fun r => (r.getD 0 0, r.getD 1 0))
        = (g.dispatched.take g.retired.length).map (fun t => (t.start, t.end_))) ∧
    (8 ≤ s.seed → s.start < s.tab.length → s.jobsOut + s.queue.length = 4 →
      ∃ t, g.dispatched[g.retired.length]? = some t ∧ s.expected[s.expI]? = some t.start ∧
        ((1 ≤ s.jobsOut ∧ ∃ w ∈ s.busy, w.job = t) ∨
          (∃ q ∈ s.queue, q.getD 0 0 = t.start ∧ q.getD 1 0 = t.end_)) ∧
        (findExpected s = none → 1 ≤ s.jobsOut ∧ ∃ w ∈ s.busy, w.job = t) ∧
        enabled s ≠ []) := by
  obtain ⟨n, m, bj, qj, hinv, hlog⟩ := trace_inv (show 8 ≤ N + 1 by omega) ht
  obtain ⟨hRn, hle, hpre⟩ := retired_prefix hlog
  refine ⟨⟨hle, hpre⟩, ?_⟩
  intro h8 hlt hfull
  have hb := busy_length hinv
  have hq := queue_length hinv
  rcases hinv.phase with hp | hp | hp
  · obtain ⟨hs, _⟩ := hp
    omega
  swap
  · obtain ⟨_, hL, _⟩ := hp
    rw [hinv.len] at hlt
    omega
  obtain ⟨hseed, hsL, hjobs, hidle, hprimes, hperm, hexpI, hexpl, hcase⟩ := hp
  have hcount := hperm.length_eq
  simp only [List.length_append, List.length_range'] at hcount
  rcases hcase with ⟨hm, hexp⟩ | ⟨hm, _⟩
  swap
  · omega
  have hexp0 : s.expected.getD s.expI 0 = rs n := by
    have := hexp 0 (by omega)
    rwa [Nat.add_zero, Nat.mod_eq_of_lt hexpI, Nat.add_zero] at this
  have hn_in : n ∈ bj ++ qj := (hperm.mem_iff).2 (by simp; omega)
  have hbusy : n ∈ bj → 1 ≤ s.jobsOut ∧ ∃ w ∈ s.busy, w.job = jobOf (N + 1) n := by
    intro hnb
    have h1 : jobOf (N + 1) n ∈ s.busy.map Worker.job := by
      rw [hinv.jobs]; exact List.mem_map_of_mem _ hnb
    obtain ⟨w, hw, hwj⟩ := List.mem_map.1 h1
    refine ⟨?_, w, hw, hwj⟩
    have := List.length_pos_of_mem hw
    omega
  have hlo : loopOver s = false := by
    have h0 : ¬ (s.jobsOut + s.queue.length = 0) := by omega
    unfold loopOver
    rw [decide_eq_false h0, Bool.and_false]
  refine ⟨jobOf (N + 1) n, ?_, ?_, ?_, ?_, enabled_ne_nil hinv hlo⟩
  · rw [hRn, hlog.disp, List.getElem?_map, List.getElem?_range (by omega)]
    rfl
  · rw [List.getD_eq_getElem?_getD, List.getElem?_eq_getElem (by omega)] at hexp0
    rw [List.getElem?_eq_getElem (by omega)]
    simp only [Option.getD_some] at hexp0
    rw [hexp0]
    rfl
  · rcases List.mem_append.1 hn_in with hnb | hnq
    · exact Or.inl (hbusy hnb)
    · right
      refine ⟨resultOf (N + 1) n, by rw [hinv.que]; exact List.mem_map_of_mem _ hnq, ?_, ?_⟩
      · rw [resultOf_zero]; rfl
      · rw [resultOf_one]; rfl
  · intro hnone
    have hn_nq : n ∉ qj := fun hq => findExpected_none hinv.que hnone n hq hexp0.symm
    rcases List.mem_append.1 hn_in with hnb | hnq
    · exact hbusy hnb
    · exact absurd hnq hn_nq

/-- Witness for C12: the table for `N = 8` once the four seeds are out; the scheduler
is in the last branch, `expected[0] = 4` and the task `[4, 5)` is held by a goroutine. -/
theorem expected_is_oldest_witness :
    ∃ s g, Trace (List.replicate (8 + 1) 0) s g ∧ 8 ≤ s.seed ∧ s.start < s.tab.length ∧
      s.jobsOut + s.queue.length = 4 ∧
      ∃ t, g.dispatched[g.retired.length]? = some t ∧ s.expected[s.expI]? = some t.start ∧
        ((1 ≤ s.jobsOut ∧ ∃ w ∈ s.busy, w.job = t) ∨
          (∃ q ∈ s.queue, q.getD 0 0 = t.start ∧ q.getD 1 0 = t.end_)) ∧
        (findExpected s = none → 1 ≤ s.jobsOut ∧ ∃ w ∈ s.busy, w.job = t) ∧
        enabled s ≠ [] :=
  ⟨_, _, trace_seeded, by decide, by decide, by decide,
    (expected_is_oldest 8 (by norm_num) _ _ trace_seeded).2 (by decide) (by decide) (by decide)⟩

/-- C13: for every `N ≥ 7`, in every state of a run with its record, every task
`factCount` has sent carries a snapshot that is strictly increasing and holds every
prime `p ≤ ⌈sqrt (end - 1)⌉`. -/
theorem snapshot_sqrt_bound (N : Nat) (h7 : 7 ≤ N) (s : State) (g : Log)
    (ht : Trace (List.replicate (N + 1) 0) s g) (t : Task) (hmem : t ∈ g.dispatched) :
    t.primes.Sorted (· < ·) ∧ ∀ p, p.Prime → p ≤ ceilSqrt (t.end_ - 1) → p ∈ t.primes := by
  obtain ⟨n, m, bj, qj, hinv, hlog⟩ := trace_inv (show 8 ≤ N + 1 by omega) ht
  obtain ⟨j, _, _, rfl⟩ := mem_dispatched hinv hlog hmem
  exact ⟨primesIn_sorted _ _, fun p hp hle => snapshot_covers (N + 1) j p hp hle⟩

/-- Witness for C13: the seed `[4, 5)` with the snapshot `[2, 3]` on the table for
`N = 7`; `⌈sqrt 4⌉ = 2`. -/
theorem snapshot_sqrt_bound_witness :
    ([2, 3] : List Nat).Sorted (· < ·) ∧
      ∀ p, p.Prime → p ≤ ceilSqrt (5 - 1) → p ∈ ([2, 3] : List Nat) :=
  snapshot_sqrt_bound 7 (by norm_num) _ _ trace_first_seed ⟨4, 5, [2, 3]⟩ (by simp)

/-- C14: for every `N ≥ 7`, every task `factCount` has sent and every `i` of its
range, the loop over the snapshot in `goFactor` leaves through a `break`: when no
snapshot element below `max` divides `i`, the snapshot holds a prime `f ≥ max`.  So on
any table of the length of `tab` the loop assigns `tab[i]` and, when `i` is prime,
appends `i` to `found`. -/
theorem trial_loop_breaks (N : Nat) (h7 : 7 ≤ N) (s : State) (g : Log)
    (ht : Trace (List.replicate (N + 1) 0) s g) (t : Task) (hmem : t ∈ g.dispatched)
    (i : Nat) (h1 : t.start ≤ i) (h2 : i < t.end_) :
    breaks i (maxOf i) t.primes = true ∧
      ((∀ f ∈ t.primes, f < maxOf i → i % f ≠ 0) → ∃ f ∈ t.primes, f.Prime ∧ maxOf i ≤ f) ∧
      ∀ (tab found : List Nat), tab.length = N + 1 →
        ∃ v, trial tab i (maxOf i) found t.primes
          = Except.ok (tab.set i v, found ++ (if i.Prime then [i] else [])) ∧
          (tab.set i v)[i]? = some v := by
  obtain ⟨n, m, bj, qj, hinv, hlog⟩ := trace_inv (show 8 ≤ N + 1 by omega) ht
  obtain ⟨j, _, hjL, rfl⟩ := mem_dispatched hinv hlog hmem
  simp only [jobOf] at h1 h2 ⊢
  have hserve := job_serves (N + 1) j i h1 h2
  have hprimes : ∀ f ∈ primesIn 0 (rs (j - 3)), f.Prime := fun f hf => (mem_primesIn.1 hf).2.2
  have h4 := rs_ge j
  have hiL : i < N + 1 := lt_of_lt_of_le h2 (min_le_right _ _)
  refine ⟨breaks_spec i _ hprimes hserve.1 hserve.2, ?_, ?_⟩
  · intro hno
    by_cases hi : i.Prime
    · obtain ⟨p, hp, hpp⟩ := hserve.1 hi
      refine ⟨p, hp, hprimes p hp, ?_⟩
      by_contra hc
      have := (lt_maxOf_iff p i).1 (by omega)
      omega
    · exfalso
      have hq := hserve.2 hi
      have hsq := Nat.minFac_sq_le_self (show 0 < i by omega) hi
      rw [pow_two] at hsq
      exact hno _ hq ((lt_maxOf_iff _ _).2 hsq) (Nat.mod_eq_zero_of_dvd (Nat.minFac_dvd _))
  · intro tab found hlen
    have hspec := tickWorker_spec tab ⟨⟨rs j, min (rs (j + 1)) (N + 1), primesIn 0 (rs (j - 3))⟩,
      i, found⟩ (primesIn_sorted _ _) hprimes (by simp; omega) (by simp; omega) hserve.1 hserve.2
    refine ⟨tickVal tab i, ?_, ?_⟩
    · unfold tickWorker at hspec
      simp only at hspec
      split at hspec
      · rename_i tab1 found1 heq
        simp only [Except.ok.injEq, Prod.mk.injEq, Worker.mk.injEq] at hspec
        rw [heq, hspec.1, hspec.2.2.2]
      · cases hspec
    · rw [List.getElem?_set]
      simp [hlen, hiL]

/-- Witness for C14: the seed `[4, 5)` with the snapshot `[2, 3]` on the table for
`N = 7`, at `i = 4`. -/
theorem trial_loop_breaks_witness :
    breaks 4 (maxOf 4) [2, 3] = true ∧
      ((∀ f ∈ ([2, 3] : List Nat), f < maxOf 4 → 4 % f ≠ 0) →
        ∃ f ∈ ([2, 3] : List Nat), f.Prime ∧ maxOf 4 ≤ f) ∧
      ∀ (tab found : List Nat), tab.length = 7 + 1 →
        ∃ v, trial tab 4 (maxOf 4) found [2, 3]
          = Except.ok (tab.set 4 v, found ++ (if (4 : Nat).Prime then [4] else [])) ∧
          (tab.set 4 v)[4]? = some v :=
  trial_loop_breaks 7 (by norm_num) _ _ trace_first_seed ⟨4, 5, [2, 3]⟩ (by simp) 4
    (by norm_num) (by norm_num)

/-- C15: for every `N ≥ 7` and every state of a run with its record.  When the next
move sends a task `[s, e)`, then for every `i` of its range and every snapshot element
`f` that divides `i`, the index `i / f` is at most `3` or lies in the range of a result
retired before, and `i / f < s`.  And for every goroutine holding a task, every `i` of
its range and every snapshot element `f` that divides `i`, the index `i / f` lies below
the start of the task of every goroutine holding one (so none of them assigns it), and
the entry there is final. -/
theorem reads_below_retired (N : Nat) (h7 : 7 ≤ N) (s : State) (g : Log)
    (ht : Trace (List.replicate (N + 1) 0) s g) :
    (∀ a ∈ enabled s, loopOver s = false → ∀ t ∈ sentBy s a, ∀ i f, t.start ≤ i → i < t.end_ →
        f ∈ t.primes → f ∣ i →
        (i / f ≤ 3 ∨ ∃ r ∈ g.retired, r.getD 0 0 ≤ i / f ∧ i / f < r.getD 1 0) ∧
          i / f < t.start) ∧
      (∀ w ∈ s.busy, ∀ i f, w.job.start ≤ i → i < w.job.end_ → f ∈ w.job.primes → f ∣ i →
        (∀ w2 ∈ s.busy, i / f < w2.job.start) ∧ s.tab[i / f]? = some (Ω (i / f) % 256)) := by
  obtain ⟨n, m, bj, qj, hinv, hlog⟩ := trace_inv (show 8 ≤ N + 1 by omega) ht
  -- the quotient lies below the snapshot bound
  have key : ∀ j i f, rs j ≤ i → i < min (rs (j + 1)) (N + 1) → f ∈ primesIn 0 (rs (j - 3)) →
      f ∣ i → 2 ≤ i / f ∧ (i / f ≤ 3 ∨ (3 ≤ j ∧ i / f < rs (j - 3))) := by
    intro j i f h1 h2 hf hd
    obtain ⟨_, hfr, hfp⟩ := mem_primesIn.1 hf
    obtain ⟨q, rfl⟩ := hd
    rw [Nat.mul_div_cancel_left q hfp.pos]
    have hf2 := hfp.two_le
    have h3 := min_le_left (rs (j + 1)) (N + 1)
    have hR := rs_succ_le j
    have hjj : rs (j - 3) ≤ rs j := rs_le_iff.2 (by omega)
    have hq2 : 2 ≤ q := by
      by_contra hq
      have : q = 0 ∨ q = 1 := by omega
      rcases this with rfl | rfl
      · simp at h1; have := rs_ge j; omega
      · simp at h1; omega
    refine ⟨hq2, ?_⟩
    have hlt : q < rs (j - 3) := by
      by_contra hge
      have : 2 * rs (j - 3) ≤ f * q := by
        calc 2 * rs (j - 3) ≤ f * rs (j - 3) := Nat.mul_le_mul_right _ hf2
          _ ≤ f * q := Nat.mul_le_mul_left _ (by omega)
      omega
    by_cases hj : 3 ≤ j
    · exact Or.inr ⟨hj, hlt⟩
    · left
      have e : j - 3 = 0 := by omega
      rw [e] at hlt
      have : rs 0 = 4 := rfl
      omega
  constructor
  · intro a ha hlo t hsent i f h1 h2 hf hd
    obtain ⟨s1, n1, m1, bj1, qj1, e1, ⟨hinv1, _⟩, hmv⟩ := step_inv_log hinv ha
    have hsends := hmv.sends
    by_cases hmm : m1 = m
    · rw [if_pos hmm] at hsends
      rw [hsends] at hsent
      simp at hsent
    rw [if_neg hmm] at hsends
    rw [hsends] at hsent
    simp only [List.mem_singleton] at hsent
    subst hsent
    have hn1 : n1 = n := by
      rcases hmv.excl with e | e
      · exact absurd e hmm
      · exact e
    have hm1 : m1 = m + 1 ∧ rs m < N + 1 := by
      rcases hmv.mstep with e | e
      · exact absurd e hmm
      · exact e
    have hmle := hinv1.mle
    simp only [jobOf] at h1 h2 hf ⊢
    obtain ⟨hq2, hq⟩ := key m i f h1 h2 hf hd
    have h4 := rs_ge m
    rcases hq with hq | ⟨hj, hq⟩
    · exact ⟨Or.inl hq, by omega⟩
    · have hmn : rs (m - 3) ≤ rs n := rs_le_iff.2 (by omega)
      have hmm3 : rs (m - 3) ≤ rs m := rs_le_iff.2 (by omega)
      refine ⟨?_, by omega⟩
      by_cases h3 : i / f ≤ 3
      · exact Or.inl h3
      · right
        obtain ⟨j, hj1, hj2, hj3⟩ := range_of_index n (i / f) (by omega) (by omega)
        refine ⟨resultOf (N + 1) j, ?_, ?_, ?_⟩
        · rw [hlog.ret]; exact List.mem_map_of_mem _ (List.mem_range.2 hj1)
        · rw [resultOf_zero]; exact hj2
        · rw [resultOf_one]
          have : rs (j + 1) ≤ rs m := rs_le_iff.2 (by have := hlog.nle; omega)
          exact lt_min hj3 (by omega)
  · intro w hw i f h1 h2 hf hd
    have hjob : ∀ w1 ∈ s.busy, ∃ j, n ≤ j ∧ j < m ∧ w1.job = jobOf (N + 1) j := by
      intro w1 hw1
      have : w1.job ∈ s.busy.map Worker.job := List.mem_map_of_mem _ hw1
      rw [hinv.jobs] at this
      obtain ⟨j, hj, hjw⟩ := List.mem_map.1 this
      have hwin := hinv.win j (List.mem_append_left _ hj)
      exact ⟨j, hwin.1, hwin.2, hjw.symm⟩
    obtain ⟨j, hnj, hjm, hwj⟩ := hjob w hw
    rw [hwj] at h1 h2 hf
    simp only [jobOf] at h1 h2 hf
    obtain ⟨hq2, hq⟩ := key j i f h1 h2 hf hd
    have hmle := hinv.mle
    have hlow : i / f < rs n := by
      have h4 := rs_ge n
      rcases hq with hq | ⟨hj, hq⟩
      · omega
      · have : rs (j - 3) ≤ rs n := rs_le_iff.2 (by omega)
        omega
    have hbelow : ∀ w2 ∈ s.busy, i / f < w2.job.start := by
      intro w2 hw2
      obtain ⟨j2, hnj2, _, hwj2⟩ := hjob w2 hw2
      rw [hwj2]
      simp only [jobOf]
      have : rs n ≤ rs j2 := rs_le_iff.2 hnj2
      omega
    refine ⟨hbelow, ?_⟩
    have hnL : rs n < N + 1 := hinv.disp n (by omega)
    have hnm : rs n ≤ rs m := rs_le_iff.2 (by omega)
    apply hinv.tabOK (i / f) hq2 (by omega) (by omega)
    intro w2 hw2 hpend
    have := hbelow w2 hw2
    have := (hinv.prog w2 hw2).1
    omega

/-- Witness for C15: on the table for `N = 7`, the first seed `[4, 5)` with `i = 4` and
`f = 2` when it is about to be sent, and when it is held by its goroutine. -/
theorem reads_below_retired_witness :
    ((4 / 2 ≤ 3 ∨ ∃ r ∈ initLog.retired, r.getD 0 0 ≤ 4 / 2 ∧ 4 / 2 < r.getD 1 0) ∧ 4 / 2 < 4) ∧
      ((∀ w2 ∈ [(⟨⟨4, 5, [2, 3]⟩, 4, [4, 5]⟩ : Worker)], 4 / 2 < w2.job.start) ∧
        ([0, 1, 1, 1, 0, 0, 0, 0] : List Nat)[4 / 2]? = some (Ω (4 / 2) % 256)) :=
  ⟨(reads_below_retired 7 (by norm_num) _ _ (Trace.init init_seven)).1 (Action.sched 0)
      (by decide) (by decide) ⟨4, 5, [2, 3]⟩ (by decide) 4 2 (by decide) (by decide) (by decide)
      (by decide),
    (reads_below_retired 7 (by norm_num) _ _ trace_first_seed).2 ⟨⟨4, 5, [2, 3]⟩, 4, [4, 5]⟩
      (by decide) 4 2 (by decide) (by decide) (by decide) (by decide)⟩

/-- Counterexample to C16 as stated, on a table of length `8` and a run-time that
grants capacities up to `2^45`: the task `[5, 5)` and the task `[9, 12)` with an empty
snapshot are both completed and reported, the table left as it was. -/
theorem goFactor_tolerates_malformed :
    goFactorOn (2 ^ 45) [0, 1, 1, 1, 0, 0, 0, 0] ⟨5, 5, [2, 3]⟩
        = Except.ok (some ([0, 1, 1, 1, 0, 0, 0, 0], [5, 5])) ∧
      goFactorOn (2 ^ 45) [0, 1, 1, 1, 0, 0, 0, 0] ⟨9, 12, []⟩
        = Except.ok (some ([0, 1, 1, 1, 0, 0, 0, 0], [9, 12])) := by
  constructor <;> decide

/-- C16, amended: for every task with `start != 0`, on a run-time that grants
capacities up to `lim`: when `start > end`, `goFactor` fails at `make` (the capacity is
below the length); when `len(tab) ≤ start < end` and the loop over the snapshot for
`i = start` leaves through a `break`, `goFactor` fails before it reports, at `make`
when the capacity `2+end-start` is above `lim` and else with an index out of range at
its first assignment.  A task with `start == end` is not rejected: it is completed and
`[start, end]` reported, the table left as it was. -/
theorem goFactor_malformed (lim : Nat) (tab : List Nat) (t : Task) (h0 : t.start ≠ 0) :
    (t.end_ < t.start → goFactorOn lim tab t = Except.error Fault.makeslice) ∧
      (tab.length ≤ t.start → t.start < t.end_ →
        breaks t.start (maxOf t.start) t.primes = true →
        goFactorOn lim tab t = Except.error
          (if lim < t.end_ + 2 - t.start then Fault.makeslice else Fault.indexOutOfRange)) ∧
      (t.start = t.end_ → 2 ≤ lim →
        goFactorOn lim tab t = Except.ok (some (tab, [t.start, t.end_]))) := by
  refine ⟨?_, ?_, ?_⟩
  · intro h
    have h1 : t.end_ + 2 < t.start + 2 := by omega
    simp [goFactorOn, acceptOn, h0, h1]
  · intro h1 h2 h3
    have h4 : ¬ t.end_ + 2 < t.start + 2 := by omega
    by_cases hl : lim < t.end_ + 2 - t.start
    · simp [goFactorOn, acceptOn, h0, h4, hl]
    · obtain ⟨k, hk⟩ : ∃ k, t.end_ - t.start = k + 1 := ⟨t.end_ - t.start - 1, by omega⟩
      have hd : ¬ t.end_ ≤ t.start := by omega
      simp only [goFactorOn, acceptOn, h0, h4, hl, if_false, hk, workLoop, Worker.done, hd,
        decide_False, Bool.false_eq_true, tickWorker,
        trial_out_of_range tab t.start _ _ _ h3 h1]
  · intro h hlim
    have h4 : ¬ t.end_ + 2 < t.start + 2 := by omega
    have hl : ¬ lim < t.end_ + 2 - t.start := by omega
    have hk : t.end_ - t.start = 0 := by omega
    simp [goFactorOn, acceptOn, h0, h4, hl, hk, workLoop]

/-- Witness for C16, amended, on a table of length `8` and a run-time that grants
capacities up to `2^45`: the tasks `[5, 4)`, `[9, 10)`, `[9, 2^60 + 9)` and `[5, 5)`,
each with the snapshot `[2, 3]`. -/
theorem goFactor_malformed_witness :
    goFactorOn (2 ^ 45) [0, 1, 1, 1, 0, 0, 0, 0] ⟨5, 4, [2, 3]⟩
        = Except.error Fault.makeslice ∧
      goFactorOn (2 ^ 45) [0, 1, 1, 1, 0, 0, 0, 0] ⟨9, 10, [2, 3]⟩
        = Except.error Fault.indexOutOfRange ∧
      goFactorOn (2 ^ 45) [0, 1, 1, 1, 0, 0, 0, 0] ⟨9, 1152921504606846985, [2, 3]⟩
        = Except.error Fault.makeslice ∧
      goFactorOn (2 ^ 45) [0, 1, 1, 1, 0, 0, 0, 0] ⟨5, 5, [2, 3]⟩
        = Except.ok (some ([0, 1, 1, 1, 0, 0, 0, 0], [5, 5])) :=
  ⟨(goFactor_malformed (2 ^ 45) [0, 1, 1, 1, 0, 0, 0, 0] ⟨5, 4, [2, 3]⟩ (by decide)).1
      (by decide),
    (goFactor_malformed (2 ^ 45) [0, 1, 1, 1, 0, 0, 0, 0] ⟨9, 10, [2, 3]⟩ (by decide)).2.1
      (by decide) (by decide) (by decide),
    (goFactor_malformed (2 ^ 45) [0, 1, 1, 1, 0, 0, 0, 0] ⟨9, 1152921504606846985, [2, 3]⟩
      (by decide)).2.1 (by decide) (by decide) (by decide),
    (goFactor_malformed (2 ^ 45) [0, 1, 1, 1, 0, 0, 0, 0] ⟨5, 5, [2, 3]⟩ (by decide)).2.2
      (by decide) (by decide)⟩

/-- C17: for every `size` with `MIN_SIZE ≤ size ≤ MAX_SIZE` and every schedule (long
enough for the run to end), every entry `tab[i]`, `1 ≤ i ≤ size*size`, of the table
`factCount` leaves is below `max = 1 + ⌊log2 (size*size)⌋`, so the lookup
`colorTab[tab[i]]` is in range; `renderImage` in greyscale then runs through, setting
`size*size` pixels. -/
theorem color_lookup_in_range (size : Nat) (hmin : MIN_SIZE ≤ (size : Int))
    (hmax : (size : Int) ≤ MAX_SIZE) (cs : List Nat) (hcs : 4 * (size * size + 1) ≤ cs.length) :
    ∃ tab cnt, factCount (makeTab size) cs = Except.ok (tab, cnt) ∧
      (∀ i, 1 ≤ i → i ≤ size * size → ∃ v, tab[i]? = some v ∧ v < maxGrey size ∧
        ∃ c, shade tab (colorTab (maxGrey size)) true i = Except.ok c) ∧
      ∃ img, renderImage tab size true = Except.ok img ∧ img.length = size * size := by
  have h3 : 3 ≤ size := by unfold MIN_SIZE at hmin; omega
  have h16 : size ≤ 16000 := by unfold MAX_SIZE at hmax; omega
  have h9 : 9 ≤ size * size := by nlinarith
  have hN : size * size < 2 ^ 256 := by
    have : size * size ≤ 16000 * 16000 := Nat.mul_le_mul h16 h16
    calc size * size ≤ 16000 * 16000 := this
      _ < 2 ^ 256 := by norm_num
  obtain ⟨s, _, hfc, hlen, _, hone, htab, _⟩ := factCount_spec (size * size) (by omega) cs hcs
  have hval : ∀ i, 1 ≤ i → i ≤ size * size → ∃ v, s.tab[i]? = some v ∧ v < maxGrey size := by
    intro i hi1 hi2
    by_cases hi : i = 1
    · subst hi
      refine ⟨1, hone, ?_⟩
      have := cardFactors_lt_maxGrey size 2 (by omega) (by omega)
      rw [cardFactors_apply_prime Nat.prime_two] at this
      exact this
    · refine ⟨Ω i, ?_, cardFactors_lt_maxGrey size i hi1 hi2⟩
      rw [htab i (by omega) hi2, cardFactors_mod i (by omega) (lt_of_le_of_lt hi2 hN)]
  have hshade : ∀ i, 1 ≤ i → i ≤ size * size →
      ∃ c, shade s.tab (colorTab (maxGrey size)) true i = Except.ok c := by
    intro i hi1 hi2
    obtain ⟨v, hv, hlt⟩ := hval i hi1 hi2
    exact shade_grey s.tab _ i v hv hlt
  refine ⟨s.tab, s.primes.length, hfc, ?_, ?_⟩
  · intro i hi1 hi2
    obtain ⟨v, hv, hlt⟩ := hval i hi1 hi2
    exact ⟨v, hv, hlt, hshade i hi1 hi2⟩
  · obtain ⟨ds, hds, hw⟩ := paint_spec s.tab (colorTab (maxGrey size)) true (s.tab.length - 1) 1
      (penStart size) (by omega) (fun j hj hjl => hshade j hj (by omega))
    refine ⟨ds, hds, ?_⟩
    have := congrArg List.length hw
    rw [List.length_map, walk_length, hlen] at this
    simpa using this

/-- Witness for C17: `size = 3` under the schedule of forty zeros. -/
theorem color_lookup_in_range_witness :
    ∃ tab cnt, factCount (makeTab 3) (List.replicate 40 0) = Except.ok (tab, cnt) ∧
      (∀ i, 1 ≤ i → i ≤ 3 * 3 → ∃ v, tab[i]? = some v ∧ v < maxGrey 3 ∧
        ∃ c, shade tab (colorTab (maxGrey 3)) true i = Except.ok c) ∧
      ∃ img, renderImage tab 3 true = Except.ok img ∧ img.length = 3 * 3 :=
  color_lookup_in_range 3 (by decide) (by decide) (List.replicate 40 0) (by simp)

/-- C18: for every `size ≥ 1` and every table of length `size*size + 1`, `renderImage`
calls `raw.Set` once for each `i = 1, ..., size*size`; the first call is at
`((size-1)/2, size/2)`, every call is at a point with `0 ≤ x < size` and `0 ≤ y < size`,
no point is set twice and every point of the square is set.  In greyscale the calls are
at the same points. -/
theorem spiral_paints_each_pixel_once (size : Nat) (h1 : 1 ≤ size) (tab : List Nat)
    (hlen : tab.length = size * size + 1) :
    ∃ img, renderImage tab size false = Except.ok img ∧ img.length = size * size ∧
      (img.map (fun d => (d.x, d.y))).head?
        = some (Int.tdiv ((size : Int) - 1) 2, Int.tdiv (size : Int) 2) ∧
      (∀ d ∈ img, 0 ≤ d.x ∧ d.x < size ∧ 0 ≤ d.y ∧ d.y < size) ∧
      (img.map (fun d => (d.x, d.y))).Nodup ∧
      (∀ x y : Int, 0 ≤ x → x < size → 0 ≤ y → y < size →
        (x, y) ∈ img.map (fun d => (d.x, d.y))) ∧
      ∀ img2, renderImage tab size true = Except.ok img2 →
        img2.map (fun d => (d.x, d.y)) = img.map (fun d => (d.x, d.y)) := by
  have hk : tab.length - 1 = size * size := by omega
  obtain ⟨ds, hds, hw⟩ := paint_spec tab (colorTab (maxGrey size)) false (tab.length - 1) 1
    (penStart size) (by omega) (fun j _ hjl => shade_mono tab _ j hjl)
  rw [hk] at hw
  obtain ⟨hnd, hmem⟩ := walk_fills size h1
  have hpos : 1 ≤ size * size := Nat.mul_pos h1 h1
  refine ⟨ds, hds, ?_, ?_, ?_, ?_, ?_, ?_⟩
  · have := congrArg List.length hw
    rwa [List.length_map, walk_length] at this
  · rw [hw]
    obtain ⟨m, hm⟩ : ∃ m, size * size = m + 1 := ⟨size * size - 1, by omega⟩
    rw [hm, walk_head]
    rfl
  · intro d hd
    have hin : (d.x, d.y) ∈ walk (size * size) (penStart size) := by
      rw [← hw]
      exact List.mem_map.2 ⟨d, hd, rfl⟩
    have := (hmem d.x d.y).1 hin
    omega
  · rw [hw]; exact hnd
  · intro x y hx0 hx1 hy0 hy1
    rw [hw]
    exact (hmem x y).2 (by omega)
  · intro img2 h2
    rw [hw]
    have := paint_coords tab (colorTab (maxGrey size)) true (tab.length - 1) 1 (penStart size)
      img2 (by omega) h2
    rw [hk] at this
    exact this

/-- Witness for C18: `size = 3` on the zeroed table of length `10`. -/
theorem spiral_paints_each_pixel_once_witness :
    ∃ img, renderImage (List.replicate 10 0) 3 false = Except.ok img ∧ img.length = 3 * 3 ∧
      (img.map (fun d => (d.x, d.y))).head?
        = some (Int.tdiv (((3 : Nat) : Int) - 1) 2, Int.tdiv ((3 : Nat) : Int) 2) ∧
      (∀ d ∈ img, 0 ≤ d.x ∧ d.x < (3 : Nat) ∧ 0 ≤ d.y ∧ d.y < (3 : Nat)) ∧
      (img.map (fun d => (d.x, d.y))).Nodup ∧
      (∀ x y : Int, 0 ≤ x → x < (3 : Nat) → 0 ≤ y → y < (3 : Nat) →
        (x, y) ∈ img.map (fun d => (d.x, d.y))) ∧
      ∀ img2, renderImage (List.replicate 10 0) 3 true = Except.ok img2 →
        img2.map (fun d => (d.x, d.y)) = img.map (fun d => (d.x, d.y)) :=
  spiral_paints_each_pixel_once 3 (by norm_num) (List.replicate 10 0) (by simp)

end Ulaminator
